import Mathlib

/-!
# Stack blur (`blur.cpp`): shallow embedding

The C++ functions `processingRow`, `processingColumn` and `blur` are embedded as
functions into `Except Fault`.  An access outside an array, which is undefined
behaviour in C++, is the error branch; it carries the offending index.

* `unsigned int` pixels are natural numbers (their 32-bit pattern).  The cells
  of `blurStack` are `int` in the source; they hold the same 32 bits, and the
  only use of a cell is `(cell >> k) & 0xff` with `k` in {0, 8, 16}, which reads
  the same bits on the signed and on the unsigned value, so a cell is kept as
  the natural number of its bit pattern.
* the nine `long` accumulators are integers; `long` is taken to be 64 bits
  wide, which the sums (at most `255 * 255 * 255 * 512` in absolute value for
  a radius up to 254) never leave.
* `int` indices and counters are integers; the images have fewer than `2 ^ 31`
  pixels, so no index computation leaves the range of `int`.
* `x >> s` on a `long` is the arithmetic shift `Int.shiftRight`, and `x & 0xff`
  on a `long` is `x % 256` (the low eight bits in complement representation).
* the worker pool runs the jobs of one phase one after the other, in the order
  in which `blur` enqueues them.
-/

namespace StackBlur

set_option maxRecDepth 100000

/-- Out-of-range accesses of the program, each with the index that was used. -/
inductive Fault where
  /-- A read `MUL_TABLE[i]` or `SHR_TABLE[i]` outside the table. -/
  | tableIndex (i : Int)
  /-- An access `imagePixels[i]` outside the buffer handed to `blur`. -/
  | pixelIndex (i : Int)
  /-- An access `blurStack[i]` outside its `divisor` cells. -/
  | stackIndex (i : Int)
  /-- An allocation `new int[n]` with a negative `n`. -/
  | arrayLength (n : Int)
  deriving DecidableEq

deriving instance DecidableEq for Except

/-- Modelled from the spec: the structure is declared in `blur.h`, which is not among
the sources.  The fields are the ones the two functions read through `sharedValues->`,
in the order of the initialiser in `blur` (line 380):
`{targetWidth - 1, targetHeight - 1, radius * 2 + 1, MUL_TABLE[radius], SHR_TABLE[radius],
targetWidth, targetHeight, radius}`. -/
structure SharedValues where
  widthMax : Int
  heightMax : Int
  divisor : Int
  multiplySum : Int
  shiftSum : Int
  targetWidth : Int
  targetHeight : Int
  blurRadius : Int

/-- The multiplier table of the source file (lines 459-476), 255 entries. -/
def mulTable : List Int :=
  [512, 512, 456, 512, 328, 456, 335, 512, 405, 328, 271, 456, 388, 335, 292, 512,
   454, 405, 364, 328, 298, 271, 496, 456, 420, 388, 360, 335, 312, 292, 273, 512,
   482, 454, 428, 405, 383, 364, 345, 328, 312, 298, 284, 271, 259, 496, 475, 456,
   437, 420, 404, 388, 374, 360, 347, 335, 323, 312, 302, 292, 282, 273, 265, 512,
   497, 482, 468, 454, 441, 428, 417, 405, 394, 383, 373, 364, 354, 345, 337, 328,
   320, 312, 305, 298, 291, 284, 278, 271, 265, 259, 507, 496, 485, 475, 465, 456,
   446, 437, 428, 420, 412, 404, 396, 388, 381, 374, 367, 360, 354, 347, 341, 335,
   329, 323, 318, 312, 307, 302, 297, 292, 287, 282, 278, 273, 269, 265, 261, 512,
   505, 497, 489, 482, 475, 468, 461, 454, 447, 441, 435, 428, 422, 417, 411, 405,
   399, 394, 389, 383, 378, 373, 368, 364, 359, 354, 350, 345, 341, 337, 332, 328,
   324, 320, 316, 312, 309, 305, 301, 298, 294, 291, 287, 284, 281, 278, 274, 271,
   268, 265, 262, 259, 257, 507, 501, 496, 491, 485, 480, 475, 470, 465, 460, 456,
   451, 446, 442, 437, 433, 428, 424, 420, 416, 412, 408, 404, 400, 396, 392, 388,
   385, 381, 377, 374, 370, 367, 363, 360, 357, 354, 350, 347, 344, 341, 338, 335,
   332, 329, 326, 323, 320, 318, 315, 312, 310, 307, 304, 302, 299, 297, 294, 292,
   289, 287, 285, 282, 280, 278, 275, 273, 271, 269, 267, 265, 263, 261, 259]

/-- The shift table of the source file (lines 478-495), 255 entries. -/
def shrTable : List Int :=
  [9, 11, 12, 13, 13, 14, 14, 15, 15, 15, 15, 16, 16, 16, 16, 17,
   17, 17, 17, 17, 17, 17, 18, 18, 18, 18, 18, 18, 18, 18, 18, 19,
   19, 19, 19, 19, 19, 19, 19, 19, 19, 19, 19, 19, 19, 20, 20, 20,
   20, 20, 20, 20, 20, 20, 20, 20, 20, 20, 20, 20, 20, 20, 20, 21,
   21, 21, 21, 21, 21, 21, 21, 21, 21, 21, 21, 21, 21, 21, 21, 21,
   21, 21, 21, 21, 21, 21, 21, 21, 21, 21, 22, 22, 22, 22, 22, 22,
   22, 22, 22, 22, 22, 22, 22, 22, 22, 22, 22, 22, 22, 22, 22, 22,
   22, 22, 22, 22, 22, 22, 22, 22, 22, 22, 22, 22, 22, 22, 22, 23,
   23, 23, 23, 23, 23, 23, 23, 23, 23, 23, 23, 23, 23, 23, 23, 23,
   23, 23, 23, 23, 23, 23, 23, 23, 23, 23, 23, 23, 23, 23, 23, 23,
   23, 23, 23, 23, 23, 23, 23, 23, 23, 23, 23, 23, 23, 23, 23, 23,
   23, 23, 23, 23, 23, 24, 24, 24, 24, 24, 24, 24, 24, 24, 24, 24,
   24, 24, 24, 24, 24, 24, 24, 24, 24, 24, 24, 24, 24, 24, 24, 24,
   24, 24, 24, 24, 24, 24, 24, 24, 24, 24, 24, 24, 24, 24, 24, 24,
   24, 24, 24, 24, 24, 24, 24, 24, 24, 24, 24, 24, 24, 24, 24, 24,
   24, 24, 24, 24, 24, 24, 24, 24, 24, 24, 24, 24, 24, 24, 24]


/-- Modelled from the spec: `MUL_TABLE` is declared in `blur.h`, which is not among the
sources.  The specification gives one multiplier per radius in `0 .. 254`; the entries
are those of the table that the source file keeps at lines 459-476. -/
def MUL_TABLE : List Int := mulTable

/-- Modelled from the spec: `SHR_TABLE` is declared in `blur.h`, which is not among the
sources.  The specification gives one shift per radius in `0 .. 254`; the entries are
those of the table that the source file keeps at lines 478-495. -/
def SHR_TABLE : List Int := shrTable

/-- Table read `table[i]`. -/
def tableAt (table : List Int) (i : Int) : Except Fault Int :=
  if 0 ≤ i then
    match table[i.toNat]? with
    | some v => .ok v
    | none => .error (.tableIndex i)
  else .error (.tableIndex i)

/-- Array read `cells[i]`; `mk` names the array in the fault. -/
def readCell (mk : Int → Fault) (cells : List Nat) (i : Int) : Except Fault Nat :=
  if 0 ≤ i then
    match cells[i.toNat]? with
    | some v => .ok v
    | none => .error (mk i)
  else .error (mk i)

/-- Array write `cells[i] = v`; `mk` names the array in the fault. -/
def writeCell (mk : Int → Fault) (cells : List Nat) (i : Int) (v : Nat) :
    Except Fault (List Nat) :=
  if 0 ≤ i ∧ i.toNat < cells.length then .ok (cells.set i.toNat v) else .error (mk i)

/-- Read of `imagePixels[i]`. -/
def readPixel (imagePixels : List Nat) (i : Int) : Except Fault Nat :=
  readCell Fault.pixelIndex imagePixels i

/-- Write of `imagePixels[i]`. -/
def writePixel (imagePixels : List Nat) (i : Int) (v : Nat) : Except Fault (List Nat) :=
  writeCell Fault.pixelIndex imagePixels i v

/-- Read of `blurStack[i]`. -/
def readStack (blurStack : List Nat) (i : Int) : Except Fault Nat :=
  readCell Fault.stackIndex blurStack i

/-- Write of `blurStack[i]`. -/
def writeStack (blurStack : List Nat) (i : Int) (v : Nat) : Except Fault (List Nat) :=
  writeCell Fault.stackIndex blurStack i v

/-- Allocation `new int[n]`; the cells are not initialised by the source and are
modelled as zero (every cell is written by the seeding loop before it is read). -/
def newIntArray (n : Int) : Except Fault (List Nat) :=
  if 0 ≤ n then .ok (List.replicate n.toNat 0) else .error (.arrayLength n)

/-- Channel `(pixel >> 16) & 0xff`. -/
def red (pixel : Nat) : Int := (((pixel >>> 16) &&& 0xff : Nat) : Int)

/-- Channel `(pixel >> 8) & 0xff`. -/
def green (pixel : Nat) : Int := (((pixel >>> 8) &&& 0xff : Nat) : Int)

/-- Channel `pixel & 0xff`. -/
def blue (pixel : Nat) : Int := ((pixel &&& 0xff : Nat) : Int)

/-- The top byte, bits 24..31, of a pixel. -/
def alpha (pixel : Nat) : Nat := (pixel >>> 24) &&& 0xff

/-- The low byte `x & 0xff` of a `long`. -/
def lowByte (x : Int) : Nat := (x % 256).toNat

/-- One output channel, `((sum * multiplySum) >> shiftSum) & 0xff`. -/
def outChannel (sum multiplySum shiftSum : Int) : Nat :=
  lowByte ((sum * multiplySum) >>> shiftSum.toNat)

/-- The value stored by lines 188-191 and 320-322:
`(old & 0xff000000) | (R << 16) | (G << 8) | B` with
`R = ((sumRed * multiplySum) >> shiftSum) & 0xff` and likewise `G`, `B`.  The
value is below `2 ^ 32`, so the store into an `unsigned int` keeps it. -/
def blurredPixel (old : Nat) (sumRed sumGreen sumBlue multiplySum shiftSum : Int) : Nat :=
  (old &&& 0xff000000) ||| (outChannel sumRed multiplySum shiftSum <<< 16) |||
    (outChannel sumGreen multiplySum shiftSum <<< 8) |||
    outChannel sumBlue multiplySum shiftSum

/-- The variables that one job keeps while it works on a scanline.  `offset` is
`colOffset` in `processingRow` and `yOffset` in `processingColumn`; `inIndex` is
`inPixelIndex` resp. `sourceIndex`; `outIndex` is `outputPixelIndex` resp.
`destinationIndex`.  The other fields carry the names of the source. -/
structure Locals where
  imagePixels : List Nat
  blurStack : List Nat
  sumRed : Int
  sumGreen : Int
  sumBlue : Int
  sumInputRed : Int
  sumInputGreen : Int
  sumInputBlue : Int
  sumOutputRed : Int
  sumOutputGreen : Int
  sumOutputBlue : Int
  stackPointer : Int
  offset : Int
  inIndex : Int
  outIndex : Int

/-- A counted loop `for (int i = first; ...; i++)` that runs `count` times. -/
def forRange {σ : Type} (body : Int → σ → Except Fault σ) : Nat → Int → σ → Except Fault σ
  | 0, _, s => .ok s
  | count + 1, i, s =>
    match body i s with
    | .error e => .error e
    | .ok s1 => forRange body count (i + 1) s1

/-- Body of the seeding loop of `processingRow` (lines 140-178) for one `rad`. -/
def processingRowSeed (sv : SharedValues) (startPixelIndex : Int) (rad : Int) (v : Locals) :
    Except Fault Locals := do
  let pixel ← readPixel v.imagePixels startPixelIndex
  let blurStack ← writeStack v.blurStack rad pixel
  let multiplier := rad - 1
  let sumRed := v.sumRed + red pixel * multiplier
  let sumGreen := v.sumGreen + green pixel * multiplier
  let sumBlue := v.sumBlue + blue pixel * multiplier
  let sumOutputRed := v.sumOutputRed + red pixel
  let sumOutputGreen := v.sumOutputGreen + green pixel
  let sumOutputBlue := v.sumOutputBlue + blue pixel
  if rad ≥ 1 then
    let inIndex := if rad ≤ sv.widthMax then v.inIndex + 1 else v.inIndex
    let pixel ← readPixel v.imagePixels inIndex
    let blurStack ← writeStack blurStack (rad + sv.blurRadius) pixel
    let multiplier := sv.blurRadius + 1 - rad
    pure { v with
      blurStack := blurStack
      inIndex := inIndex
      sumRed := sumRed + red pixel * multiplier
      sumGreen := sumGreen + green pixel * multiplier
      sumBlue := sumBlue + blue pixel * multiplier
      sumInputRed := v.sumInputRed + red pixel
      sumInputGreen := v.sumInputGreen + green pixel
      sumInputBlue := v.sumInputBlue + blue pixel
      sumOutputRed := sumOutputRed
      sumOutputGreen := sumOutputGreen
      sumOutputBlue := sumOutputBlue }
  else
    pure { v with
      blurStack := blurStack
      sumRed := sumRed
      sumGreen := sumGreen
      sumBlue := sumBlue
      sumOutputRed := sumOutputRed
      sumOutputGreen := sumOutputGreen
      sumOutputBlue := sumOutputBlue }

/-- Body of the column loop of `processingRow` (lines 187-242) for one `col`. -/
def processingRowScan (sv : SharedValues) (_col : Int) (v : Locals) : Except Fault Locals := do
  let old ← readPixel v.imagePixels v.outIndex
  let imagePixels ← writePixel v.imagePixels v.outIndex
    (blurredPixel old v.sumRed v.sumGreen v.sumBlue sv.multiplySum sv.shiftSum)
  let outIndex := v.outIndex + 1
  let sumRed := v.sumRed - v.sumOutputRed
  let sumGreen := v.sumGreen - v.sumOutputGreen
  let sumBlue := v.sumBlue - v.sumOutputBlue
  let stackStart := v.stackPointer + sv.divisor - sv.blurRadius
  let stackStart := if stackStart ≥ sv.divisor then stackStart - sv.divisor else stackStart
  let stackIndex := stackStart
  let leaving ← readStack v.blurStack stackIndex
  let sumOutputRed := v.sumOutputRed - red leaving
  let sumOutputGreen := v.sumOutputGreen - green leaving
  let sumOutputBlue := v.sumOutputBlue - blue leaving
  let inIndex := if v.offset < sv.widthMax then v.inIndex + 1 else v.inIndex
  let offset := if v.offset < sv.widthMax then v.offset + 1 else v.offset
  let pixel ← readPixel imagePixels inIndex
  let blurStack ← writeStack v.blurStack stackIndex pixel
  let sumInputRed := v.sumInputRed + red pixel
  let sumInputGreen := v.sumInputGreen + green pixel
  let sumInputBlue := v.sumInputBlue + blue pixel
  let sumRed := sumRed + sumInputRed
  let sumGreen := sumGreen + sumInputGreen
  let sumBlue := sumBlue + sumInputBlue
  let stackPointer := if v.stackPointer + 1 ≥ sv.divisor then 0 else v.stackPointer + 1
  let stackPixel ← readStack blurStack stackPointer
  pure {
    imagePixels := imagePixels
    blurStack := blurStack
    sumRed := sumRed
    sumGreen := sumGreen
    sumBlue := sumBlue
    sumInputRed := sumInputRed - red stackPixel
    sumInputGreen := sumInputGreen - green stackPixel
    sumInputBlue := sumInputBlue - blue stackPixel
    sumOutputRed := sumOutputRed + red stackPixel
    sumOutputGreen := sumOutputGreen + green stackPixel
    sumOutputBlue := sumOutputBlue + blue stackPixel
    stackPointer := stackPointer
    offset := offset
    inIndex := inIndex
    outIndex := outIndex }

/-- Body of the row loop of `processingRow` (lines 134-243) for one `row`. -/
def processingRowLine (sv : SharedValues) (row : Int) (v : Locals) : Except Fault Locals := do
  let startPixelIndex := row * sv.targetWidth
  let v0 : Locals := { v with
    sumRed := 0, sumGreen := 0, sumBlue := 0
    sumInputRed := 0, sumInputGreen := 0, sumInputBlue := 0
    sumOutputRed := 0, sumOutputGreen := 0, sumOutputBlue := 0
    inIndex := startPixelIndex }
  let v1 ← forRange (processingRowSeed sv startPixelIndex) (sv.blurRadius + 1).toNat 0 v0
  let colOffset := if sv.blurRadius > sv.widthMax then sv.widthMax else sv.blurRadius
  let v2 : Locals := { v1 with
    stackPointer := sv.blurRadius
    offset := colOffset
    inIndex := colOffset + row * sv.targetWidth
    outIndex := startPixelIndex }
  forRange (processingRowScan sv) sv.targetWidth.toNat 0 v2

/-- The locals of a job before its first scanline. -/
def initLocals (imagePixels blurStack : List Nat) : Locals :=
  { imagePixels := imagePixels, blurStack := blurStack
    sumRed := 0, sumGreen := 0, sumBlue := 0
    sumInputRed := 0, sumInputGreen := 0, sumInputBlue := 0
    sumOutputRed := 0, sumOutputGreen := 0, sumOutputBlue := 0
    stackPointer := 0, offset := 0, inIndex := 0, outIndex := 0 }

/-- The function `processingRow` (lines 113-247): the rows `startRow..endRow`, in place. -/
def processingRow (sv : SharedValues) (imagePixels : List Nat) (startRow endRow : Int) :
    Except Fault (List Nat) := do
  let blurStack ← newIntArray sv.divisor
  let v ← forRange (processingRowLine sv) (endRow + 1 - startRow).toNat startRow
    (initLocals imagePixels blurStack)
  pure v.imagePixels

/-- Body of the seeding loop of `processingColumn` (lines 272-312) for one `rad`. -/
def processingColumnSeed (sv : SharedValues) (rad : Int) (v : Locals) :
    Except Fault Locals := do
  let pixel ← readPixel v.imagePixels v.inIndex
  let blurStack ← writeStack v.blurStack rad pixel
  let multiplier := rad + 1
  let sumRed := v.sumRed + red pixel * multiplier
  let sumGreen := v.sumGreen + green pixel * multiplier
  let sumBlue := v.sumBlue + blue pixel * multiplier
  let sumOutputRed := v.sumOutputRed + red pixel
  let sumOutputGreen := v.sumOutputGreen + green pixel
  let sumOutputBlue := v.sumOutputBlue + blue pixel
  if rad ≥ 1 then
    let inIndex := if rad ≤ sv.heightMax then v.inIndex + sv.targetWidth else v.inIndex
    let pixel ← readPixel v.imagePixels inIndex
    let blurStack ← writeStack blurStack (rad + sv.blurRadius) pixel
    let multiplier := sv.blurRadius + 1 - rad
    pure { v with
      blurStack := blurStack
      inIndex := inIndex
      sumRed := sumRed + red pixel * multiplier
      sumGreen := sumGreen + green pixel * multiplier
      sumBlue := sumBlue + blue pixel * multiplier
      sumInputRed := v.sumInputRed + red pixel
      sumInputGreen := v.sumInputGreen + green pixel
      sumInputBlue := v.sumInputBlue + blue pixel
      sumOutputRed := sumOutputRed
      sumOutputGreen := sumOutputGreen
      sumOutputBlue := sumOutputBlue }
  else
    pure { v with
      blurStack := blurStack
      sumRed := sumRed
      sumGreen := sumGreen
      sumBlue := sumBlue
      sumOutputRed := sumOutputRed
      sumOutputGreen := sumOutputGreen
      sumOutputBlue := sumOutputBlue }

/-- Body of the row loop of `processingColumn` (lines 319-368) for one `y`. -/
def processingColumnScan (sv : SharedValues) (_y : Int) (v : Locals) : Except Fault Locals := do
  let old ← readPixel v.imagePixels v.outIndex
  let imagePixels ← writePixel v.imagePixels v.outIndex
    (blurredPixel old v.sumRed v.sumGreen v.sumBlue sv.multiplySum sv.shiftSum)
  let outIndex := v.outIndex + sv.targetWidth
  let sumRed := v.sumRed - v.sumOutputRed
  let sumGreen := v.sumGreen - v.sumOutputGreen
  let sumBlue := v.sumBlue - v.sumOutputBlue
  let stackStart := v.stackPointer + sv.divisor - sv.blurRadius
  let stackStart := if stackStart ≥ sv.divisor then stackStart - sv.divisor else stackStart
  let stackIndex := stackStart
  let leaving ← readStack v.blurStack stackIndex
  let sumOutputRed := v.sumOutputRed - red leaving
  let sumOutputGreen := v.sumOutputGreen - green leaving
  let sumOutputBlue := v.sumOutputBlue - blue leaving
  let inIndex := if v.offset < sv.heightMax then v.inIndex + sv.targetWidth else v.inIndex
  let offset := if v.offset < sv.heightMax then v.offset + 1 else v.offset
  let pixel ← readPixel imagePixels inIndex
  let blurStack ← writeStack v.blurStack stackIndex pixel
  let sumInputRed := v.sumInputRed + red pixel
  let sumInputGreen := v.sumInputGreen + green pixel
  let sumInputBlue := v.sumInputBlue + blue pixel
  let sumRed := sumRed + sumInputRed
  let sumGreen := sumGreen + sumInputGreen
  let sumBlue := sumBlue + sumInputBlue
  let stackPointer := if v.stackPointer + 1 ≥ sv.divisor then 0 else v.stackPointer + 1
  let stackPixel ← readStack blurStack stackPointer
  pure {
    imagePixels := imagePixels
    blurStack := blurStack
    sumRed := sumRed
    sumGreen := sumGreen
    sumBlue := sumBlue
    sumInputRed := sumInputRed - red stackPixel
    sumInputGreen := sumInputGreen - green stackPixel
    sumInputBlue := sumInputBlue - blue stackPixel
    sumOutputRed := sumOutputRed + red stackPixel
    sumOutputGreen := sumOutputGreen + green stackPixel
    sumOutputBlue := sumOutputBlue + blue stackPixel
    stackPointer := stackPointer
    offset := offset
    inIndex := inIndex
    outIndex := outIndex }

/-- Body of the column loop of `processingColumn` (lines 268-369) for one `col`. -/
def processingColumnLine (sv : SharedValues) (col : Int) (v : Locals) : Except Fault Locals := do
  let v0 : Locals := { v with
    sumRed := 0, sumGreen := 0, sumBlue := 0
    sumInputRed := 0, sumInputGreen := 0, sumInputBlue := 0
    sumOutputRed := 0, sumOutputGreen := 0, sumOutputBlue := 0
    inIndex := col }
  let v1 ← forRange (processingColumnSeed sv) (sv.blurRadius + 1).toNat 0 v0
  let yOffset := min sv.blurRadius sv.heightMax
  let v2 : Locals := { v1 with
    stackPointer := sv.blurRadius
    offset := yOffset
    inIndex := col + yOffset * sv.targetWidth
    outIndex := col }
  forRange (processingColumnScan sv) sv.targetHeight.toNat 0 v2

/-- The function `processingColumn` (lines 249-372): the columns
`startColumn..endColumn`, in place. -/
def processingColumn (sv : SharedValues) (imagePixels : List Nat) (startColumn endColumn : Int) :
    Except Fault (List Nat) := do
  let blurStack ← newIntArray sv.divisor
  let v ← forRange (processingColumnLine sv) (endColumn + 1 - startColumn).toNat startColumn
    (initLocals imagePixels blurStack)
  pure v.imagePixels

/-- The bands `[i * per, (i + 1) * per - 1]`, `i = 0 .. availableThreads - 1`, that the
two loops of `blur` (lines 387-398) hand to the jobs. -/
def bands (per : Int) (availableThreads : Nat) : List (Int × Int) :=
  (List.range availableThreads).map fun (i : Nat) => ((i : Int) * per, ((i : Int) + 1) * per - 1)

/-- The jobs of one phase, run one after the other in the order of the queue. -/
def runJobs (job : List Nat → Int → Int → Except Fault (List Nat)) :
    List (Int × Int) → List Nat → Except Fault (List Nat)
  | [], imagePixels => .ok imagePixels
  | (first, last) :: rest, imagePixels =>
    match job imagePixels first last with
    | .error e => .error e
    | .ok imagePixels1 => runJobs job rest imagePixels1

/-- The initialiser `new SharedValues{targetWidth - 1, targetHeight - 1, radius * 2 + 1,
MUL_TABLE[radius], SHR_TABLE[radius], targetWidth, targetHeight, radius}` of line 380,
with the two table entries as arguments. -/
def newSharedValues (radius targetWidth targetHeight multiplySum shiftSum : Int) :
    SharedValues :=
  { widthMax := targetWidth - 1, heightMax := targetHeight - 1, divisor := radius * 2 + 1
    multiplySum := multiplySum, shiftSum := shiftSum
    targetWidth := targetWidth, targetHeight := targetHeight, blurRadius := radius }

/-- The function `blur` (lines 374-421).  `availableThreads` is the value of
`sysconf(_SC_NPROCESSORS_ONLN)`; `/` of the source truncates. -/
def blur (imagePixels : List Nat) (radius targetWidth targetHeight : Int)
    (availableThreads : Nat) : Except Fault (List Nat) := do
  let r := Int.tdiv targetHeight availableThreads
  let c := Int.tdiv targetWidth availableThreads
  let multiplySum ← tableAt MUL_TABLE radius
  let shiftSum ← tableAt SHR_TABLE radius
  let sharedValues := newSharedValues radius targetWidth targetHeight multiplySum shiftSum
  let rowWorks := bands r availableThreads
  let columnWorks := bands c availableThreads
  let afterRows ← runJobs (processingRow sharedValues) rowWorks imagePixels
  runJobs (processingColumn sharedValues) columnWorks afterRows

/-- Specification: `clamp(i, 0, max)`, the clamp-to-edge index. -/
def specClamp (i max : Int) : Int :=
  if i < 0 then 0 else if max < i then max else i

/-- Specification: `SUM over i = -r .. r of (r + 1 - |i|) * c(clamp(x + i, 0, max))`,
the triangular weighted sum around position `x` of a scanline with channel values `c`. -/
def specWeightedSum (r : Nat) (c : Int → Int) (x max : Int) : Int :=
  ∑ k in Finset.range (2 * r + 1),
    ((r : Int) + 1 - |(k : Int) - (r : Int)|) * c (specClamp (x + (k : Int) - (r : Int)) max)

/-- Specification: the output channel `((sum * multiplier) >> shift) & 0xff` of the
weighted sum around `x`. -/
def specChannel (r : Nat) (multiplier shift : Int) (c : Int → Int) (x max : Int) : Int :=
  ((specWeightedSum r c x max * multiplier) >>> shift.toNat) % 256

/-! ## One scanline, with the stride and the edge as parameters

`processingRow` and `processingColumn` run the same two loops; they differ in the
stride (1 resp. `targetWidth`), in the edge (`widthMax` resp. `heightMax`), in the
index of the first read of the seeding loop and in its multiplier.  The two
functions below have these four as parameters and are used in the proofs only. -/

/-- The seeding body with its four differences as parameters. -/
def lineSeed (sv : SharedValues) (stride nMax : Int) (lead : Locals → Int)
    (weight : Int → Int) (rad : Int) (v : Locals) : Except Fault Locals := do
  let pixel ← readPixel v.imagePixels (lead v)
  let blurStack ← writeStack v.blurStack rad pixel
  let multiplier := weight rad
  let sumRed := v.sumRed + red pixel * multiplier
  let sumGreen := v.sumGreen + green pixel * multiplier
  let sumBlue := v.sumBlue + blue pixel * multiplier
  let sumOutputRed := v.sumOutputRed + red pixel
  let sumOutputGreen := v.sumOutputGreen + green pixel
  let sumOutputBlue := v.sumOutputBlue + blue pixel
  if rad ≥ 1 then
    let inIndex := if rad ≤ nMax then v.inIndex + stride else v.inIndex
    let pixel ← readPixel v.imagePixels inIndex
    let blurStack ← writeStack blurStack (rad + sv.blurRadius) pixel
    let multiplier := sv.blurRadius + 1 - rad
    pure { v with
      blurStack := blurStack
      inIndex := inIndex
      sumRed := sumRed + red pixel * multiplier
      sumGreen := sumGreen + green pixel * multiplier
      sumBlue := sumBlue + blue pixel * multiplier
      sumInputRed := v.sumInputRed + red pixel
      sumInputGreen := v.sumInputGreen + green pixel
      sumInputBlue := v.sumInputBlue + blue pixel
      sumOutputRed := sumOutputRed
      sumOutputGreen := sumOutputGreen
      sumOutputBlue := sumOutputBlue }
  else
    pure { v with
      blurStack := blurStack
      sumRed := sumRed
      sumGreen := sumGreen
      sumBlue := sumBlue
      sumOutputRed := sumOutputRed
      sumOutputGreen := sumOutputGreen
      sumOutputBlue := sumOutputBlue }

/-- The scanning body with the stride and the edge as parameters. -/
def lineScan (sv : SharedValues) (stride nMax : Int) (_i : Int) (v : Locals) :
    Except Fault Locals := do
  let old ← readPixel v.imagePixels v.outIndex
  let imagePixels ← writePixel v.imagePixels v.outIndex
    (blurredPixel old v.sumRed v.sumGreen v.sumBlue sv.multiplySum sv.shiftSum)
  let outIndex := v.outIndex + stride
  let sumRed := v.sumRed - v.sumOutputRed
  let sumGreen := v.sumGreen - v.sumOutputGreen
  let sumBlue := v.sumBlue - v.sumOutputBlue
  let stackStart := v.stackPointer + sv.divisor - sv.blurRadius
  let stackStart := if stackStart ≥ sv.divisor then stackStart - sv.divisor else stackStart
  let stackIndex := stackStart
  let leaving ← readStack v.blurStack stackIndex
  let sumOutputRed := v.sumOutputRed - red leaving
  let sumOutputGreen := v.sumOutputGreen - green leaving
  let sumOutputBlue := v.sumOutputBlue - blue leaving
  let inIndex := if v.offset < nMax then v.inIndex + stride else v.inIndex
  let offset := if v.offset < nMax then v.offset + 1 else v.offset
  let pixel ← readPixel imagePixels inIndex
  let blurStack ← writeStack v.blurStack stackIndex pixel
  let sumInputRed := v.sumInputRed + red pixel
  let sumInputGreen := v.sumInputGreen + green pixel
  let sumInputBlue := v.sumInputBlue + blue pixel
  let sumRed := sumRed + sumInputRed
  let sumGreen := sumGreen + sumInputGreen
  let sumBlue := sumBlue + sumInputBlue
  let stackPointer := if v.stackPointer + 1 ≥ sv.divisor then 0 else v.stackPointer + 1
  let stackPixel ← readStack blurStack stackPointer
  pure {
    imagePixels := imagePixels
    blurStack := blurStack
    sumRed := sumRed
    sumGreen := sumGreen
    sumBlue := sumBlue
    sumInputRed := sumInputRed - red stackPixel
    sumInputGreen := sumInputGreen - green stackPixel
    sumInputBlue := sumInputBlue - blue stackPixel
    sumOutputRed := sumOutputRed + red stackPixel
    sumOutputGreen := sumOutputGreen + green stackPixel
    sumOutputBlue := sumOutputBlue + blue stackPixel
    stackPointer := stackPointer
    offset := offset
    inIndex := inIndex
    outIndex := outIndex }


/-! ## Index invariants of one scanline -/

/-- The scanline `b, b + s, ..., b + m * s` lies in a buffer of `len` pixels, and the
parameter block describes radius `r`. -/
structure LineGeom (sv : SharedValues) (stride nMax : Int) (b s m r len : Nat) : Prop where
  stride_eq : stride = (s : Int)
  nMax_eq : nMax = (m : Int)
  radius_eq : sv.blurRadius = (r : Int)
  divisor_eq : sv.divisor = 2 * (r : Int) + 1
  fits : b + m * s < len

/-- What the scanning loop keeps before it writes position `x` of the scanline: the
alpha bytes `A` of the buffer, the size of the stack, the stack pointer inside the
stack, the write cursor at position `x` and the read cursor at a position `j ≤ m`. -/
def ScanInv (b s m r : Nat) (A : List Nat) (x : Nat) (v : Locals) : Prop :=
  v.imagePixels.map alpha = A ∧ v.blurStack.length = 2 * r + 1 ∧
  0 ≤ v.stackPointer ∧ v.stackPointer < 2 * (r : Int) + 1 ∧
  v.outIndex = ((b + x * s : Nat) : Int) ∧
  ∃ j : Nat, j ≤ m ∧ v.offset = (j : Int) ∧ v.inIndex = ((b + j * s : Nat) : Int)

/-- What the seeding loop keeps before the iteration `rad = k`: the buffer `px`, the
size of the stack, and the read cursor at a position `j ≤ m` with `j ≤ k - 1`. -/
def SeedInv (b s m r : Nat) (px : List Nat) (k : Nat) (v : Locals) : Prop :=
  v.imagePixels = px ∧ v.blurStack.length = 2 * r + 1 ∧
  ∃ j : Nat, j ≤ m ∧ j ≤ k - 1 ∧ v.inIndex = ((b + j * s : Nat) : Int)

/-- The parameter block that `blur` builds for radius `r`, width `w` and height `h`,
with any multiplier and shift. -/
structure Valid (sv : SharedValues) (r w h : Nat) : Prop where
  widthMax_eq : sv.widthMax = (w : Int) - 1
  heightMax_eq : sv.heightMax = (h : Int) - 1
  divisor_eq : sv.divisor = (r : Int) * 2 + 1
  targetWidth_eq : sv.targetWidth = (w : Int)
  targetHeight_eq : sv.targetHeight = (h : Int)
  blurRadius_eq : sv.blurRadius = (r : Int)
  width_pos : 0 < w
  height_pos : 0 < h

/-- What a job keeps from one scanline to the next: the alpha bytes `A` of the buffer
and the size of the stack. -/
def JobInv (r : Nat) (A : List Nat) (v : Locals) : Prop :=
  v.imagePixels.map alpha = A ∧ v.blurStack.length = 2 * r + 1

/-! ## The fixed-point tables -/

/-- Per-radius check of the two tables: the multiplier is not below the exact
reciprocal `2 ^ shift / (r + 1) ^ 2` and exceeds it by less than one part in 255. -/
def tableEntryOk (r : Nat) : Bool :=
  let m := (MUL_TABLE.getD r 0).toNat
  let s := (SHR_TABLE.getD r 0).toNat
  decide (0 ≤ MUL_TABLE.getD r 0 ∧ 0 ≤ SHR_TABLE.getD r 0 ∧
    2 ^ s ≤ m * (r + 1) ^ 2 ∧ 255 * (m * (r + 1) ^ 2 - 2 ^ s) < 2 ^ s)


/-! ## Transposition and the test images of the specification -/

/-- Specification: the transpose of a buffer of width `w` and height `h`; the result
has width `h` and height `w`, and its pixel in row `x`, column `y` is the pixel of the
argument in row `y`, column `x`. -/
def transposeBuffer (w h : Nat) (pixels : List Nat) : List Nat :=
  (List.range (w * h)).map fun k => pixels.getD (k % h * w + k / h) 0

/-- Specification: the 4x4 checkerboard of opaque black and opaque white pixels. -/
def checkerboard : List Nat :=
  [0xFF000000, 0xFFFFFFFF, 0xFF000000, 0xFFFFFFFF,
   0xFFFFFFFF, 0xFF000000, 0xFFFFFFFF, 0xFF000000,
   0xFF000000, 0xFFFFFFFF, 0xFF000000, 0xFFFFFFFF,
   0xFFFFFFFF, 0xFF000000, 0xFFFFFFFF, 0xFF000000]

/-! ## The worker pool (lines 25-110)

The queue `jobs_` is a list whose head is the front of the queue.  A job is any
value of the type `Job`; the future that `EnqueueJob` returns is the handle of the
job it was created for.  Every function below is one critical section of the source,
executed as a whole. -/

/-- The fields of `ThreadPool::ThreadPool` that the queue discipline uses. -/
structure ThreadPool (Job : Type) where
  num_threads_ : Nat
  jobs_ : List Job
  stop_all : Bool

/-- The error of `EnqueueJob`, the `std::runtime_error` thrown at line 94. -/
inductive PoolError where
  | stopped
  deriving DecidableEq

/-- The `std::future` of a submitted job. -/
structure Future (Job : Type) where
  job : Job

/-- The constructor (lines 55-61): an empty queue, the stop flag clear. -/
def ThreadPool.create {Job : Type} (num_threads : Nat) : ThreadPool Job :=
  { num_threads_ := num_threads, jobs_ := [], stop_all := false }

/-- The function `EnqueueJob` (lines 90-108): the pool after the call and either the
error thrown at line 94 or the future of the job pushed at line 103. -/
def ThreadPool.EnqueueJob {Job : Type} (pool : ThreadPool Job) (f : Job) :
    ThreadPool Job × Except PoolError (Future Job) :=
  if pool.stop_all then (pool, .error .stopped)
  else ({ pool with jobs_ := pool.jobs_ ++ [f] }, .ok { job := f })

/-- The destructor up to the joins (lines 82-83): the stop flag is set. -/
def ThreadPool.shutdown {Job : Type} (pool : ThreadPool Job) : ThreadPool Job :=
  { pool with stop_all := true }

/-- What one pass of a worker through the loop of `WorkerThread` does. -/
inductive WorkerStep (Job : Type) where
  /-- The wait of line 66 does not return: the queue is empty and the flag is clear. -/
  | waits
  /-- The return of line 68. -/
  | returns
  /-- The job popped at lines 72-73 and run at line 77, and the pool after the pop. -/
  | runs (job : Job) (pool : ThreadPool Job)

/-- One pass through the loop of `WorkerThread` (lines 64-78): the wait returns when
the queue is not empty or the stop flag is set; with the flag set and the queue empty
the worker returns; otherwise it pops the front of the queue and runs it.  The last
case of the match is never reached: there the queue is not empty. -/
def ThreadPool.WorkerThread {Job : Type} (pool : ThreadPool Job) : WorkerStep Job :=
  if !(!pool.jobs_.isEmpty || pool.stop_all) then .waits
  else if pool.stop_all && pool.jobs_.isEmpty then .returns
  else
    match pool.jobs_ with
    | job :: rest => .runs job { pool with jobs_ := rest }
    | [] => .waits

/-- The passes of one worker on a pool that no other thread touches: the jobs it has
run, in the order in which it ran them, and whether it has returned. -/
def workerRun {Job : Type} : Nat → ThreadPool Job → List Job × Bool
  | 0, _ => ([], false)
  | fuel + 1, pool =>
    match ThreadPool.WorkerThread pool with
    | .waits => ([], false)
    | .returns => ([], true)
    | .runs job pool1 => (job :: (workerRun fuel pool1).1, (workerRun fuel pool1).2)

/-! ## The scanline without the checks

The functions `seedNext` and `scanNext` are `lineSeed` and `lineScan` with every read
taken by `List.getD` and every write by `List.set`: they give the state after an
iteration that ends without a fault.  `lineRun` is the body of the outer loop of both
jobs with the stride, the edge, the first index of the scanline and the number of its
pixels as parameters.  All three are used in the proofs only. -/

/-- The state after an iteration of `lineSeed` that ends without a fault. -/
def seedNext (sv : SharedValues) (stride nMax : Int) (lead : Locals → Int)
    (weight : Int → Int) (rad : Int) (v : Locals) : Locals :=
  let pixel := v.imagePixels.getD (lead v).toNat 0
  let blurStack := v.blurStack.set rad.toNat pixel
  let multiplier := weight rad
  let sumRed := v.sumRed + red pixel * multiplier
  let sumGreen := v.sumGreen + green pixel * multiplier
  let sumBlue := v.sumBlue + blue pixel * multiplier
  let sumOutputRed := v.sumOutputRed + red pixel
  let sumOutputGreen := v.sumOutputGreen + green pixel
  let sumOutputBlue := v.sumOutputBlue + blue pixel
  if rad ≥ 1 then
    let inIndex := if rad ≤ nMax then v.inIndex + stride else v.inIndex
    let pixel := v.imagePixels.getD inIndex.toNat 0
    let blurStack := blurStack.set (rad + sv.blurRadius).toNat pixel
    let multiplier := sv.blurRadius + 1 - rad
    { v with
      blurStack := blurStack
      inIndex := inIndex
      sumRed := sumRed + red pixel * multiplier
      sumGreen := sumGreen + green pixel * multiplier
      sumBlue := sumBlue + blue pixel * multiplier
      sumInputRed := v.sumInputRed + red pixel
      sumInputGreen := v.sumInputGreen + green pixel
      sumInputBlue := v.sumInputBlue + blue pixel
      sumOutputRed := sumOutputRed
      sumOutputGreen := sumOutputGreen
      sumOutputBlue := sumOutputBlue }
  else
    { v with
      blurStack := blurStack
      sumRed := sumRed
      sumGreen := sumGreen
      sumBlue := sumBlue
      sumOutputRed := sumOutputRed
      sumOutputGreen := sumOutputGreen
      sumOutputBlue := sumOutputBlue }

/-- The cell of the stack that leaves the window, lines 198-200. -/
def stackStartOf (sv : SharedValues) (stackPointer : Int) : Int :=
  if stackPointer + sv.divisor - sv.blurRadius ≥ sv.divisor then
    stackPointer + sv.divisor - sv.blurRadius - sv.divisor
  else stackPointer + sv.divisor - sv.blurRadius

/-- The state after an iteration of `lineScan` that ends without a fault. -/
def scanNext (sv : SharedValues) (stride nMax : Int) (v : Locals) : Locals :=
  let old := v.imagePixels.getD v.outIndex.toNat 0
  let imagePixels := v.imagePixels.set v.outIndex.toNat
    (blurredPixel old v.sumRed v.sumGreen v.sumBlue sv.multiplySum sv.shiftSum)
  let stackIndex := stackStartOf sv v.stackPointer
  let leaving := v.blurStack.getD stackIndex.toNat 0
  let inIndex := if v.offset < nMax then v.inIndex + stride else v.inIndex
  let offset := if v.offset < nMax then v.offset + 1 else v.offset
  let pixel := imagePixels.getD inIndex.toNat 0
  let blurStack := v.blurStack.set stackIndex.toNat pixel
  let sumInputRed := v.sumInputRed + red pixel
  let sumInputGreen := v.sumInputGreen + green pixel
  let sumInputBlue := v.sumInputBlue + blue pixel
  let stackPointer := if v.stackPointer + 1 ≥ sv.divisor then 0 else v.stackPointer + 1
  let stackPixel := blurStack.getD stackPointer.toNat 0
  { imagePixels := imagePixels
    blurStack := blurStack
    sumRed := v.sumRed - v.sumOutputRed + sumInputRed
    sumGreen := v.sumGreen - v.sumOutputGreen + sumInputGreen
    sumBlue := v.sumBlue - v.sumOutputBlue + sumInputBlue
    sumInputRed := sumInputRed - red stackPixel
    sumInputGreen := sumInputGreen - green stackPixel
    sumInputBlue := sumInputBlue - blue stackPixel
    sumOutputRed := v.sumOutputRed - red leaving + red stackPixel
    sumOutputGreen := v.sumOutputGreen - green leaving + green stackPixel
    sumOutputBlue := v.sumOutputBlue - blue leaving + blue stackPixel
    stackPointer := stackPointer
    offset := offset
    inIndex := inIndex
    outIndex := v.outIndex + stride }

/-- The locals at the start of a scanline whose first pixel has index `base`. -/
def lineStart (base : Int) (v : Locals) : Locals :=
  { v with
    sumRed := 0, sumGreen := 0, sumBlue := 0
    sumInputRed := 0, sumInputGreen := 0, sumInputBlue := 0
    sumOutputRed := 0, sumOutputGreen := 0, sumOutputBlue := 0
    inIndex := base }

/-- The locals between the seeding loop and the scanning loop. -/
def scanStart (sv : SharedValues) (stride nMax base : Int) (v : Locals) : Locals :=
  { v with
    stackPointer := sv.blurRadius
    offset := min sv.blurRadius nMax
    inIndex := base + min sv.blurRadius nMax * stride
    outIndex := base }

/-- The body of the outer loop of a job for the scanline that starts at `base`. -/
def lineRun (sv : SharedValues) (stride nMax : Int) (lead : Locals → Int)
    (weight : Int → Int) (base : Int) (count : Nat) (v : Locals) : Except Fault Locals := do
  let v1 ← forRange (lineSeed sv stride nMax lead weight) (sv.blurRadius + 1).toNat 0
    (lineStart base v)
  forRange (lineScan sv stride nMax) count 0 (scanStart sv stride nMax base v1)

/-! ## Two runs side by side -/

/-- The two parameter blocks agree on the radius, the divisor, the multiplier and the
shift. -/
structure SameConsts (sv1 sv2 : SharedValues) : Prop where
  blurRadius_eq : sv1.blurRadius = sv2.blurRadius
  divisor_eq : sv1.divisor = sv2.divisor
  multiplySum_eq : sv1.multiplySum = sv2.multiplySum
  shiftSum_eq : sv1.shiftSum = sv2.shiftSum

/-- The nine accumulators of two states are equal. -/
def SameSums (v1 v2 : Locals) : Prop :=
  v1.sumRed = v2.sumRed ∧ v1.sumGreen = v2.sumGreen ∧ v1.sumBlue = v2.sumBlue ∧
  v1.sumInputRed = v2.sumInputRed ∧ v1.sumInputGreen = v2.sumInputGreen ∧
  v1.sumInputBlue = v2.sumInputBlue ∧ v1.sumOutputRed = v2.sumOutputRed ∧
  v1.sumOutputGreen = v2.sumOutputGreen ∧ v1.sumOutputBlue = v2.sumOutputBlue

/-- The scanline `b1, b1 + s, ..` of the first buffer and the scanline `b2, b2 + s, ..`
of the second hold the same pixels. -/
def LinesAgree (b1 b2 s m : Nat) (px1 px2 : List Nat) : Prop :=
  ∀ j : Nat, j ≤ m → px1[b1 + j * s]? = px2[b2 + j * s]?

/-- Two runs of the seeding loop on scanlines with the same pixels, before the iteration
`rad = k`: the same sums, the same cells of the stack where the loop has written, the
read cursors at the same position of their scanlines. -/
def SeedSim (b1 b2 s m r : Nat) (k : Nat) (v1 v2 : Locals) : Prop :=
  SameSums v1 v2 ∧
  (∀ c : Nat, (c < k ∨ (r < c ∧ c < r + k)) → v1.blurStack[c]? = v2.blurStack[c]?) ∧
  ∃ j : Nat, j ≤ m ∧ j ≤ k - 1 ∧ v1.inIndex = ((b1 + j * s : Nat) : Int) ∧
    v2.inIndex = ((b2 + j * s : Nat) : Int)

/-- Two runs of the scanning loop on scanlines with the same pixels, before they write
position `x`: the same sums, stack and stack pointer, the cursors at the same positions
of their scanlines. -/
def ScanSim (b1 b2 s m : Nat) (x : Nat) (v1 v2 : Locals) : Prop :=
  SameSums v1 v2 ∧ v1.blurStack = v2.blurStack ∧ v1.stackPointer = v2.stackPointer ∧
  v1.outIndex = ((b1 + x * s : Nat) : Int) ∧ v2.outIndex = ((b2 + x * s : Nat) : Int) ∧
  (∃ j : Nat, j ≤ m ∧ v1.offset = (j : Int) ∧ v2.offset = (j : Int) ∧
    v1.inIndex = ((b1 + j * s : Nat) : Int) ∧ v2.inIndex = ((b2 + j * s : Nat) : Int)) ∧
  LinesAgree b1 b2 s m v1.imagePixels v2.imagePixels

/-- The pixel that an iteration of the scanning loop reads from the buffer. -/
def scanPixel (sv : SharedValues) (stride nMax : Int) (v : Locals) : Nat :=
  (scanNext sv stride nMax v).imagePixels.getD (scanNext sv stride nMax v).inIndex.toNat 0

/-- The pixel that leaves the window in an iteration of the scanning loop. -/
def scanLeaving (sv : SharedValues) (v : Locals) : Nat :=
  v.blurStack.getD (stackStartOf sv v.stackPointer).toNat 0

/-- The pixel under the new stack pointer in an iteration of the scanning loop. -/
def scanStackPixel (sv : SharedValues) (stride nMax : Int) (v : Locals) : Nat :=
  (scanNext sv stride nMax v).blurStack.getD (scanNext sv stride nMax v).stackPointer.toNat 0

/-! ## Bands of one phase -/

/-- Two bands have no row (or column) in common. -/
def BandsDisjoint (a b : Int × Int) : Prop :=
  a.2 < b.1 ∨ b.2 < a.1

/-- What the commutation of two jobs needs from a job: on a buffer of `n` pixels and a
band inside `0 .. lim` it ends without a fault, keeps the length, leaves the pixels
outside the band as they were (`key i` is the row, or the column, of the index `i`), and
its result on a line depends on the pixels of that line only. -/
structure LocalJob (job : List Nat → Int → Int → Except Fault (List Nat)) (key : Nat → Nat)
    (n : Nat) (lim : Int) : Prop where
  frame : ∀ (px : List Nat) (first last : Int), px.length = n → 0 ≤ first → last ≤ lim →
    ∃ out, job px first last = .ok out ∧ out.length = n ∧
      ∀ i : Nat, (((key i : Nat) : Int) < first ∨ last < ((key i : Nat) : Int)) →
        out[i]? = px[i]?
  local_ : ∀ (px1 px2 : List Nat) (first last : Int) (y : Nat), px1.length = n →
    px2.length = n → 0 ≤ first → last ≤ lim → (∀ i : Nat, key i = y → px1[i]? = px2[i]?) →
    ∀ o1 o2, job px1 first last = .ok o1 → job px2 first last = .ok o2 →
      ∀ i : Nat, key i = y → o1[i]? = o2[i]?

/-- The red, green and blue channels of a pixel are zero. -/
def Dark (p : Nat) : Prop :=
  red p = 0 ∧ green p = 0 ∧ blue p = 0

/-- During a job on a buffer without colour: the buffer is still `px0`, every cell of the
stack is without colour and the nine sums are zero. -/
def BlackInv (px0 : List Nat) (v : Locals) : Prop :=
  v.imagePixels = px0 ∧ (∀ c ∈ v.blurStack, Dark c) ∧
  v.sumRed = 0 ∧ v.sumGreen = 0 ∧ v.sumBlue = 0 ∧
  v.sumInputRed = 0 ∧ v.sumInputGreen = 0 ∧ v.sumInputBlue = 0 ∧
  v.sumOutputRed = 0 ∧ v.sumOutputGreen = 0 ∧ v.sumOutputBlue = 0

/-- Specification: row `y` of a buffer of width `w`, as a buffer of its own. -/
def rowOf (w y : Nat) (pixels : List Nat) : List Nat :=
  (pixels.drop (y * w)).take w

/-! ## The two phases of `blur` on the worker pool (lines 400-418)

The thread that runs `blur` and the workers of the pool take turns: a run is a list of
events, and an event that cannot happen in a state (a wait that blocks, a worker that
finds the queue empty) has no successor.  The number of workers that run a job at the
same time is not limited, so every run of a pool of any size is among the runs below. -/

/-- The two vectors of jobs that `blur` builds, `rowWorks` and `columnWorks`. -/
inductive Phase where
  | row
  | column
  deriving DecidableEq

/-- Element `index` of `rowWorks` or of `columnWorks`. -/
structure BlurJob where
  phase : Phase
  index : Nat
  deriving DecidableEq

/-- Where the thread that runs `blur` stands in lines 403-418. -/
inductive BlurPc where
  /-- Before `EnqueueJob` of element `i` of `rowWorks`, loop of lines 403-405. -/
  | enqueueRows (i : Nat)
  /-- Before the wait on element `i` of `futures`, loop of lines 407-409. -/
  | waitRows (i : Nat)
  /-- Before `EnqueueJob` of element `i` of `columnWorks`, loop of lines 411-413. -/
  | enqueueColumns (i : Nat)
  /-- Before the wait on element `i` of `futures`, loop of lines 416-418. -/
  | waitAll (i : Nat)
  /-- After the loop of lines 416-418. -/
  | returned
  deriving DecidableEq

/-- The state of a call of `blur` from line 400 on: the position of the calling thread,
the pool, the vector `futures`, the jobs that a worker has popped and is running, and
the jobs that have ended, whose futures are ready. -/
structure BlurRun where
  pc : BlurPc
  pool : ThreadPool BlurJob
  futures : List (Future BlurJob)
  running : List BlurJob
  finished : List BlurJob

/-- What happens next in a run: the calling thread advances by one step, a worker pops
the front of the queue and starts it, or a running job ends. -/
inductive Event where
  | main
  | take
  | finish (job : BlurJob)

/-- Lines 400-401: the pool is created, `futures` is empty. -/
def BlurRun.start (availableThreads : Nat) : BlurRun :=
  { pc := .enqueueRows 0, pool := ThreadPool.create availableThreads, futures := [],
    running := [], finished := [] }

/-- One iteration of a loop that submits the jobs of one phase: `EnqueueJob` and
`emplace_back` of its future; an exception of `EnqueueJob` ends the run. -/
def submit (s : BlurRun) (job : BlurJob) (next : BlurPc) : Option BlurRun :=
  match ThreadPool.EnqueueJob s.pool job with
  | (pool, .ok future) => some { s with pc := next, pool := pool, futures := s.futures ++ [future] }
  | (_, .error _) => none

/-- One iteration of a loop over `futures` that waits: the wait on element `i` returns
when its job has ended, and the loop is left, for `after`, behind the last element. -/
def waitFor (s : BlurRun) (i : Nat) (next after : BlurPc) : Option BlurRun :=
  match s.futures[i]? with
  | none => some { s with pc := after }
  | some future => if future.job ∈ s.finished then some { s with pc := next } else none

/-- One step of the thread that runs `blur`, lines 403-418, for `availableThreads` jobs
in each of `rowWorks` and `columnWorks`. -/
def blurMain (availableThreads : Nat) (s : BlurRun) : Option BlurRun :=
  match s.pc with
  | .enqueueRows i =>
    if i < availableThreads then submit s { phase := .row, index := i } (.enqueueRows (i + 1))
    else some { s with pc := .waitRows 0 }
  | .waitRows i => waitFor s i (.waitRows (i + 1)) (.enqueueColumns 0)
  | .enqueueColumns i =>
    if i < availableThreads then
      submit s { phase := .column, index := i } (.enqueueColumns (i + 1))
    else some { s with pc := .waitAll 0 }
  | .waitAll i => waitFor s i (.waitAll (i + 1)) .returned
  | .returned => none

/-- One event of a run. -/
def blurStep (availableThreads : Nat) (event : Event) (s : BlurRun) : Option BlurRun :=
  match event with
  | .main => blurMain availableThreads s
  | .take =>
    match ThreadPool.WorkerThread s.pool with
    | .runs job pool => some { s with pool := pool, running := job :: s.running }
    | _ => none
  | .finish job =>
    if job ∈ s.running then
      some { s with running := s.running.erase job, finished := job :: s.finished }
    else none

/-- A run: the events of the list, one after the other. -/
def blurSchedule (availableThreads : Nat) : List Event → BlurRun → Option BlurRun
  | [], s => some s
  | event :: rest, s =>
    match blurStep availableThreads event s with
    | none => none
    | some s1 => blurSchedule availableThreads rest s1

/-- The first `n` jobs of `rowWorks`. -/
def rowJobs (n : Nat) : List BlurJob :=
  (List.range n).map fun i => { phase := .row, index := i }

/-- The first `n` jobs of `columnWorks`. -/
def columnJobs (n : Nat) : List BlurJob :=
  (List.range n).map fun i => { phase := .column, index := i }

/-- Every job of the row phase has ended. -/
def RowsDone (availableThreads : Nat) (s : BlurRun) : Prop :=
  ∀ i : Nat, i < availableThreads → ({ phase := .row, index := i } : BlurJob) ∈ s.finished

/-- No job of the column phase is queued, running or ended. -/
def NoColumn (s : BlurRun) : Prop :=
  ∀ job : BlurJob, job ∈ s.pool.jobs_ ∨ job ∈ s.running ∨ job ∈ s.finished → job.phase = .row

/-- The jobs of the first `i` futures have ended. -/
def Waited (s : BlurRun) (i : Nat) : Prop :=
  ∀ (k : Nat) (future : Future BlurJob), k < i → s.futures[k]? = some future →
    future.job ∈ s.finished

/-- What every state of a run satisfies, by the position of the calling thread. -/
def BarrierInv (availableThreads : Nat) (s : BlurRun) : Prop :=
  match s.pc with
  | .enqueueRows i => i ≤ availableThreads ∧ s.futures.map (fun f => f.job) = rowJobs i ∧
      NoColumn s
  | .waitRows i => s.futures.map (fun f => f.job) = rowJobs availableThreads ∧ NoColumn s ∧
      Waited s i
  | .enqueueColumns i => i ≤ availableThreads ∧
      s.futures.map (fun f => f.job) = rowJobs availableThreads ++ columnJobs i ∧
      RowsDone availableThreads s
  | .waitAll i =>
      s.futures.map (fun f => f.job) = rowJobs availableThreads ++ columnJobs availableThreads ∧
      RowsDone availableThreads s ∧ Waited s i
  | .returned => RowsDone availableThreads s ∧
      ∀ i : Nat, i < availableThreads →
        ({ phase := .column, index := i } : BlurJob) ∈ s.finished

/-! ## The sliding window in closed form

The definitions below are used in the proofs only.  A scanline is given by the buffer
`px`, the index `b` of its first pixel, the stride `s` and its last position `m`.  The
window of radius `r` is addressed by a coordinate `t`: the seeding loop writes the
coordinates `0 .. 2 * r`, and the iteration of the scanning loop that writes position
`x` adds the coordinate `x + 2 * r + 1`. -/

/-- One of the three colour channels: the channel of a pixel and the three accumulators
of that channel (`sumRed`, `sumInputRed`, `sumOutputRed` for red). -/
structure Channel where
  value : Nat → Int
  total : Locals → Int
  entering : Locals → Int
  leaving : Locals → Int

/-- The red channel. -/
def redChannel : Channel :=
  { value := red, total := fun v => v.sumRed, entering := fun v => v.sumInputRed,
    leaving := fun v => v.sumOutputRed }

/-- The green channel. -/
def greenChannel : Channel :=
  { value := green, total := fun v => v.sumGreen, entering := fun v => v.sumInputGreen,
    leaving := fun v => v.sumOutputGreen }

/-- The blue channel. -/
def blueChannel : Channel :=
  { value := blue, total := fun v => v.sumBlue, entering := fun v => v.sumInputBlue,
    leaving := fun v => v.sumOutputBlue }

/-- One of the three channels above. -/
def IsChannel (ch : Channel) : Prop :=
  ch = redChannel ∨ ch = greenChannel ∨ ch = blueChannel

/-- The pixel at position `j` of the scanline. -/
def linePixel (px : List Nat) (b s j : Nat) : Nat :=
  px.getD (b + j * s) 0

/-- The pixel at the coordinate `t` of the window: for `t ≤ r` the pixel that the first
read of the seeding iteration `rad = t` takes, at position `leadPos t`; for `t > r` the
pixel at position `min (t - r) m`. -/
def windowPixel (px : List Nat) (b s m r : Nat) (leadPos : Nat → Nat) (t : Nat) : Nat :=
  if t ≤ r then linePixel px b s (leadPos t) else linePixel px b s (min (t - r) m)

/-- The sum of the `r + 1` leaving values of a window with the values `g 0, g 1, ..`. -/
def leavingSum (g : Nat → Int) (r : Nat) : Int :=
  ∑ i in Finset.range (r + 1), g i

/-- The sum of the `r` entering values of a window. -/
def enteringSum (g : Nat → Int) (r : Nat) : Int :=
  ∑ i in Finset.range r, g (r + 1 + i)

/-- The sum of a window with the weights `1, 2, .., r + 1, r, .., 1`. -/
def triangleSum (g : Nat → Int) (r : Nat) : Int :=
  ∑ i in Finset.range (r + 1), ((i : Int) + 1) * g i +
    ∑ i in Finset.range r, ((r : Int) - (i : Int)) * g (r + 1 + i)

/-- What the multipliers `weight 0, .., weight r` of the first reads of the seeding loop
add to the weights `1, .., r + 1`. -/
def seedBias (g : Nat → Int) (weight : Int → Int) (r : Nat) : Int :=
  ∑ i in Finset.range (r + 1), (weight (i : Int) - ((i : Int) + 1)) * g i

/-- The total sum of a channel before position `x` of the scanline is written. -/
def lineTotal (f : Nat → Int) (win : Nat → Nat) (weight : Int → Int) (r x : Nat) : Int :=
  seedBias (fun i => f (win i)) weight r + triangleSum (fun i => f (win (x + i))) r

/-- The pixel that a scanline stores at its position `x`. -/
def lineOutput (sv : SharedValues) (px : List Nat) (b s m r : Nat) (leadPos : Nat → Nat)
    (weight : Int → Int) (x : Nat) : Nat :=
  blurredPixel (linePixel px b s x)
    (lineTotal red (windowPixel px b s m r leadPos) weight r x)
    (lineTotal green (windowPixel px b s m r leadPos) weight r x)
    (lineTotal blue (windowPixel px b s m r leadPos) weight r x)
    sv.multiplySum sv.shiftSum

/-- The seeding loop before the iteration `rad = k`: the buffer is `px`, the read cursor
is at position `min (k - 1) m`, the cells `0 .. k - 1` and `r + 1 .. r + k - 1` of the
stack hold the window, and the sums of every channel are those of the pixels read. -/
def SeedSums (px : List Nat) (b s m r : Nat) (win : Nat → Nat) (weight : Int → Int)
    (k : Nat) (v : Locals) : Prop :=
  v.imagePixels = px ∧
  v.inIndex = ((b + min (k - 1) m * s : Nat) : Int) ∧
  (∀ t : Nat, t < k → v.blurStack[t]? = some (win t)) ∧
  (∀ t : Nat, r < t → t < r + k → v.blurStack[t]? = some (win t)) ∧
  ∀ ch : Channel, IsChannel ch →
    ch.leaving v = ∑ i in Finset.range k, ch.value (win i) ∧
    ch.entering v = ∑ i in Finset.range (k - 1), ch.value (win (r + 1 + i)) ∧
    ch.total v = ∑ i in Finset.range k, weight (i : Int) * ch.value (win i) +
      ∑ i in Finset.range (k - 1), ((r : Int) - (i : Int)) * ch.value (win (r + 1 + i))

/-- The scanning loop before it writes position `x`: the positions before `x` hold
their outputs `out`, the others the pixels of `px`; and while `x ≤ m` the read cursor
is at position `min (x + r) m`, the stack holds the coordinates `x .. x + 2 * r` of the
window with the pointer on `x + r`, and the sums of every channel are those of the
window. -/
def ScanSums (px : List Nat) (b s m r : Nat) (win : Nat → Nat) (weight : Int → Int)
    (out : Nat → Nat) (x : Nat) (v : Locals) : Prop :=
  (∀ j : Nat, j < x → j ≤ m → v.imagePixels[b + j * s]? = some (out j)) ∧
  (∀ j : Nat, x ≤ j → j ≤ m → v.imagePixels[b + j * s]? = px[b + j * s]?) ∧
  (x ≤ m →
    v.offset = ((min (x + r) m : Nat) : Int) ∧
    v.stackPointer = (((x + r) % (2 * r + 1) : Nat) : Int) ∧
    (∀ t : Nat, x ≤ t → t ≤ x + 2 * r → v.blurStack[t % (2 * r + 1)]? = some (win t)) ∧
    ∀ ch : Channel, IsChannel ch →
      ch.leaving v = leavingSum (fun i => ch.value (win (x + i))) r ∧
      ch.entering v = enteringSum (fun i => ch.value (win (x + i))) r ∧
      ch.total v = lineTotal ch.value win weight r x)

/-! ## Bridges to the parametric scanline -/

theorem processingRowSeed_eq_lineSeed (sv : SharedValues) (startPixelIndex : Int) :
    processingRowSeed sv startPixelIndex =
      lineSeed sv 1 sv.widthMax (fun _ => startPixelIndex) (fun rad => rad - 1) := rfl

theorem processingColumnSeed_eq_lineSeed (sv : SharedValues) :
    processingColumnSeed sv =
      lineSeed sv sv.targetWidth sv.heightMax (fun v => v.inIndex) (fun rad => rad + 1) := rfl

theorem processingRowScan_eq_lineScan (sv : SharedValues) :
    processingRowScan sv = lineScan sv 1 sv.widthMax := rfl

theorem processingColumnScan_eq_lineScan (sv : SharedValues) :
    processingColumnScan sv = lineScan sv sv.targetWidth sv.heightMax := rfl

/-! ## Loops and array cells -/

theorem forRange_succ_ok {σ : Type} (body : Int → σ → Except Fault σ) (n : Nat) (i : Int)
    (s s1 : σ) (h : body i s = .ok s1) :
    forRange body (n + 1) i s = forRange body n (i + 1) s1 := by
  simp only [forRange, h]

/-- Loop rule: an invariant that every iteration keeps, without a fault, holds
after the loop, which then ends without a fault. -/
theorem forRange_inv {σ : Type} (body : Int → σ → Except Fault σ) (P : Nat → σ → Prop)
    (first : Int) (n : Nat)
    (hstep : ∀ k s, k < n → P k s → ∃ s1, body (first + k) s = .ok s1 ∧ P (k + 1) s1) :
    ∀ m k s, k + m = n → P k s →
      ∃ s1, forRange body m (first + k) s = .ok s1 ∧ P n s1 := by
  intro m
  induction m with
  | zero =>
    intro k s hk hP
    have : k = n := by omega
    subst this
    exact ⟨s, rfl, hP⟩
  | succ m ih =>
    intro k s hk hP
    obtain ⟨s1, h1, hP1⟩ := hstep k s (by omega) hP
    rw [forRange_succ_ok body m _ s s1 h1]
    have h2 := ih (k + 1) s1 (by omega) hP1
    have e : first + ((k + 1 : Nat) : Int) = first + (k : Int) + 1 := by push_cast; ring
    rw [e] at h2
    exact h2

/-- Loop rule for a property of the state that every iteration that ends keeps. -/
theorem forRange_keeps {σ : Type} (body : Int → σ → Except Fault σ) (P : σ → Prop)
    (hstep : ∀ i s s1, P s → body i s = .ok s1 → P s1) :
    ∀ n i s s1, P s → forRange body n i s = .ok s1 → P s1 := by
  intro n
  induction n with
  | zero =>
    intro i s s1 hP h
    simp only [forRange] at h
    cases h
    exact hP
  | succ n ih =>
    intro i s s1 hP h
    simp only [forRange] at h
    cases hb : body i s with
    | error e => rw [hb] at h; cases h
    | ok s2 =>
      rw [hb] at h
      exact ih (i + 1) s2 s1 (hstep i s s2 hP hb) h

theorem readCell_ok (mk : Int → Fault) (cells : List Nat) (i : Int)
    (h0 : 0 ≤ i) (h1 : i.toNat < cells.length) :
    readCell mk cells i = .ok (cells.getD i.toNat 0) := by
  unfold readCell
  rw [if_pos h0, List.getElem?_eq_getElem h1]
  simp [List.getD_eq_getElem?_getD, List.getElem?_eq_getElem h1]

theorem writeCell_ok (mk : Int → Fault) (cells : List Nat) (i : Int) (v : Nat)
    (h0 : 0 ≤ i) (h1 : i.toNat < cells.length) :
    writeCell mk cells i v = .ok (cells.set i.toNat v) := by
  unfold writeCell
  rw [if_pos ⟨h0, h1⟩]

theorem readPixel_ok (imagePixels : List Nat) (i : Int)
    (h0 : 0 ≤ i) (h1 : i.toNat < imagePixels.length) :
    readPixel imagePixels i = .ok (imagePixels.getD i.toNat 0) :=
  readCell_ok _ _ _ h0 h1

theorem readStack_ok (blurStack : List Nat) (i : Int)
    (h0 : 0 ≤ i) (h1 : i.toNat < blurStack.length) :
    readStack blurStack i = .ok (blurStack.getD i.toNat 0) :=
  readCell_ok _ _ _ h0 h1

theorem writePixel_ok (imagePixels : List Nat) (i : Int) (v : Nat)
    (h0 : 0 ≤ i) (h1 : i.toNat < imagePixels.length) :
    writePixel imagePixels i v = .ok (imagePixels.set i.toNat v) :=
  writeCell_ok _ _ _ _ h0 h1

theorem writeStack_ok (blurStack : List Nat) (i : Int) (v : Nat)
    (h0 : 0 ≤ i) (h1 : i.toNat < blurStack.length) :
    writeStack blurStack i v = .ok (blurStack.set i.toNat v) :=
  writeCell_ok _ _ _ _ h0 h1

/-- A bind whose first action ends without a fault. -/
theorem bind_ok_of {α β : Type} {x : Except Fault α} {a : α} {f : α → Except Fault β}
    {P : β → Prop} (hx : x = .ok a) (hf : ∃ b, f a = .ok b ∧ P b) :
    ∃ b, (x >>= f) = .ok b ∧ P b := by
  subst hx
  exact hf

/-! ## The stored pixel -/

theorem testBit_of_lt_256 (x : Nat) (hx : x < 256) (j : Nat) (hj : 8 ≤ j) :
    x.testBit j = false := by
  apply Nat.testBit_eq_false_of_lt
  calc x < 2 ^ 8 := hx
    _ ≤ 2 ^ j := Nat.pow_le_pow_right (by norm_num) hj

theorem testBit_alphaMask (i : Nat) :
    (0xff000000 : Nat).testBit i = decide (24 ≤ i ∧ i < 32) := by
  have h : (0xff000000 : Nat) = (2 ^ 8 - 1) <<< 24 := by decide
  rw [h, Nat.testBit_shiftLeft, Nat.testBit_two_pow_sub_one]
  by_cases h24 : 24 ≤ i
  · simp [h24]; omega
  · simp [h24]

theorem testBit_byteMask (i : Nat) : (0xff : Nat).testBit i = decide (i < 8) := by
  have h : (0xff : Nat) = 2 ^ 8 - 1 := by decide
  rw [h, Nat.testBit_two_pow_sub_one]

theorem lowByte_lt (x : Int) : lowByte x < 256 := by
  unfold lowByte
  omega

theorem outChannel_lt (sum multiplySum shiftSum : Int) :
    outChannel sum multiplySum shiftSum < 256 :=
  lowByte_lt _

theorem pack_alpha (old R G B : Nat) (hR : R < 256) (hG : G < 256) (hB : B < 256) :
    (((old &&& 0xff000000) ||| (R <<< 16) ||| (G <<< 8) ||| B) >>> 24) &&& 0xff =
      (old >>> 24) &&& 0xff := by
  apply Nat.eq_of_testBit_eq
  intro i
  simp only [Nat.testBit_and, Nat.testBit_shiftRight, Nat.testBit_or, Nat.testBit_shiftLeft,
    testBit_alphaMask, testBit_byteMask]
  by_cases hi : i < 8
  · have h1 : R.testBit (24 + i - 16) = false := testBit_of_lt_256 R hR _ (by omega)
    have h2 : G.testBit (24 + i - 8) = false := testBit_of_lt_256 G hG _ (by omega)
    have h3 : B.testBit (24 + i) = false := testBit_of_lt_256 B hB _ (by omega)
    simp [h1, h2, h3, hi]
    omega
  · simp [hi]

theorem alpha_blurredPixel (old : Nat) (sumRed sumGreen sumBlue multiplySum shiftSum : Int) :
    alpha (blurredPixel old sumRed sumGreen sumBlue multiplySum shiftSum) = alpha old :=
  pack_alpha old _ _ _ (outChannel_lt _ _ _) (outChannel_lt _ _ _) (outChannel_lt _ _ _)

theorem map_alpha_set_blurredPixel (px : List Nat) (k : Nat)
    (sumRed sumGreen sumBlue multiplySum shiftSum : Int) :
    (px.set k (blurredPixel (px.getD k 0) sumRed sumGreen sumBlue multiplySum shiftSum)).map
      alpha = px.map alpha := by
  apply List.ext_getElem?
  intro i
  rw [List.getElem?_map, List.getElem?_map, List.getElem?_set]
  by_cases hki : k = i
  · subst hki
    by_cases hk : k < px.length
    · simp [hk, alpha_blurredPixel, List.getD_eq_getElem?_getD, List.getElem?_eq_getElem hk]
    · simp [hk, List.getElem?_eq_none (Nat.le_of_not_lt hk)]
  · simp [hki]

theorem lineScan_step (sv : SharedValues) (stride nMax : Int) (b s m r : Nat) (A : List Nat)
    (g : LineGeom sv stride nMax b s m r A.length) (i : Int) (x : Nat) (v : Locals)
    (hx : x ≤ m) (hinv : ScanInv b s m r A x v) :
    ∃ v1, lineScan sv stride nMax i v = .ok v1 ∧ ScanInv b s m r A (x + 1) v1 := by
  obtain ⟨hA, hst, hsp0, hsp1, hout, j, hj, hoff, hin⟩ := hinv
  obtain ⟨hs, hm, hr, hd, hfit⟩ := g
  have hlen : v.imagePixels.length = A.length := by rw [← hA, List.length_map]
  have hxs : x * s ≤ m * s := Nat.mul_le_mul_right s hx
  have hjs : j * s ≤ m * s := Nat.mul_le_mul_right s hj
  have hj1 : j < m → (j + 1) * s ≤ m * s := fun h => Nat.mul_le_mul_right s h
  have hj2 : (j + 1) * s = j * s + s := by ring
  have hx2 : (x + 1) * s = x * s + s := by ring
  unfold lineScan
  refine bind_ok_of (readPixel_ok _ _ (by omega) (by omega)) ?_
  refine bind_ok_of (writePixel_ok _ _ _ (by omega) (by omega)) ?_
  dsimp only
  refine bind_ok_of (readStack_ok _ _ (by split_ifs <;> omega) (by split_ifs <;> omega)) ?_
  refine bind_ok_of (readPixel_ok _ _ (by split_ifs <;> omega)
    (by rw [List.length_set]; split_ifs <;> omega)) ?_
  refine bind_ok_of (writeStack_ok _ _ _ (by split_ifs <;> omega) (by split_ifs <;> omega)) ?_
  refine bind_ok_of (readStack_ok _ _ (by split_ifs <;> omega)
    (by rw [List.length_set]; split_ifs <;> omega)) ?_
  refine ⟨_, rfl, ?_, ?_, ?_, ?_, ?_, ?_⟩
  · dsimp only
    rw [← hA]
    exact map_alpha_set_blurredPixel _ _ _ _ _ _ _
  · dsimp only
    rw [List.length_set]; exact hst
  · dsimp only
    split_ifs <;> omega
  · dsimp only
    split_ifs <;> omega
  · dsimp only
    omega
  · dsimp only
    by_cases hlt : v.offset < nMax
    · refine ⟨j + 1, by omega, ?_, ?_⟩
      · rw [if_pos hlt]; omega
      · rw [if_pos hlt]; omega
    · refine ⟨j, hj, ?_, ?_⟩
      · rw [if_neg hlt]; omega
      · rw [if_neg hlt]; omega

theorem lineSeed_step (sv : SharedValues) (stride nMax : Int) (b s m r : Nat) (px : List Nat)
    (g : LineGeom sv stride nMax b s m r px.length) (lead : Locals → Int) (weight : Int → Int)
    (hlead : ∀ v : Locals, (∃ j : Nat, j ≤ m ∧ v.inIndex = ((b + j * s : Nat) : Int)) →
      ∃ j : Nat, j ≤ m ∧ lead v = ((b + j * s : Nat) : Int))
    (k : Nat) (v : Locals) (hk : k < r + 1) (hinv : SeedInv b s m r px k v) :
    ∃ v1, lineSeed sv stride nMax lead weight (0 + (k : Int)) v = .ok v1 ∧
      SeedInv b s m r px (k + 1) v1 := by
  obtain ⟨hpx, hst, j, hj, hjk, hin⟩ := hinv
  obtain ⟨hs, hm, hr, hd, hfit⟩ := g
  obtain ⟨j0, hj0, hl⟩ := hlead v ⟨j, hj, hin⟩
  have hjs : j * s ≤ m * s := Nat.mul_le_mul_right s hj
  have hj0s : j0 * s ≤ m * s := Nat.mul_le_mul_right s hj0
  have hj1 : j < m → (j + 1) * s ≤ m * s := fun h => Nat.mul_le_mul_right s h
  have hj2 : (j + 1) * s = j * s + s := by ring
  unfold lineSeed
  refine bind_ok_of (readPixel_ok _ _ (by omega) (by rw [hpx]; omega)) ?_
  refine bind_ok_of (writeStack_ok _ _ _ (by omega) (by omega)) ?_
  dsimp only
  by_cases h1 : (0 : Int) + (k : Int) ≥ 1
  · rw [if_pos h1]
    refine bind_ok_of (readPixel_ok _ _ (by split_ifs <;> omega)
      (by rw [hpx]; split_ifs <;> omega)) ?_
    refine bind_ok_of (writeStack_ok _ _ _ (by omega)
      (by rw [List.length_set]; omega)) ?_
    refine ⟨_, rfl, hpx, ?_, ?_⟩
    · dsimp only
      rw [List.length_set, List.length_set]; exact hst
    · dsimp only
      by_cases hle : (0 : Int) + (k : Int) ≤ nMax
      · refine ⟨j + 1, by omega, by omega, ?_⟩
        rw [if_pos hle]; omega
      · refine ⟨j, hj, by omega, ?_⟩
        rw [if_neg hle]; omega
  · rw [if_neg h1]
    refine ⟨_, rfl, hpx, ?_, ?_⟩
    · dsimp only
      rw [List.length_set]; exact hst
    · exact ⟨j, hj, by omega, hin⟩

theorem processingRowLine_ok (sv : SharedValues) (r w h : Nat) (hv : Valid sv r w h)
    (A : List Nat) (hA : A.length = w * h) (row : Int) (h0 : 0 ≤ row) (h1 : row ≤ (h : Int) - 1)
    (v : Locals) (hinv : JobInv r A v) :
    ∃ v1, processingRowLine sv row v = .ok v1 ∧ JobInv r A v1 := by
  obtain ⟨hmap, hst⟩ := hinv
  obtain ⟨hwm, hhm, hd, htw, hth, hr, hw, hh⟩ := hv
  have hrow : row = ((row.toNat : Nat) : Int) := (Int.toNat_of_nonneg h0).symm
  have hfit : row.toNat * w + (w - 1) * 1 < A.length := by
    have h2 : (row.toNat + 1) * w ≤ h * w := Nat.mul_le_mul_right w (by omega)
    have h3 : (row.toNat + 1) * w = row.toNat * w + w := by ring
    have h4 : h * w = w * h := Nat.mul_comm h w
    omega
  have hb : row * sv.targetWidth = ((row.toNat * w : Nat) : Int) := by
    rw [htw]; push_cast; rw [← hrow]
  have g : LineGeom sv 1 sv.widthMax (row.toNat * w) 1 (w - 1) r A.length :=
    ⟨by simp, by rw [hwm]; omega, hr, by rw [hd]; ring, hfit⟩
  have hlenpx : v.imagePixels.length = A.length := by rw [← hmap, List.length_map]
  have g1 : LineGeom sv 1 sv.widthMax (row.toNat * w) 1 (w - 1) r v.imagePixels.length := by
    rw [hlenpx]; exact g
  have hcount : (sv.blurRadius + 1).toNat = r + 1 := by rw [hr]; omega
  have hcount2 : sv.targetWidth.toNat = w := by rw [htw]; omega
  unfold processingRowLine
  dsimp only
  rw [processingRowSeed_eq_lineSeed, processingRowScan_eq_lineScan, hcount, hcount2]
  obtain ⟨v1, hv1, hpx1, hst1, -⟩ := forRange_inv
    (lineSeed sv 1 sv.widthMax (fun _ => row * sv.targetWidth) (fun rad => rad - 1))
    (SeedInv (row.toNat * w) 1 (w - 1) r v.imagePixels) 0 (r + 1)
    (fun k s hk hs => lineSeed_step sv 1 sv.widthMax (row.toNat * w) 1 (w - 1) r v.imagePixels g1
      (fun _ => row * sv.targetWidth) (fun rad => rad - 1)
      (fun _ _ => ⟨0, by omega, by rw [hb]; simp⟩) k s hk hs)
    (r + 1) 0
    { v with
      sumRed := 0, sumGreen := 0, sumBlue := 0
      sumInputRed := 0, sumInputGreen := 0, sumInputBlue := 0
      sumOutputRed := 0, sumOutputGreen := 0, sumOutputBlue := 0
      inIndex := row * sv.targetWidth }
    (by omega) ⟨rfl, hst, 0, by omega, by omega, by dsimp only; rw [hb]; simp⟩
  simp only [Nat.cast_zero, add_zero] at hv1
  refine bind_ok_of hv1 ?_
  obtain ⟨v3, hv3, hA3, hst3, -⟩ := forRange_inv (lineScan sv 1 sv.widthMax)
    (ScanInv (row.toNat * w) 1 (w - 1) r A) 0 w
    (fun k s hk hs => lineScan_step sv 1 sv.widthMax (row.toNat * w) 1 (w - 1) r A g _ k s
      (by omega) hs)
    w 0
    { v1 with
      stackPointer := sv.blurRadius
      offset := if sv.blurRadius > sv.widthMax then sv.widthMax else sv.blurRadius
      inIndex := (if sv.blurRadius > sv.widthMax then sv.widthMax else sv.blurRadius) +
        row * sv.targetWidth
      outIndex := row * sv.targetWidth }
    (by omega)
    ⟨by dsimp only; rw [hpx1]; exact hmap, hst1, by dsimp only; omega, by dsimp only; omega,
      by dsimp only; rw [hb]; simp,
      min r (w - 1), by omega, by dsimp only; split_ifs <;> omega,
      by dsimp only; rw [hb]; split_ifs <;> omega⟩
  simp only [Nat.cast_zero, add_zero] at hv3
  exact ⟨v3, hv3, hA3, hst3⟩

theorem processingColumnLine_ok (sv : SharedValues) (r w h : Nat) (hv : Valid sv r w h)
    (A : List Nat) (hA : A.length = w * h) (col : Int) (h0 : 0 ≤ col) (h1 : col ≤ (w : Int) - 1)
    (v : Locals) (hinv : JobInv r A v) :
    ∃ v1, processingColumnLine sv col v = .ok v1 ∧ JobInv r A v1 := by
  obtain ⟨hmap, hst⟩ := hinv
  obtain ⟨hwm, hhm, hd, htw, hth, hr, hw, hh⟩ := hv
  have hcol : col = ((col.toNat : Nat) : Int) := (Int.toNat_of_nonneg h0).symm
  have hfit : col.toNat + (h - 1) * w < A.length := by
    have h2 : (h - 1 + 1) * w = (h - 1) * w + w := by ring
    have h3 : h - 1 + 1 = h := by omega
    rw [h3] at h2
    have h4 : h * w = w * h := Nat.mul_comm h w
    omega
  have g : LineGeom sv sv.targetWidth sv.heightMax col.toNat w (h - 1) r A.length :=
    ⟨htw, by rw [hhm]; omega, hr, by rw [hd]; ring, hfit⟩
  have hlenpx : v.imagePixels.length = A.length := by rw [← hmap, List.length_map]
  have g1 : LineGeom sv sv.targetWidth sv.heightMax col.toNat w (h - 1) r
      v.imagePixels.length := by
    rw [hlenpx]; exact g
  have hcount : (sv.blurRadius + 1).toNat = r + 1 := by rw [hr]; omega
  have hcount2 : sv.targetHeight.toNat = h := by rw [hth]; omega
  have hmin : min sv.blurRadius sv.heightMax = ((min r (h - 1) : Nat) : Int) := by
    rw [hr, hhm]; omega
  unfold processingColumnLine
  dsimp only
  rw [processingColumnSeed_eq_lineSeed, processingColumnScan_eq_lineScan, hcount, hcount2]
  obtain ⟨v1, hv1, hpx1, hst1, -⟩ := forRange_inv
    (lineSeed sv sv.targetWidth sv.heightMax (fun v => v.inIndex) (fun rad => rad + 1))
    (SeedInv col.toNat w (h - 1) r v.imagePixels) 0 (r + 1)
    (fun k s hk hs => lineSeed_step sv sv.targetWidth sv.heightMax col.toNat w (h - 1) r
      v.imagePixels g1 (fun v => v.inIndex) (fun rad => rad + 1) (fun _ hj => hj) k s hk hs)
    (r + 1) 0
    { v with
      sumRed := 0, sumGreen := 0, sumBlue := 0
      sumInputRed := 0, sumInputGreen := 0, sumInputBlue := 0
      sumOutputRed := 0, sumOutputGreen := 0, sumOutputBlue := 0
      inIndex := col }
    (by omega) ⟨rfl, hst, 0, by omega, by omega, by dsimp only; omega⟩
  simp only [Nat.cast_zero, add_zero] at hv1
  refine bind_ok_of hv1 ?_
  obtain ⟨v3, hv3, hA3, hst3, -⟩ := forRange_inv (lineScan sv sv.targetWidth sv.heightMax)
    (ScanInv col.toNat w (h - 1) r A) 0 h
    (fun k s hk hs => lineScan_step sv sv.targetWidth sv.heightMax col.toNat w (h - 1) r A g _ k s
      (by omega) hs)
    h 0
    { v1 with
      stackPointer := sv.blurRadius
      offset := min sv.blurRadius sv.heightMax
      inIndex := col + min sv.blurRadius sv.heightMax * sv.targetWidth
      outIndex := col }
    (by omega)
    ⟨by dsimp only; rw [hpx1]; exact hmap, hst1, by dsimp only; omega, by dsimp only; omega,
      by dsimp only; omega,
      min r (h - 1), by omega, hmin,
      by dsimp only; rw [hmin, htw]; push_cast; omega⟩
  simp only [Nat.cast_zero, add_zero] at hv3
  exact ⟨v3, hv3, hA3, hst3⟩

theorem newIntArray_ok (n : Int) (h : 0 ≤ n) :
    newIntArray n = .ok (List.replicate n.toNat 0) := by
  unfold newIntArray
  rw [if_pos h]

/-- A row job on rows inside the buffer ends without a fault and keeps every alpha
byte. -/
theorem processingRow_ok (sv : SharedValues) (r w h : Nat) (hv : Valid sv r w h)
    (imagePixels : List Nat) (hlen : imagePixels.length = w * h) (startRow endRow : Int)
    (h0 : 0 ≤ startRow) (h1 : endRow ≤ (h : Int) - 1) :
    ∃ out, processingRow sv imagePixels startRow endRow = .ok out ∧
      out.map alpha = imagePixels.map alpha := by
  have hd := hv.divisor_eq
  unfold processingRow
  refine bind_ok_of (newIntArray_ok _ (by omega)) ?_
  obtain ⟨v, hv1, hA, -⟩ := forRange_inv (processingRowLine sv)
    (fun _ v => JobInv r (imagePixels.map alpha) v) startRow (endRow + 1 - startRow).toNat
    (fun k s hk hs => processingRowLine_ok sv r w h hv _ (by rw [List.length_map]; exact hlen)
      _ (by omega) (by omega) s hs)
    (endRow + 1 - startRow).toNat 0
    (initLocals imagePixels (List.replicate sv.divisor.toNat 0))
    (by omega) ⟨rfl, by simp only [initLocals, List.length_replicate]; omega⟩
  simp only [Nat.cast_zero, add_zero] at hv1
  exact bind_ok_of hv1 ⟨_, rfl, hA⟩

/-- A column job on columns inside the buffer ends without a fault and keeps every
alpha byte. -/
theorem processingColumn_ok (sv : SharedValues) (r w h : Nat) (hv : Valid sv r w h)
    (imagePixels : List Nat) (hlen : imagePixels.length = w * h) (startColumn endColumn : Int)
    (h0 : 0 ≤ startColumn) (h1 : endColumn ≤ (w : Int) - 1) :
    ∃ out, processingColumn sv imagePixels startColumn endColumn = .ok out ∧
      out.map alpha = imagePixels.map alpha := by
  have hd := hv.divisor_eq
  unfold processingColumn
  refine bind_ok_of (newIntArray_ok _ (by omega)) ?_
  obtain ⟨v, hv1, hA, -⟩ := forRange_inv (processingColumnLine sv)
    (fun _ v => JobInv r (imagePixels.map alpha) v) startColumn
    (endColumn + 1 - startColumn).toNat
    (fun k s hk hs => processingColumnLine_ok sv r w h hv _
      (by rw [List.length_map]; exact hlen) _ (by omega) (by omega) s hs)
    (endColumn + 1 - startColumn).toNat 0
    (initLocals imagePixels (List.replicate sv.divisor.toNat 0))
    (by omega) ⟨rfl, by simp only [initLocals, List.length_replicate]; omega⟩
  simp only [Nat.cast_zero, add_zero] at hv1
  exact bind_ok_of hv1 ⟨_, rfl, hA⟩

/-! ## Bands and the two phases of `blur` -/

theorem tdiv_nonpos_of_nonpos (a : Int) (t : Nat) (ha : a ≤ 0) : Int.tdiv a (t : Int) ≤ 0 := by
  have h1 : a = -(-a) := by omega
  have h2 : 0 ≤ Int.tdiv (-a) (t : Int) := Int.tdiv_nonneg (by omega) (by omega)
  rw [h1, Int.neg_tdiv]
  omega

theorem mem_bands (per : Int) (t : Nat) (b : Int × Int) (hb : b ∈ bands per t) :
    ∃ i : Nat, i < t ∧ b = ((i : Int) * per, ((i : Int) + 1) * per - 1) := by
  unfold bands at hb
  rw [List.mem_map] at hb
  obtain ⟨i, hi, rfl⟩ := hb
  exact ⟨i, List.mem_range.mp hi, rfl⟩

/-- The bands of `blur` for `n` rows (or columns) lie inside `0 .. n - 1`. -/
theorem bands_inside (n t : Nat) (b : Int × Int)
    (hb : b ∈ bands (Int.tdiv (n : Int) (t : Int)) t) :
    0 ≤ b.1 ∧ b.2 ≤ (n : Int) - 1 := by
  obtain ⟨i, hi, rfl⟩ := mem_bands _ _ _ hb
  rw [← Int.ofNat_tdiv]
  have h1 : (i + 1) * (n / t) ≤ t * (n / t) := Nat.mul_le_mul_right _ (by omega)
  have h2 : t * (n / t) ≤ n := Nat.mul_div_le n t
  have h3 : (((i + 1) * (n / t) : Nat) : Int) ≤ (n : Int) := by exact_mod_cast h1.trans h2
  simp only [Nat.cast_mul, Nat.cast_add, Nat.cast_one] at h3
  constructor
  · positivity
  · dsimp only
    omega

theorem runJobs_ok (job : List Nat → Int → Int → Except Fault (List Nat)) (A : List Nat)
    (bound : Int)
    (hjob : ∀ px first last, px.map alpha = A → 0 ≤ first → last ≤ bound →
      ∃ out, job px first last = .ok out ∧ out.map alpha = A) :
    ∀ (works : List (Int × Int)), (∀ b ∈ works, 0 ≤ b.1 ∧ b.2 ≤ bound) →
      ∀ px, px.map alpha = A → ∃ out, runJobs job works px = .ok out ∧ out.map alpha = A := by
  intro works
  induction works with
  | nil =>
    intro _ px hpx
    exact ⟨px, rfl, hpx⟩
  | cons b rest ih =>
    intro hall px hpx
    obtain ⟨first, last⟩ := b
    obtain ⟨h0, h1⟩ := hall (first, last) (List.mem_cons_self _ _)
    obtain ⟨out1, ho1, hA1⟩ := hjob px first last hpx h0 h1
    obtain ⟨out, ho, hA⟩ := ih (fun b hb => hall b (List.mem_cons_of_mem _ hb)) out1 hA1
    refine ⟨out, ?_, hA⟩
    simp only [runJobs, ho1]
    exact ho

theorem tableAt_ok (table : List Int) (i : Int) (h0 : 0 ≤ i) (h1 : i.toNat < table.length) :
    tableAt table i = .ok (table.getD i.toNat 0) := by
  unfold tableAt
  rw [if_pos h0, List.getElem?_eq_getElem h1]
  simp [List.getD_eq_getElem?_getD, List.getElem?_eq_getElem h1]

theorem MUL_TABLE_length : MUL_TABLE.length = 255 := by decide

theorem SHR_TABLE_length : SHR_TABLE.length = 255 := by decide

/-- On a well-formed call `blur` ends without a fault and keeps every alpha byte. -/
theorem blur_ok (imagePixels : List Nat) (radius r w h t : Nat) (hr : radius = r)
    (hr254 : r ≤ 254) (hw : 0 < w) (hh : 0 < h)
    (hlen : imagePixels.length = w * h) :
    ∃ out, blur imagePixels (radius : Int) (w : Int) (h : Int) t = .ok out ∧
      out.map alpha = imagePixels.map alpha := by
  subst hr
  unfold blur
  refine bind_ok_of (tableAt_ok _ _ (by omega) (by rw [MUL_TABLE_length]; omega)) ?_
  refine bind_ok_of (tableAt_ok _ _ (by omega) (by rw [SHR_TABLE_length]; omega)) ?_
  dsimp only
  have hv : Valid
      (newSharedValues (radius : Int) (w : Int) (h : Int)
        (MUL_TABLE.getD (radius : Int).toNat 0) (SHR_TABLE.getD (radius : Int).toNat 0))
      radius w h := ⟨rfl, rfl, rfl, rfl, rfl, rfl, hw, hh⟩
  obtain ⟨out1, ho1, hA1⟩ := runJobs_ok _ (imagePixels.map alpha) ((h : Int) - 1)
    (fun px first last hpx h0 h1 => by
      have hl : px.length = w * h := by
        rw [← List.length_map px alpha, hpx, List.length_map]; exact hlen
      obtain ⟨out, ho, hA⟩ := processingRow_ok _ radius w h hv px hl first last h0 h1
      exact ⟨out, ho, hA.trans hpx⟩)
    (bands (Int.tdiv (h : Int) (t : Int)) t) (fun b hb => bands_inside h t b hb) imagePixels rfl
  refine bind_ok_of ho1 ?_
  exact runJobs_ok _ (imagePixels.map alpha) ((w : Int) - 1)
    (fun px first last hpx h0 h1 => by
      have hl : px.length = w * h := by
        rw [← List.length_map px alpha, hpx, List.length_map]; exact hlen
      obtain ⟨out, ho, hA⟩ := processingColumn_ok _ radius w h hv px hl first last h0 h1
      exact ⟨out, ho, hA.trans hpx⟩)
    (bands (Int.tdiv (w : Int) (t : Int)) t) (fun b hb => bands_inside w t b hb) out1 hA1

theorem bind_eq_ok {α β : Type} {x : Except Fault α} {f : α → Except Fault β} {b : β}
    (h : (x >>= f) = .ok b) : ∃ a, x = .ok a ∧ f a = .ok b := by
  cases x with
  | error e => cases h
  | ok a => exact ⟨a, rfl, h⟩

theorem lineSeed_keeps_pixels (sv : SharedValues) (stride nMax : Int) (lead : Locals → Int)
    (weight : Int → Int) (rad : Int) (v v1 : Locals)
    (h : lineSeed sv stride nMax lead weight rad v = .ok v1) :
    v1.imagePixels = v.imagePixels := by
  unfold lineSeed at h
  obtain ⟨pixel, -, h⟩ := bind_eq_ok h
  obtain ⟨blurStack, -, h⟩ := bind_eq_ok h
  dsimp only at h
  split at h
  · obtain ⟨pixel2, -, h⟩ := bind_eq_ok h
    obtain ⟨blurStack2, -, h⟩ := bind_eq_ok h
    cases h
    rfl
  · cases h
    rfl

theorem runJobs_keeps (job : List Nat → Int → Int → Except Fault (List Nat)) :
    ∀ (works : List (Int × Int)),
      (∀ b ∈ works, ∀ px out, job px b.1 b.2 = .ok out → out = px) →
      ∀ (px out : List Nat), runJobs job works px = .ok out → out = px := by
  intro works
  induction works with
  | nil =>
    intro _ px out h
    simp only [runJobs] at h
    cases h
    rfl
  | cons b rest ih =>
    intro hjob px out h
    obtain ⟨first, last⟩ := b
    simp only [runJobs] at h
    cases hj : job px first last with
    | error e => rw [hj] at h; cases h
    | ok px1 =>
      rw [hj] at h
      rw [ih (fun b hb => hjob b (List.mem_cons_of_mem _ hb)) px1 out h]
      exact hjob (first, last) (List.mem_cons_self _ _) px px1 hj

/-- A row job on an image of non-positive width writes no pixel. -/
theorem processingRow_keeps (sv : SharedValues) (hw : sv.targetWidth ≤ 0)
    (imagePixels : List Nat) (startRow endRow : Int) (out : List Nat)
    (h : processingRow sv imagePixels startRow endRow = .ok out) : out = imagePixels := by
  unfold processingRow at h
  obtain ⟨blurStack, -, h⟩ := bind_eq_ok h
  obtain ⟨v, hv, h⟩ := bind_eq_ok h
  cases h
  refine forRange_keeps (processingRowLine sv) (fun v => v.imagePixels = imagePixels) ?_
    _ _ _ v rfl hv
  intro row s s1 hs hline
  unfold processingRowLine at hline
  dsimp only at hline
  obtain ⟨s2, hs2, hline⟩ := bind_eq_ok hline
  have hcount : sv.targetWidth.toNat = 0 := by omega
  rw [hcount] at hline
  simp only [forRange] at hline
  cases hline
  dsimp only
  rw [processingRowSeed_eq_lineSeed] at hs2
  refine forRange_keeps _ (fun v => v.imagePixels = imagePixels) ?_ _ _ _ s2 hs hs2
  intro i a a1 ha hstep
  rw [lineSeed_keeps_pixels _ _ _ _ _ _ _ _ hstep]
  exact ha

/-- A column job on an image of non-positive height writes no pixel. -/
theorem processingColumn_keeps (sv : SharedValues) (hh : sv.targetHeight ≤ 0)
    (imagePixels : List Nat) (startColumn endColumn : Int) (out : List Nat)
    (h : processingColumn sv imagePixels startColumn endColumn = .ok out) :
    out = imagePixels := by
  unfold processingColumn at h
  obtain ⟨blurStack, -, h⟩ := bind_eq_ok h
  obtain ⟨v, hv, h⟩ := bind_eq_ok h
  cases h
  refine forRange_keeps (processingColumnLine sv) (fun v => v.imagePixels = imagePixels) ?_
    _ _ _ v rfl hv
  intro col s s1 hs hline
  unfold processingColumnLine at hline
  dsimp only at hline
  obtain ⟨s2, hs2, hline⟩ := bind_eq_ok hline
  have hcount : sv.targetHeight.toNat = 0 := by omega
  rw [hcount] at hline
  simp only [forRange] at hline
  cases hline
  dsimp only
  rw [processingColumnSeed_eq_lineSeed] at hs2
  refine forRange_keeps _ (fun v => v.imagePixels = imagePixels) ?_ _ _ _ s2 hs hs2
  intro i a a1 ha hstep
  rw [lineSeed_keeps_pixels _ _ _ _ _ _ _ _ hstep]
  exact ha

/-- A row job on an empty band returns the buffer as it is. -/
theorem processingRow_empty (sv : SharedValues) (hd : 0 ≤ sv.divisor)
    (imagePixels : List Nat) (startRow endRow : Int) (hband : endRow < startRow) :
    processingRow sv imagePixels startRow endRow = .ok imagePixels := by
  unfold processingRow
  rw [newIntArray_ok _ hd]
  have hcount : (endRow + 1 - startRow).toNat = 0 := by omega
  rw [hcount]
  rfl

/-- A column job on an empty band returns the buffer as it is. -/
theorem processingColumn_empty (sv : SharedValues) (hd : 0 ≤ sv.divisor)
    (imagePixels : List Nat) (startColumn endColumn : Int) (hband : endColumn < startColumn) :
    processingColumn sv imagePixels startColumn endColumn = .ok imagePixels := by
  unfold processingColumn
  rw [newIntArray_ok _ hd]
  have hcount : (endColumn + 1 - startColumn).toNat = 0 := by omega
  rw [hcount]
  rfl

theorem runJobs_empty (job : List Nat → Int → Int → Except Fault (List Nat))
    (hjob : ∀ px first last, last < first → job px first last = .ok px) :
    ∀ (works : List (Int × Int)), (∀ b ∈ works, b.2 < b.1) →
      ∀ px, runJobs job works px = .ok px := by
  intro works
  induction works with
  | nil =>
    intro _ px
    rfl
  | cons b rest ih =>
    intro hall px
    obtain ⟨first, last⟩ := b
    have h1 := hjob px first last (hall (first, last) (List.mem_cons_self _ _))
    simp only [runJobs, h1]
    exact ih (fun b hb => hall b (List.mem_cons_of_mem _ hb)) px

/-- With a non-positive number of rows (or columns) per band every band is empty. -/
theorem bands_empty (per : Int) (t : Nat) (hper : per ≤ 0) (b : Int × Int)
    (hb : b ∈ bands per t) : b.2 < b.1 := by
  obtain ⟨i, -, rfl⟩ := mem_bands _ _ _ hb
  dsimp only
  have h : ((i : Int) + 1) * per = (i : Int) * per + per := by ring
  omega

theorem tableAt_nonneg (table : List Int) (i v : Int) (h : tableAt table i = .ok v) : 0 ≤ i := by
  unfold tableAt at h
  by_cases h0 : 0 ≤ i
  · exact h0
  · rw [if_neg h0] at h
    cases h

theorem pack_red (old R G B : Nat) (hR : R < 256) (hG : G < 256) (hB : B < 256) :
    (((old &&& 0xff000000) ||| (R <<< 16) ||| (G <<< 8) ||| B) >>> 16) &&& 0xff = R := by
  apply Nat.eq_of_testBit_eq
  intro i
  simp only [Nat.testBit_and, Nat.testBit_shiftRight, Nat.testBit_or, Nat.testBit_shiftLeft,
    testBit_alphaMask, testBit_byteMask]
  by_cases hi : i < 8
  · have h2 : G.testBit (16 + i - 8) = false := testBit_of_lt_256 G hG _ (by omega)
    have h3 : B.testBit (16 + i) = false := testBit_of_lt_256 B hB _ (by omega)
    have h4 : ¬ (24 ≤ 16 + i) := by omega
    simp [h2, h3, hi, h4]
  · have h1 : R.testBit i = false := testBit_of_lt_256 R hR _ (by omega)
    simp [hi, h1]

theorem pack_green (old R G B : Nat) (hG : G < 256) (hB : B < 256) :
    (((old &&& 0xff000000) ||| (R <<< 16) ||| (G <<< 8) ||| B) >>> 8) &&& 0xff = G := by
  apply Nat.eq_of_testBit_eq
  intro i
  simp only [Nat.testBit_and, Nat.testBit_shiftRight, Nat.testBit_or, Nat.testBit_shiftLeft,
    testBit_alphaMask, testBit_byteMask]
  by_cases hi : i < 8
  · have h3 : B.testBit (8 + i) = false := testBit_of_lt_256 B hB _ (by omega)
    have h4 : ¬ (24 ≤ 8 + i) := by omega
    have h5 : ¬ (16 ≤ 8 + i) := by omega
    simp [h3, hi, h4, h5]
  · have h1 : G.testBit i = false := testBit_of_lt_256 G hG _ (by omega)
    simp [hi, h1]

theorem pack_blue (old R G B : Nat) (hB : B < 256) :
    ((old &&& 0xff000000) ||| (R <<< 16) ||| (G <<< 8) ||| B) &&& 0xff = B := by
  apply Nat.eq_of_testBit_eq
  intro i
  simp only [Nat.testBit_and, Nat.testBit_or, Nat.testBit_shiftLeft,
    testBit_alphaMask, testBit_byteMask]
  by_cases hi : i < 8
  · have h4 : ¬ (24 ≤ i) := by omega
    have h5 : ¬ (16 ≤ i) := by omega
    have h6 : ¬ (8 ≤ i) := by omega
    simp [hi, h4, h5, h6]
  · have h1 : B.testBit i = false := testBit_of_lt_256 B hB _ (by omega)
    simp [hi, h1]

/-! ## The claims -/

/-- C1, evidence of the defect: at radius 0 the seeding loop of `processingRow` uses
the multiplier `rad - 1 = -1`, so the 1x1 buffer with the pixel `0xFF000001` comes
back as `0xFF0000FF` instead of unchanged. -/
theorem blur_radius_zero_changes_pixel :
    blur [0xFF000001] 0 1 1 1 = .ok [0xFF0000FF] := by
  decide

/-- C2: on a call with a radius in `0 .. 254`, positive width and height, at least
one thread and a buffer of `width * height` pixels, `blur` ends without a fault, the
buffer keeps its length and every pixel keeps its top byte; and the value stored by a
write keeps the top byte of the old pixel and carries the three output channels in
bits 16..23, 8..15 and 0..7. -/
theorem blur_preserves_alpha (imagePixels : List Nat) (radius targetWidth targetHeight : Int)
    (availableThreads : Nat) (hradius : 0 ≤ radius ∧ radius ≤ 254) (hwidth : 0 < targetWidth)
    (hheight : 0 < targetHeight) (_hthreads : 1 ≤ availableThreads)
    (hlen : (imagePixels.length : Int) = targetWidth * targetHeight) :
    (∃ out, blur imagePixels radius targetWidth targetHeight availableThreads = .ok out ∧
      out.length = imagePixels.length ∧
      ∀ (i p q : Nat), imagePixels[i]? = some p → out[i]? = some q → alpha q = alpha p) ∧
    (∀ old sumRed sumGreen sumBlue multiplySum shiftSum,
      alpha (blurredPixel old sumRed sumGreen sumBlue multiplySum shiftSum) = alpha old ∧
      red (blurredPixel old sumRed sumGreen sumBlue multiplySum shiftSum) =
        (outChannel sumRed multiplySum shiftSum : Int) ∧
      green (blurredPixel old sumRed sumGreen sumBlue multiplySum shiftSum) =
        (outChannel sumGreen multiplySum shiftSum : Int) ∧
      blue (blurredPixel old sumRed sumGreen sumBlue multiplySum shiftSum) =
        (outChannel sumBlue multiplySum shiftSum : Int) ∧
      outChannel sumRed multiplySum shiftSum < 256 ∧
      outChannel sumGreen multiplySum shiftSum < 256 ∧
      outChannel sumBlue multiplySum shiftSum < 256) := by
  constructor
  · obtain ⟨r, rfl⟩ := Int.eq_ofNat_of_zero_le hradius.1
    obtain ⟨w, rfl⟩ := Int.eq_ofNat_of_zero_le (le_of_lt hwidth)
    obtain ⟨h, rfl⟩ := Int.eq_ofNat_of_zero_le (le_of_lt hheight)
    have hlen1 : imagePixels.length = w * h := by exact_mod_cast hlen
    obtain ⟨out, ho, hA⟩ := blur_ok imagePixels r r w h availableThreads rfl (by omega)
      (by omega) (by omega) hlen1
    refine ⟨out, ho, ?_, ?_⟩
    · rw [← List.length_map out alpha, hA, List.length_map]
    · intro i p q hp hq
      have h1 : (out.map alpha)[i]? = (imagePixels.map alpha)[i]? := by rw [hA]
      rw [List.getElem?_map, List.getElem?_map, hp, hq] at h1
      exact Option.some.inj h1
  · intro old sumRed sumGreen sumBlue multiplySum shiftSum
    have hR := outChannel_lt sumRed multiplySum shiftSum
    have hG := outChannel_lt sumGreen multiplySum shiftSum
    have hB := outChannel_lt sumBlue multiplySum shiftSum
    refine ⟨alpha_blurredPixel _ _ _ _ _ _, ?_, ?_, ?_, hR, hG, hB⟩
    · unfold red blurredPixel
      rw [pack_red old _ _ _ hR hG hB]
    · unfold green blurredPixel
      rw [pack_green old _ _ _ hG hB]
    · unfold blue blurredPixel
      rw [pack_blue old _ _ _ hB]

/-- C2, witness: the theorem on a 2x1 buffer at radius 1 with one thread. -/
theorem blur_preserves_alpha_witness :
    (∃ out, blur [0x80FFFFFF, 0x7F000000] 1 2 1 1 = .ok out ∧
      out.length = [0x80FFFFFF, 0x7F000000].length ∧
      ∀ (i p q : Nat), [0x80FFFFFF, 0x7F000000][i]? = some p → out[i]? = some q →
        alpha q = alpha p) ∧
    (∀ old sumRed sumGreen sumBlue multiplySum shiftSum,
      alpha (blurredPixel old sumRed sumGreen sumBlue multiplySum shiftSum) = alpha old ∧
      red (blurredPixel old sumRed sumGreen sumBlue multiplySum shiftSum) =
        (outChannel sumRed multiplySum shiftSum : Int) ∧
      green (blurredPixel old sumRed sumGreen sumBlue multiplySum shiftSum) =
        (outChannel sumGreen multiplySum shiftSum : Int) ∧
      blue (blurredPixel old sumRed sumGreen sumBlue multiplySum shiftSum) =
        (outChannel sumBlue multiplySum shiftSum : Int) ∧
      outChannel sumRed multiplySum shiftSum < 256 ∧
      outChannel sumGreen multiplySum shiftSum < 256 ∧
      outChannel sumBlue multiplySum shiftSum < 256) :=
  blur_preserves_alpha [0x80FFFFFF, 0x7F000000] 1 2 1 1 (by decide) (by decide) (by decide)
    (by decide) (by decide)

/-- C3, evidence of the defect: the 1x1 image whose pixel has red, green and blue
255 comes back from `blur` at radius 1 with red, green and blue 0; every channel
moved by 255, not by at most 1. -/
theorem blur_uniform_white_turns_black :
    blur [0xFFFFFFFF] 1 1 1 1 = .ok [0xFF000000] := by
  decide

/-- C4, evidence of the defect: at radius 0 on the 1x1 buffer with blue 1,
`processingRow` stores blue 255, while the clamp-to-edge triangular convolution of
the row gives blue 1. -/
theorem processingRow_differs_from_convolution :
    processingRow (newSharedValues 0 1 1 512 9) [0xFF000001] 0 0 = .ok [0xFF0000FF] ∧
    blue 0xFF0000FF = 255 ∧
    specChannel 0 512 9 (fun x => blue ([0xFF000001].getD x.toNat 0)) 0 0 = 1 := by
  decide

/-- C5, evidence of the defect: at radius 2 on the column with blue 0, 9, 0 (width
1, height 3), `processingColumn` stores blue 5, 5, 3, while the clamp-to-edge
triangular convolution of the column gives 2, 3, 2. -/
theorem processingColumn_differs_from_convolution :
    processingColumn (newSharedValues 2 1 3 456 12) [0xFF000000, 0xFF000009, 0xFF000000] 0 0
      = .ok [0xFF000005, 0xFF000005, 0xFF000003] ∧
    specChannel 2 456 12
      (fun y => blue ([0xFF000000, 0xFF000009, 0xFF000000].getD y.toNat 0)) 0 2 = 2 ∧
    specChannel 2 456 12
      (fun y => blue ([0xFF000000, 0xFF000009, 0xFF000000].getD y.toNat 0)) 1 2 = 3 ∧
    specChannel 2 456 12
      (fun y => blue ([0xFF000000, 0xFF000009, 0xFF000000].getD y.toNat 0)) 2 2 = 2 := by
  decide

/-- C6, evidence of the defect: on the 3x1 buffer with blue 0, 0, 255 at radius 1,
one thread blurs the row, while with two threads `height / 2 = 0` rows go to each
band, no row is blurred and the buffer comes back as it was. -/
theorem blur_depends_on_thread_count :
    blur [0xFF000000, 0xFF000000, 0xFF0000FF] 1 3 1 1
      = .ok [0xFF000000, 0xFF00003F, 0xFF0000BF] ∧
    blur [0xFF000000, 0xFF000000, 0xFF0000FF] 1 3 1 2
      = .ok [0xFF000000, 0xFF000000, 0xFF0000FF] := by
  decide

/-- C8, counterexample: a buffer of three pixels handed over as a 2x1 image is not
rejected, `blur` returns normally and has changed the buffer; and a call with
width 0 and height 0 returns normally as well. -/
theorem blur_accepts_wrong_dimensions :
    blur [0xFF000000, 0xFF0000FF, 0xFFFFFFFF] 1 2 1 1
      = .ok [0xFF00003F, 0xFF0000BF, 0xFFFFFFFF] ∧
    blur [0xFF000005] 1 0 0 1 = .ok [0xFF000005] := by
  decide

/-- C8, amended: if the width or the height is not positive, no job of `blur` writes
a pixel: whenever `blur` returns, the buffer is unchanged; and if both are not
positive and the radius is in `0 .. 254`, every band is empty and `blur` does return,
with the buffer unchanged. -/
theorem blur_nonpositive_dimension_writes_nothing (imagePixels : List Nat)
    (radius targetWidth targetHeight : Int) (availableThreads : Nat)
    (hdim : targetWidth ≤ 0 ∨ targetHeight ≤ 0) :
    (∀ out, blur imagePixels radius targetWidth targetHeight availableThreads = .ok out →
      out = imagePixels) ∧
    (targetWidth ≤ 0 → targetHeight ≤ 0 → 0 ≤ radius → radius ≤ 254 →
      blur imagePixels radius targetWidth targetHeight availableThreads = .ok imagePixels) := by
  constructor
  · intro out h
    unfold blur at h
    obtain ⟨multiplySum, hm, h⟩ := bind_eq_ok h
    obtain ⟨shiftSum, -, h⟩ := bind_eq_ok h
    dsimp only at h
    obtain ⟨px1, h1, h⟩ := bind_eq_ok h
    have hr : 0 ≤ radius := tableAt_nonneg _ _ _ hm
    have hd : 0 ≤ (newSharedValues radius targetWidth targetHeight multiplySum shiftSum).divisor := by
      simp only [newSharedValues]; omega
    rcases hdim with hw | hh
    · have e1 : px1 = imagePixels := runJobs_keeps _ _
        (fun b _ px o ho => processingRow_keeps _ hw px b.1 b.2 o ho) _ _ h1
      have e2 : out = px1 := runJobs_keeps _ _
        (fun b hb px o ho => by
          have he := bands_empty _ _ (tdiv_nonpos_of_nonpos _ availableThreads hw) b hb
          rw [processingColumn_empty _ hd px b.1 b.2 he] at ho
          cases ho
          rfl) _ _ h
      rw [e2, e1]
    · have e1 : px1 = imagePixels := runJobs_keeps _ _
        (fun b hb px o ho => by
          have he := bands_empty _ _ (tdiv_nonpos_of_nonpos _ availableThreads hh) b hb
          rw [processingRow_empty _ hd px b.1 b.2 he] at ho
          cases ho
          rfl) _ _ h1
      have e2 : out = px1 := runJobs_keeps _ _
        (fun b _ px o ho => processingColumn_keeps _ hh px b.1 b.2 o ho) _ _ h
      rw [e2, e1]
  · intro hw hh hr0 hr1
    unfold blur
    rw [tableAt_ok MUL_TABLE radius hr0 (by rw [MUL_TABLE_length]; omega),
      tableAt_ok SHR_TABLE radius hr0 (by rw [SHR_TABLE_length]; omega)]
    have hd : ∀ m s, 0 ≤ (newSharedValues radius targetWidth targetHeight m s).divisor := by
      intro m s
      simp only [newSharedValues]; omega
    have hrows := runJobs_empty
      (processingRow (newSharedValues radius targetWidth targetHeight
        (MUL_TABLE.getD radius.toNat 0) (SHR_TABLE.getD radius.toNat 0)))
      (fun px first last hb => processingRow_empty _ (hd _ _) px first last hb)
      (bands (Int.tdiv targetHeight availableThreads) availableThreads)
      (bands_empty _ _ (tdiv_nonpos_of_nonpos _ availableThreads hh)) imagePixels
    have hcols := runJobs_empty
      (processingColumn (newSharedValues radius targetWidth targetHeight
        (MUL_TABLE.getD radius.toNat 0) (SHR_TABLE.getD radius.toNat 0)))
      (fun px first last hb => processingColumn_empty _ (hd _ _) px first last hb)
      (bands (Int.tdiv targetWidth availableThreads) availableThreads)
      (bands_empty _ _ (tdiv_nonpos_of_nonpos _ availableThreads hw)) imagePixels
    show (Except.ok _ >>= fun multiplySum => Except.ok _ >>= fun shiftSum => _) = _
    simp only [bind, Except.bind]
    rw [hrows]
    exact hcols

/-- C8, witness: the amended statement at width 0 and height -2. -/
theorem blur_nonpositive_dimension_writes_nothing_witness :
    (∀ out, blur [0xFF000005, 0xFF000006] 3 0 (-2) 2 = .ok out →
      out = [0xFF000005, 0xFF000006]) ∧
    ((0 : Int) ≤ 0 → (-2 : Int) ≤ 0 → (0 : Int) ≤ 3 → (3 : Int) ≤ 254 →
      blur [0xFF000005, 0xFF000006] 3 0 (-2) 2 = .ok [0xFF000005, 0xFF000006]) :=
  blur_nonpositive_dimension_writes_nothing [0xFF000005, 0xFF000006] 3 0 (-2) 2
    (Or.inl (by decide))

/-- C9, evidence of the defect: for height 3 and two threads `blur` builds the row
bands `[0, 0]` and `[1, 1]`; row 2 is in no band. -/
theorem bands_miss_last_row :
    bands (Int.tdiv 3 2) 2 = [(0, 0), (1, 1)] ∧
    ¬ ∃ b ∈ bands (Int.tdiv 3 2) 2, b.1 ≤ 2 ∧ 2 ≤ b.2 := by
  decide

/-- C10: for a radius `r ≥ 0`, positive width and height, a buffer of
`width * height` pixels, a row band inside `0 .. heightMax` and a column band inside
`0 .. widthMax`, `processingRow` and `processingColumn` end without a fault: no read
or write of `imagePixels` is outside `0 .. width * height - 1` and no read or write
of `blurStack` is outside `0 .. divisor - 1`; the buffer keeps its length. -/
theorem processing_stays_in_bounds (r w h : Nat) (multiplySum shiftSum : Int)
    (imagePixels : List Nat) (startRow endRow startColumn endColumn : Int)
    (hw : 0 < w) (hh : 0 < h) (hlen : imagePixels.length = w * h)
    (hrows : 0 ≤ startRow ∧ endRow ≤ (h : Int) - 1)
    (hcols : 0 ≤ startColumn ∧ endColumn ≤ (w : Int) - 1) :
    (∃ out, processingRow (newSharedValues r w h multiplySum shiftSum) imagePixels
        startRow endRow = .ok out ∧ out.length = imagePixels.length) ∧
    (∃ out, processingColumn (newSharedValues r w h multiplySum shiftSum) imagePixels
        startColumn endColumn = .ok out ∧ out.length = imagePixels.length) := by
  have hv : Valid (newSharedValues r w h multiplySum shiftSum) r w h :=
    ⟨rfl, rfl, rfl, rfl, rfl, rfl, hw, hh⟩
  constructor
  · obtain ⟨out, ho, hA⟩ := processingRow_ok _ r w h hv imagePixels hlen startRow endRow
      hrows.1 hrows.2
    exact ⟨out, ho, by rw [← List.length_map out alpha, hA, List.length_map]⟩
  · obtain ⟨out, ho, hA⟩ := processingColumn_ok _ r w h hv imagePixels hlen startColumn
      endColumn hcols.1 hcols.2
    exact ⟨out, ho, by rw [← List.length_map out alpha, hA, List.length_map]⟩

/-- C10, witness: the theorem on a 2x2 buffer at radius 3. -/
theorem processing_stays_in_bounds_witness :
    (∃ out, processingRow (newSharedValues (3 : Nat) (2 : Nat) (2 : Nat) 512 13)
        [0xFF000000, 0xFF0000FF, 0xFF00FF00, 0xFFFF0000] 0 1 = .ok out ∧
        out.length = [0xFF000000, 0xFF0000FF, 0xFF00FF00, 0xFFFF0000].length) ∧
    (∃ out, processingColumn (newSharedValues (3 : Nat) (2 : Nat) (2 : Nat) 512 13)
        [0xFF000000, 0xFF0000FF, 0xFF00FF00, 0xFFFF0000] 0 1 = .ok out ∧
        out.length = [0xFF000000, 0xFF0000FF, 0xFF00FF00, 0xFFFF0000].length) :=
  processing_stays_in_bounds 3 2 2 512 13 [0xFF000000, 0xFF0000FF, 0xFF00FF00, 0xFFFF0000]
    0 1 0 1 (by decide) (by decide) (by decide) (by decide) (by decide)

theorem processingRowLine_eq_lineRun (sv : SharedValues) (row : Int) (v : Locals) :
    processingRowLine sv row v =
      lineRun sv 1 sv.widthMax (fun _ => row * sv.targetWidth) (fun rad => rad - 1)
        (row * sv.targetWidth) sv.targetWidth.toNat v := by
  unfold processingRowLine lineRun
  dsimp only
  rw [processingRowSeed_eq_lineSeed, processingRowScan_eq_lineScan]
  have hmin : (if sv.blurRadius > sv.widthMax then sv.widthMax else sv.blurRadius) =
      min sv.blurRadius sv.widthMax := by
    split_ifs <;> omega
  have hidx : min sv.blurRadius sv.widthMax + row * sv.targetWidth =
      row * sv.targetWidth + min sv.blurRadius sv.widthMax * 1 := by ring
  rw [hmin, hidx]
  rfl

theorem processingColumnLine_eq_lineRun (sv : SharedValues) (col : Int) (v : Locals) :
    processingColumnLine sv col v =
      lineRun sv sv.targetWidth sv.heightMax (fun v => v.inIndex) (fun rad => rad + 1)
        col sv.targetHeight.toNat v := by
  unfold processingColumnLine lineRun
  dsimp only
  rw [processingColumnSeed_eq_lineSeed, processingColumnScan_eq_lineScan]
  rfl

theorem readCell_eq (mk : Int → Fault) (cells : List Nat) (i : Int) (v : Nat)
    (h : readCell mk cells i = .ok v) :
    v = cells.getD i.toNat 0 ∧ 0 ≤ i ∧ i.toNat < cells.length := by
  unfold readCell at h
  by_cases h0 : 0 ≤ i
  · rw [if_pos h0] at h
    by_cases h1 : i.toNat < cells.length
    · rw [List.getElem?_eq_getElem h1] at h
      simp only [Except.ok.injEq] at h
      refine ⟨?_, h0, h1⟩
      rw [← h]
      simp [List.getD_eq_getElem?_getD, List.getElem?_eq_getElem h1]
    · rw [List.getElem?_eq_none (by omega)] at h
      cases h
  · rw [if_neg h0] at h
    cases h

theorem writeCell_eq (mk : Int → Fault) (cells : List Nat) (i : Int) (v : Nat)
    (out : List Nat) (h : writeCell mk cells i v = .ok out) :
    out = cells.set i.toNat v ∧ 0 ≤ i ∧ i.toNat < cells.length := by
  unfold writeCell at h
  by_cases h0 : 0 ≤ i ∧ i.toNat < cells.length
  · rw [if_pos h0] at h
    cases h
    exact ⟨rfl, h0.1, h0.2⟩
  · rw [if_neg h0] at h
    cases h

theorem lineSeed_eq_seedNext (sv : SharedValues) (stride nMax : Int) (lead : Locals → Int)
    (weight : Int → Int) (rad : Int) (v v1 : Locals)
    (h : lineSeed sv stride nMax lead weight rad v = .ok v1) :
    v1 = seedNext sv stride nMax lead weight rad v := by
  unfold lineSeed at h
  obtain ⟨pixel, hp, h⟩ := bind_eq_ok h
  obtain ⟨blurStack, hb, h⟩ := bind_eq_ok h
  obtain ⟨rfl, -, -⟩ := readCell_eq _ _ _ _ hp
  obtain ⟨rfl, -, -⟩ := writeCell_eq _ _ _ _ _ hb
  dsimp only at h
  unfold seedNext
  dsimp only
  by_cases h1 : rad ≥ 1
  · rw [if_pos h1] at h
    rw [if_pos h1]
    obtain ⟨pixel2, hp2, h⟩ := bind_eq_ok h
    obtain ⟨blurStack2, hb2, h⟩ := bind_eq_ok h
    obtain ⟨rfl, -, -⟩ := readCell_eq _ _ _ _ hp2
    obtain ⟨rfl, -, -⟩ := writeCell_eq _ _ _ _ _ hb2
    cases h
    rfl
  · rw [if_neg h1] at h
    rw [if_neg h1]
    cases h
    rfl

theorem lineScan_eq_scanNext (sv : SharedValues) (stride nMax : Int) (i : Int)
    (v v1 : Locals) (h : lineScan sv stride nMax i v = .ok v1) :
    v1 = scanNext sv stride nMax v := by
  unfold lineScan at h
  obtain ⟨old, h1, h⟩ := bind_eq_ok h
  obtain ⟨imagePixels, h2, h⟩ := bind_eq_ok h
  dsimp only at h
  obtain ⟨leaving, h3, h⟩ := bind_eq_ok h
  obtain ⟨pixel, h4, h⟩ := bind_eq_ok h
  obtain ⟨blurStack, h5, h⟩ := bind_eq_ok h
  obtain ⟨stackPixel, h6, h⟩ := bind_eq_ok h
  obtain ⟨rfl, -, -⟩ := readCell_eq _ _ _ _ h1
  obtain ⟨rfl, -, -⟩ := writeCell_eq _ _ _ _ _ h2
  obtain ⟨rfl, -, -⟩ := readCell_eq _ _ _ _ h3
  obtain ⟨rfl, -, -⟩ := readCell_eq _ _ _ _ h4
  obtain ⟨rfl, -, -⟩ := writeCell_eq _ _ _ _ _ h5
  obtain ⟨rfl, -, -⟩ := readCell_eq _ _ _ _ h6
  cases h
  rfl
theorem seedNext_imagePixels (sv : SharedValues) (stride nMax : Int) (lead : Locals → Int)
    (weight : Int → Int) (rad : Int) (v : Locals) :
    (seedNext sv stride nMax lead weight rad v).imagePixels = v.imagePixels := by
  unfold seedNext
  dsimp only
  split_ifs <;> rfl

/-- Rule for one scanline: a property `Q` of the locals that the unchecked seeding and
scanning steps keep, wherever the index invariants hold, is kept by the whole scanline,
which ends without a fault. -/
theorem lineRun_rule (sv : SharedValues) (stride nMax : Int) (b s m r : Nat) (A : List Nat)
    (g : LineGeom sv stride nMax b s m r A.length) (lead : Locals → Int) (weight : Int → Int)
    (hlead : ∀ v : Locals, (∃ j : Nat, j ≤ m ∧ v.inIndex = ((b + j * s : Nat) : Int)) →
      ∃ j : Nat, j ≤ m ∧ lead v = ((b + j * s : Nat) : Int))
    (Q : Locals → Prop)
    (hQstart : ∀ v, Q v → Q (lineStart (b : Int) v))
    (hQseed : ∀ (k : Nat) (v : Locals), k < r + 1 → SeedInv b s m r v.imagePixels k v → Q v →
      Q (seedNext sv stride nMax lead weight (k : Int) v))
    (hQmid : ∀ v, Q v → Q (scanStart sv stride nMax (b : Int) v))
    (hQscan : ∀ (x : Nat) (v : Locals), x ≤ m → ScanInv b s m r A x v → Q v →
      Q (scanNext sv stride nMax v))
    (v : Locals) (hinv : JobInv r A v) (hQ : Q v) :
    ∃ v1, lineRun sv stride nMax lead weight (b : Int) (m + 1) v = .ok v1 ∧
      JobInv r A v1 ∧ Q v1 := by
  obtain ⟨hmap, hst⟩ := hinv
  have hs := g.stride_eq
  have hm := g.nMax_eq
  have hr := g.radius_eq
  have hlenpx : v.imagePixels.length = A.length := by rw [← hmap, List.length_map]
  have g1 : LineGeom sv stride nMax b s m r v.imagePixels.length := by
    rw [hlenpx]; exact g
  have hcount : (sv.blurRadius + 1).toNat = r + 1 := by rw [hr]; omega
  unfold lineRun
  rw [hcount]
  obtain ⟨v1, hv1, ⟨hpx1, hst1, -⟩, hQ1⟩ := forRange_inv
    (lineSeed sv stride nMax lead weight)
    (fun k u => SeedInv b s m r v.imagePixels k u ∧ Q u) 0 (r + 1)
    (fun k u hk hu => by
      obtain ⟨u1, hu1, hinv1⟩ := lineSeed_step sv stride nMax b s m r v.imagePixels g1
        lead weight hlead k u hk hu.1
      refine ⟨u1, hu1, hinv1, ?_⟩
      have e := lineSeed_eq_seedNext _ _ _ _ _ _ _ _ hu1
      rw [e]
      have hk0 : (0 : Int) + (k : Int) = (k : Int) := by omega
      rw [hk0]
      have hu2 := hu.1
      rw [← hu.1.1] at hu2
      exact hQseed k u hk hu2 hu.2)
    (r + 1) 0 (lineStart (b : Int) v) (by omega)
    ⟨⟨rfl, hst, 0, by omega, by omega, by simp [lineStart]⟩, hQstart v hQ⟩
  simp only [Nat.cast_zero, add_zero] at hv1
  refine bind_ok_of hv1 ?_
  have hmin : min sv.blurRadius nMax = ((min r m : Nat) : Int) := by
    rw [hr, hm]; omega
  obtain ⟨v3, hv3, ⟨hA3, hst3, -⟩, hQ3⟩ := forRange_inv (lineScan sv stride nMax)
    (fun x u => ScanInv b s m r A x u ∧ Q u) 0 (m + 1)
    (fun x u hx hu => by
      obtain ⟨u1, hu1, hinv1⟩ := lineScan_step sv stride nMax b s m r A g _ x u (by omega) hu.1
      refine ⟨u1, hu1, hinv1, ?_⟩
      rw [lineScan_eq_scanNext _ _ _ _ _ _ hu1]
      exact hQscan x u (by omega) hu.1 hu.2)
    (m + 1) 0 (scanStart sv stride nMax (b : Int) v1) (by omega)
    ⟨⟨by simp only [scanStart]; rw [hpx1]; exact hmap, hst1,
      by simp only [scanStart]; omega, by simp only [scanStart]; omega,
      by simp only [scanStart]; omega,
      min r m, by omega, by simp only [scanStart]; exact hmin,
      by simp only [scanStart]; rw [hmin, hs]; push_cast; ring⟩, hQmid v1 hQ1⟩
  simp only [Nat.cast_zero, add_zero] at hv3
  exact ⟨v3, hv3, ⟨hA3, hst3⟩, hQ3⟩

theorem scanNext_imagePixels (sv : SharedValues) (stride nMax : Int) (v : Locals) :
    (scanNext sv stride nMax v).imagePixels =
      v.imagePixels.set v.outIndex.toNat
        (blurredPixel (v.imagePixels.getD v.outIndex.toNat 0) v.sumRed v.sumGreen v.sumBlue
          sv.multiplySum sv.shiftSum) := rfl

/-- One scanline ends without a fault and leaves every pixel that is not on the
scanline as it was. -/
theorem lineRun_frame (sv : SharedValues) (stride nMax : Int) (b s m r : Nat) (A : List Nat)
    (g : LineGeom sv stride nMax b s m r A.length) (lead : Locals → Int) (weight : Int → Int)
    (hlead : ∀ v : Locals, (∃ j : Nat, j ≤ m ∧ v.inIndex = ((b + j * s : Nat) : Int)) →
      ∃ j : Nat, j ≤ m ∧ lead v = ((b + j * s : Nat) : Int))
    (v : Locals) (hinv : JobInv r A v) :
    ∃ v1, lineRun sv stride nMax lead weight (b : Int) (m + 1) v = .ok v1 ∧
      JobInv r A v1 ∧
      ∀ i : Nat, (∀ j : Nat, j ≤ m → i ≠ b + j * s) → v1.imagePixels[i]? = v.imagePixels[i]? := by
  refine lineRun_rule sv stride nMax b s m r A g lead weight hlead
    (fun u => ∀ i : Nat, (∀ j : Nat, j ≤ m → i ≠ b + j * s) →
      u.imagePixels[i]? = v.imagePixels[i]?)
    (fun u hu => hu) ?_ (fun u hu => hu) ?_ v hinv (fun _ _ => rfl)
  · intro k u _ _ hu i hi
    rw [seedNext_imagePixels]
    exact hu i hi
  · intro x u hx hsc hu i hi
    rw [scanNext_imagePixels]
    obtain ⟨-, -, -, -, hout, -⟩ := hsc
    rw [hout, Int.toNat_ofNat, List.getElem?_set_ne (fun h => hi x hx h.symm)]
    exact hu i hi

/-- A row job ends without a fault, keeps the alpha bytes and leaves every pixel of a
row outside `startRow .. endRow` as it was. -/
theorem processingRow_frame (sv : SharedValues) (r w h : Nat) (hv : Valid sv r w h)
    (imagePixels : List Nat) (hlen : imagePixels.length = w * h) (startRow endRow : Int)
    (h0 : 0 ≤ startRow) (h1 : endRow ≤ (h : Int) - 1) :
    ∃ out, processingRow sv imagePixels startRow endRow = .ok out ∧
      out.map alpha = imagePixels.map alpha ∧
      ∀ i : Nat, (((i / w : Nat) : Int) < startRow ∨ endRow < ((i / w : Nat) : Int)) →
        out[i]? = imagePixels[i]? := by
  have hd := hv.divisor_eq
  have hw := hv.width_pos
  unfold processingRow
  refine bind_ok_of (newIntArray_ok _ (by omega)) ?_
  obtain ⟨v, hv1, ⟨hA, -⟩, hF⟩ := forRange_inv (processingRowLine sv)
    (fun _ v => JobInv r (imagePixels.map alpha) v ∧
      ∀ i : Nat, (((i / w : Nat) : Int) < startRow ∨ endRow < ((i / w : Nat) : Int)) →
        v.imagePixels[i]? = imagePixels[i]?)
    startRow (endRow + 1 - startRow).toNat
    (fun k u hk hu => by
      have hrow0 : 0 ≤ startRow + (k : Int) := by omega
      have hrow1 : startRow + (k : Int) ≤ (h : Int) - 1 := by omega
      obtain ⟨ρ, hρ⟩ := Int.eq_ofNat_of_zero_le hrow0
      have hfit : ρ * w + (w - 1) * 1 < (imagePixels.map alpha).length := by
        rw [List.length_map, hlen]
        have h2 : (ρ + 1) * w ≤ h * w := Nat.mul_le_mul_right w (by omega)
        have h3 : (ρ + 1) * w = ρ * w + w := by ring
        have h4 : h * w = w * h := Nat.mul_comm h w
        omega
      have g : LineGeom sv 1 sv.widthMax (ρ * w) 1 (w - 1) r (imagePixels.map alpha).length :=
        ⟨by simp, by rw [hv.widthMax_eq]; omega, hv.blurRadius_eq, by rw [hd]; ring, hfit⟩
      have hb : (startRow + (k : Int)) * sv.targetWidth = ((ρ * w : Nat) : Int) := by
        rw [hv.targetWidth_eq, hρ]; push_cast; ring
      have hcount : sv.targetWidth.toNat = w - 1 + 1 := by rw [hv.targetWidth_eq]; omega
      obtain ⟨u1, hu1, hJ, hfr⟩ := lineRun_frame sv 1 sv.widthMax (ρ * w) 1 (w - 1) r _ g
        (fun _ => ((ρ * w : Nat) : Int)) (fun rad => rad - 1)
        (fun _ _ => ⟨0, by omega, by simp⟩) u hu.1
      refine ⟨u1, ?_, hJ, ?_⟩
      · rw [processingRowLine_eq_lineRun, hb, hcount]
        exact hu1
      · intro i hi
        rw [hfr i ?_]
        · exact hu.2 i hi
        · intro j hj hij
          have hdiv : i / w = ρ := by
            rw [hij, Nat.mul_one, Nat.mul_comm ρ w, Nat.mul_add_div hw, Nat.div_eq_of_lt (by omega)]
            omega
          rw [hdiv] at hi
          omega)
    (endRow + 1 - startRow).toNat 0
    (initLocals imagePixels (List.replicate sv.divisor.toNat 0))
    (by omega)
    ⟨⟨rfl, by simp only [initLocals, List.length_replicate]; omega⟩, fun _ _ => rfl⟩
  simp only [Nat.cast_zero, add_zero] at hv1
  exact bind_ok_of hv1 ⟨_, rfl, hA, hF⟩

/-- A column job ends without a fault, keeps the alpha bytes and leaves every pixel of
a column outside `startColumn .. endColumn` as it was. -/
theorem processingColumn_frame (sv : SharedValues) (r w h : Nat) (hv : Valid sv r w h)
    (imagePixels : List Nat) (hlen : imagePixels.length = w * h) (startColumn endColumn : Int)
    (h0 : 0 ≤ startColumn) (h1 : endColumn ≤ (w : Int) - 1) :
    ∃ out, processingColumn sv imagePixels startColumn endColumn = .ok out ∧
      out.map alpha = imagePixels.map alpha ∧
      ∀ i : Nat, (((i % w : Nat) : Int) < startColumn ∨ endColumn < ((i % w : Nat) : Int)) →
        out[i]? = imagePixels[i]? := by
  have hd := hv.divisor_eq
  have hw := hv.width_pos
  have hh := hv.height_pos
  unfold processingColumn
  refine bind_ok_of (newIntArray_ok _ (by omega)) ?_
  obtain ⟨v, hv1, ⟨hA, -⟩, hF⟩ := forRange_inv (processingColumnLine sv)
    (fun _ v => JobInv r (imagePixels.map alpha) v ∧
      ∀ i : Nat, (((i % w : Nat) : Int) < startColumn ∨ endColumn < ((i % w : Nat) : Int)) →
        v.imagePixels[i]? = imagePixels[i]?)
    startColumn (endColumn + 1 - startColumn).toNat
    (fun k u hk hu => by
      have hcol0 : 0 ≤ startColumn + (k : Int) := by omega
      have hcol1 : startColumn + (k : Int) ≤ (w : Int) - 1 := by omega
      obtain ⟨c, hc⟩ := Int.eq_ofNat_of_zero_le hcol0
      have hfit : c + (h - 1) * w < (imagePixels.map alpha).length := by
        rw [List.length_map, hlen]
        have h2 : (h - 1 + 1) * w = (h - 1) * w + w := by ring
        have h3 : h - 1 + 1 = h := by omega
        rw [h3] at h2
        have h4 : h * w = w * h := Nat.mul_comm h w
        omega
      have g : LineGeom sv sv.targetWidth sv.heightMax c w (h - 1) r
          (imagePixels.map alpha).length :=
        ⟨hv.targetWidth_eq, by rw [hv.heightMax_eq]; omega, hv.blurRadius_eq,
          by rw [hd]; ring, hfit⟩
      have hcount : sv.targetHeight.toNat = h - 1 + 1 := by rw [hv.targetHeight_eq]; omega
      obtain ⟨u1, hu1, hJ, hfr⟩ := lineRun_frame sv sv.targetWidth sv.heightMax c w (h - 1) r _ g
        (fun v => v.inIndex) (fun rad => rad + 1) (fun _ hj => hj) u hu.1
      refine ⟨u1, ?_, hJ, ?_⟩
      · rw [processingColumnLine_eq_lineRun, hc, hcount]
        exact hu1
      · intro i hi
        rw [hfr i ?_]
        · exact hu.2 i hi
        · intro j hj hij
          have hmod : i % w = c := by
            rw [hij, Nat.add_mul_mod_self_right, Nat.mod_eq_of_lt (by omega)]
          rw [hmod] at hi
          omega)
    (endColumn + 1 - startColumn).toNat 0
    (initLocals imagePixels (List.replicate sv.divisor.toNat 0))
    (by omega)
    ⟨⟨rfl, by simp only [initLocals, List.length_replicate]; omega⟩, fun _ _ => rfl⟩
  simp only [Nat.cast_zero, add_zero] at hv1
  exact bind_ok_of hv1 ⟨_, rfl, hA, hF⟩

/-- Loop rule for two runs of a loop side by side. -/
theorem forRange_rel {σ : Type} (body1 body2 : Int → σ → Except Fault σ)
    (R : Nat → σ → σ → Prop) (first : Int) (n : Nat)
    (hstep : ∀ k s1 s2, k < n → R k s1 s2 →
      ∃ t1 t2, body1 (first + k) s1 = .ok t1 ∧ body2 (first + k) s2 = .ok t2 ∧
        R (k + 1) t1 t2) :
    ∀ m k s1 s2, k + m = n → R k s1 s2 →
      ∃ t1 t2, forRange body1 m (first + k) s1 = .ok t1 ∧
        forRange body2 m (first + k) s2 = .ok t2 ∧ R n t1 t2 := by
  intro m
  induction m with
  | zero =>
    intro k s1 s2 hk hR
    have : k = n := by omega
    subst this
    exact ⟨s1, s2, rfl, rfl, hR⟩
  | succ m ih =>
    intro k s1 s2 hk hR
    obtain ⟨t1, t2, h1, h2, hR1⟩ := hstep k s1 s2 (by omega) hR
    rw [forRange_succ_ok body1 m _ s1 t1 h1, forRange_succ_ok body2 m _ s2 t2 h2]
    have h3 := ih (k + 1) t1 t2 (by omega) hR1
    have e : first + ((k + 1 : Nat) : Int) = first + (k : Int) + 1 := by push_cast; ring
    rw [e] at h3
    exact h3

theorem getD_eq_of_getElem?_eq (l1 l2 : List Nat) (i1 i2 : Nat) (h : l1[i1]? = l2[i2]?) :
    l1.getD i1 0 = l2.getD i2 0 := by
  rw [List.getD_eq_getElem?_getD, List.getD_eq_getElem?_getD, h]

theorem scanNext_inIndex (sv : SharedValues) (stride nMax : Int) (v : Locals) :
    (scanNext sv stride nMax v).inIndex =
      if v.offset < nMax then v.inIndex + stride else v.inIndex := rfl

theorem scanNext_offset (sv : SharedValues) (stride nMax : Int) (v : Locals) :
    (scanNext sv stride nMax v).offset =
      if v.offset < nMax then v.offset + 1 else v.offset := rfl

theorem scanNext_outIndex (sv : SharedValues) (stride nMax : Int) (v : Locals) :
    (scanNext sv stride nMax v).outIndex = v.outIndex + stride := rfl

theorem scanNext_stackPointer (sv : SharedValues) (stride nMax : Int) (v : Locals) :
    (scanNext sv stride nMax v).stackPointer =
      if v.stackPointer + 1 ≥ sv.divisor then 0 else v.stackPointer + 1 := rfl

theorem scanNext_blurStack (sv : SharedValues) (stride nMax : Int) (v : Locals) :
    (scanNext sv stride nMax v).blurStack =
      v.blurStack.set (stackStartOf sv v.stackPointer).toNat (scanPixel sv stride nMax v) := rfl

theorem scanNext_sums (sv : SharedValues) (stride nMax : Int) (v : Locals) :
    (scanNext sv stride nMax v).sumRed =
      v.sumRed - v.sumOutputRed + (v.sumInputRed + red (scanPixel sv stride nMax v)) ∧
    (scanNext sv stride nMax v).sumGreen =
      v.sumGreen - v.sumOutputGreen + (v.sumInputGreen + green (scanPixel sv stride nMax v)) ∧
    (scanNext sv stride nMax v).sumBlue =
      v.sumBlue - v.sumOutputBlue + (v.sumInputBlue + blue (scanPixel sv stride nMax v)) ∧
    (scanNext sv stride nMax v).sumInputRed =
      v.sumInputRed + red (scanPixel sv stride nMax v) -
        red (scanStackPixel sv stride nMax v) ∧
    (scanNext sv stride nMax v).sumInputGreen =
      v.sumInputGreen + green (scanPixel sv stride nMax v) -
        green (scanStackPixel sv stride nMax v) ∧
    (scanNext sv stride nMax v).sumInputBlue =
      v.sumInputBlue + blue (scanPixel sv stride nMax v) -
        blue (scanStackPixel sv stride nMax v) ∧
    (scanNext sv stride nMax v).sumOutputRed =
      v.sumOutputRed - red (scanLeaving sv v) + red (scanStackPixel sv stride nMax v) ∧
    (scanNext sv stride nMax v).sumOutputGreen =
      v.sumOutputGreen - green (scanLeaving sv v) + green (scanStackPixel sv stride nMax v) ∧
    (scanNext sv stride nMax v).sumOutputBlue =
      v.sumOutputBlue - blue (scanLeaving sv v) + blue (scanStackPixel sv stride nMax v) :=
  ⟨rfl, rfl, rfl, rfl, rfl, rfl, rfl, rfl, rfl⟩

theorem stackStartOf_congr (sv1 sv2 : SharedValues) (hsv : SameConsts sv1 sv2) (p : Int) :
    stackStartOf sv1 p = stackStartOf sv2 p := by
  unfold stackStartOf
  rw [hsv.blurRadius_eq, hsv.divisor_eq]

theorem scanNext_sim (sv1 sv2 : SharedValues) (hsv : SameConsts sv1 sv2) (stride nMax : Int)
    (b1 b2 s m : Nat) (hs : 0 < s) (hstride : stride = (s : Int)) (hmax : nMax = (m : Int))
    (x : Nat) (hx : x ≤ m) (v1 v2 : Locals)
    (hl1 : b1 + m * s < v1.imagePixels.length) (hl2 : b2 + m * s < v2.imagePixels.length)
    (h : ScanSim b1 b2 s m x v1 v2) :
    ScanSim b1 b2 s m (x + 1) (scanNext sv1 stride nMax v1) (scanNext sv2 stride nMax v2) := by
  obtain ⟨hsums, hstack, hsp, hout1, hout2, ⟨j, hj, hoff1, hoff2, hin1, hin2⟩, hag⟩ := h
  obtain ⟨e1, e2, e3, e4, e5, e6, e7, e8, e9⟩ := hsums
  have hxs : x * s ≤ m * s := Nat.mul_le_mul_right s hx
  have hold : v1.imagePixels.getD v1.outIndex.toNat 0 =
      v2.imagePixels.getD v2.outIndex.toNat 0 := by
    rw [hout1, hout2, Int.toNat_ofNat, Int.toNat_ofNat]
    exact getD_eq_of_getElem?_eq _ _ _ _ (hag x hx)
  have hag1 : LinesAgree b1 b2 s m (scanNext sv1 stride nMax v1).imagePixels
      (scanNext sv2 stride nMax v2).imagePixels := by
    intro j1 hj1
    rw [scanNext_imagePixels, scanNext_imagePixels, hold, hout1, hout2, Int.toNat_ofNat,
      Int.toNat_ofNat, List.getElem?_set, List.getElem?_set, e1, e2, e3, hsv.multiplySum_eq,
      hsv.shiftSum_eq]
    by_cases hjx : j1 = x
    · subst hjx
      rw [if_pos rfl, if_pos rfl, if_pos (by omega), if_pos (by omega)]
    · have hne : x * s ≠ j1 * s := by
        intro heq
        exact hjx (Nat.eq_of_mul_eq_mul_right hs heq).symm
      rw [if_neg (by omega), if_neg (by omega)]
      exact hag j1 hj1
  have hcur : ∃ j1 : Nat, j1 ≤ m ∧
      (scanNext sv1 stride nMax v1).offset = (j1 : Int) ∧
      (scanNext sv2 stride nMax v2).offset = (j1 : Int) ∧
      (scanNext sv1 stride nMax v1).inIndex = ((b1 + j1 * s : Nat) : Int) ∧
      (scanNext sv2 stride nMax v2).inIndex = ((b2 + j1 * s : Nat) : Int) := by
    simp only [scanNext_offset, scanNext_inIndex]
    have hj2 : (j + 1) * s = j * s + s := by ring
    by_cases hlt : (j : Int) < nMax
    · refine ⟨j + 1, by omega, ?_, ?_, ?_, ?_⟩
      · rw [hoff1, if_pos hlt]; omega
      · rw [hoff2, if_pos hlt]; omega
      · rw [hoff1, if_pos hlt]; omega
      · rw [hoff2, if_pos hlt]; omega
    · refine ⟨j, hj, ?_, ?_, ?_, ?_⟩
      · rw [hoff1, if_neg hlt]
      · rw [hoff2, if_neg hlt]
      · rw [hoff1, if_neg hlt]; exact hin1
      · rw [hoff2, if_neg hlt]; exact hin2
  obtain ⟨j1, hj1, ho1, ho2, hi1, hi2⟩ := hcur
  have hpix : scanPixel sv1 stride nMax v1 = scanPixel sv2 stride nMax v2 := by
    unfold scanPixel
    rw [hi1, hi2, Int.toNat_ofNat, Int.toNat_ofNat]
    exact getD_eq_of_getElem?_eq _ _ _ _ (hag1 j1 hj1)
  have hst1 : (scanNext sv1 stride nMax v1).blurStack =
      (scanNext sv2 stride nMax v2).blurStack := by
    rw [scanNext_blurStack, scanNext_blurStack, hpix, hstack, hsp,
      stackStartOf_congr sv1 sv2 hsv]
  have hsp1 : (scanNext sv1 stride nMax v1).stackPointer =
      (scanNext sv2 stride nMax v2).stackPointer := by
    rw [scanNext_stackPointer, scanNext_stackPointer, hsp, hsv.divisor_eq]
  have hleave : scanLeaving sv1 v1 = scanLeaving sv2 v2 := by
    unfold scanLeaving
    rw [hstack, hsp, stackStartOf_congr sv1 sv2 hsv]
  have hsp2 : scanStackPixel sv1 stride nMax v1 = scanStackPixel sv2 stride nMax v2 := by
    unfold scanStackPixel
    rw [hst1, hsp1]
  obtain ⟨a1, a2, a3, a4, a5, a6, a7, a8, a9⟩ := scanNext_sums sv1 stride nMax v1
  obtain ⟨d1, d2, d3, d4, d5, d6, d7, d8, d9⟩ := scanNext_sums sv2 stride nMax v2
  refine ⟨⟨?_, ?_, ?_, ?_, ?_, ?_, ?_, ?_, ?_⟩, hst1, hsp1, ?_, ?_,
    ⟨j1, hj1, ho1, ho2, hi1, hi2⟩, hag1⟩
  · rw [a1, d1, hpix, e1, e4, e7]
  · rw [a2, d2, hpix, e2, e5, e8]
  · rw [a3, d3, hpix, e3, e6, e9]
  · rw [a4, d4, hpix, hsp2, e4]
  · rw [a5, d5, hpix, hsp2, e5]
  · rw [a6, d6, hpix, hsp2, e6]
  · rw [a7, d7, hleave, hsp2, e7]
  · rw [a8, d8, hleave, hsp2, e8]
  · rw [a9, d9, hleave, hsp2, e9]
  · rw [scanNext_outIndex, hout1, hstride]; push_cast; ring
  · rw [scanNext_outIndex, hout2, hstride]; push_cast; ring

theorem seedNext_sim (sv1 sv2 : SharedValues) (hsv : SameConsts sv1 sv2) (stride nMax : Int)
    (b1 b2 s m r : Nat) (hstride : stride = (s : Int)) (hmax : nMax = (m : Int))
    (hrad : sv1.blurRadius = (r : Int))
    (lead1 lead2 : Locals → Int) (weight : Int → Int)
    (hlead : ∀ u1 u2 : Locals,
      (∃ j : Nat, j ≤ m ∧ u1.inIndex = ((b1 + j * s : Nat) : Int) ∧
        u2.inIndex = ((b2 + j * s : Nat) : Int)) →
      ∃ j : Nat, j ≤ m ∧ lead1 u1 = ((b1 + j * s : Nat) : Int) ∧
        lead2 u2 = ((b2 + j * s : Nat) : Int))
    (k : Nat) (hk : k < r + 1) (v1 v2 : Locals)
    (hlen1 : v1.blurStack.length = 2 * r + 1) (hlen2 : v2.blurStack.length = 2 * r + 1)
    (hag : LinesAgree b1 b2 s m v1.imagePixels v2.imagePixels)
    (h : SeedSim b1 b2 s m r k v1 v2) :
    SeedSim b1 b2 s m r (k + 1) (seedNext sv1 stride nMax lead1 weight (k : Int) v1)
      (seedNext sv2 stride nMax lead2 weight (k : Int) v2) := by
  obtain ⟨hsums, hcells, j, hj, hjk, hin1, hin2⟩ := h
  obtain ⟨e1, e2, e3, e4, e5, e6, e7, e8, e9⟩ := hsums
  obtain ⟨j0, hj0, hl1, hl2⟩ := hlead v1 v2 ⟨j, hj, hin1, hin2⟩
  have hrad2 : sv2.blurRadius = (r : Int) := by rw [← hsv.blurRadius_eq]; exact hrad
  have hp : v1.imagePixels.getD (lead1 v1).toNat 0 = v2.imagePixels.getD (lead2 v2).toNat 0 := by
    rw [hl1, hl2, Int.toNat_ofNat, Int.toNat_ofNat]
    exact getD_eq_of_getElem?_eq _ _ _ _ (hag j0 hj0)
  have hj2 : (j + 1) * s = j * s + s := by ring
  by_cases h1 : (k : Int) ≥ 1
  · -- the second half of the iteration runs
    have hcur : ∃ j1 : Nat, j1 ≤ m ∧ j1 ≤ k + 1 - 1 ∧
        (if (k : Int) ≤ nMax then v1.inIndex + stride else v1.inIndex) =
          ((b1 + j1 * s : Nat) : Int) ∧
        (if (k : Int) ≤ nMax then v2.inIndex + stride else v2.inIndex) =
          ((b2 + j1 * s : Nat) : Int) := by
      by_cases hle : (k : Int) ≤ nMax
      · refine ⟨j + 1, by omega, by omega, ?_, ?_⟩
        · rw [if_pos hle]; omega
        · rw [if_pos hle]; omega
      · refine ⟨j, hj, by omega, ?_, ?_⟩
        · rw [if_neg hle]; exact hin1
        · rw [if_neg hle]; exact hin2
    obtain ⟨j1, hj1, hj1k, hi1, hi2⟩ := hcur
    have hq : v1.imagePixels.getD
          (if (k : Int) ≤ nMax then v1.inIndex + stride else v1.inIndex).toNat 0 =
        v2.imagePixels.getD
          (if (k : Int) ≤ nMax then v2.inIndex + stride else v2.inIndex).toNat 0 := by
      rw [hi1, hi2, Int.toNat_ofNat, Int.toNat_ofNat]
      exact getD_eq_of_getElem?_eq _ _ _ _ (hag j1 hj1)
    simp only [seedNext, if_pos h1]
    refine ⟨⟨?_, ?_, ?_, ?_, ?_, ?_, ?_, ?_, ?_⟩, ?_, ⟨j1, hj1, hj1k, hi1, hi2⟩⟩
    · rw [hp, hq, e1, hrad, hrad2]
    · rw [hp, hq, e2, hrad, hrad2]
    · rw [hp, hq, e3, hrad, hrad2]
    · rw [hq, e4]
    · rw [hq, e5]
    · rw [hq, e6]
    · rw [hp, e7]
    · rw [hp, e8]
    · rw [hp, e9]
    · intro c hc
      have t1 : ((k : Int) + sv1.blurRadius).toNat = k + r := by rw [hrad]; omega
      have t2 : ((k : Int) + sv2.blurRadius).toNat = k + r := by rw [hrad2]; omega
      rw [t1, t2, Int.toNat_ofNat, hp, hq, List.getElem?_set, List.getElem?_set,
        List.getElem?_set, List.getElem?_set, List.length_set, List.length_set, hlen1, hlen2]
      by_cases hc1 : k + r = c
      · rw [if_pos hc1, if_pos hc1]
      · rw [if_neg hc1, if_neg hc1]
        by_cases hc2 : k = c
        · rw [if_pos hc2, if_pos hc2]
        · rw [if_neg hc2, if_neg hc2]
          exact hcells c (by omega)
  · -- the first iteration, `rad = 0`
    simp only [seedNext, if_neg h1]
    refine ⟨⟨?_, ?_, ?_, e4, e5, e6, ?_, ?_, ?_⟩, ?_, ⟨j, hj, by omega, hin1, hin2⟩⟩
    · rw [hp, e1]
    · rw [hp, e2]
    · rw [hp, e3]
    · rw [hp, e7]
    · rw [hp, e8]
    · rw [hp, e9]
    · intro c hc
      rw [Int.toNat_ofNat, hp, List.getElem?_set, List.getElem?_set, hlen1, hlen2]
      by_cases hc2 : k = c
      · rw [if_pos hc2, if_pos hc2]
      · rw [if_neg hc2, if_neg hc2]
        exact hcells c (by omega)

/-- Two runs of one scanline on scanlines that hold the same pixels end without a
fault, and the two scanlines hold the same pixels afterwards.  The stacks of the two
runs may differ before. -/
theorem lineRun_sim (sv1 sv2 : SharedValues) (hsv : SameConsts sv1 sv2) (stride nMax : Int)
    (b1 b2 s m r : Nat) (hs : 0 < s) (A1 A2 : List Nat)
    (g1 : LineGeom sv1 stride nMax b1 s m r A1.length)
    (g2 : LineGeom sv2 stride nMax b2 s m r A2.length)
    (lead1 lead2 : Locals → Int) (weight : Int → Int)
    (hlead1 : ∀ v : Locals, (∃ j : Nat, j ≤ m ∧ v.inIndex = ((b1 + j * s : Nat) : Int)) →
      ∃ j : Nat, j ≤ m ∧ lead1 v = ((b1 + j * s : Nat) : Int))
    (hlead2 : ∀ v : Locals, (∃ j : Nat, j ≤ m ∧ v.inIndex = ((b2 + j * s : Nat) : Int)) →
      ∃ j : Nat, j ≤ m ∧ lead2 v = ((b2 + j * s : Nat) : Int))
    (hlead : ∀ u1 u2 : Locals,
      (∃ j : Nat, j ≤ m ∧ u1.inIndex = ((b1 + j * s : Nat) : Int) ∧
        u2.inIndex = ((b2 + j * s : Nat) : Int)) →
      ∃ j : Nat, j ≤ m ∧ lead1 u1 = ((b1 + j * s : Nat) : Int) ∧
        lead2 u2 = ((b2 + j * s : Nat) : Int))
    (v1 v2 : Locals) (hJ1 : JobInv r A1 v1) (hJ2 : JobInv r A2 v2)
    (hag : LinesAgree b1 b2 s m v1.imagePixels v2.imagePixels) :
    ∃ u1 u2, lineRun sv1 stride nMax lead1 weight (b1 : Int) (m + 1) v1 = .ok u1 ∧
      lineRun sv2 stride nMax lead2 weight (b2 : Int) (m + 1) v2 = .ok u2 ∧
      JobInv r A1 u1 ∧ JobInv r A2 u2 ∧
      LinesAgree b1 b2 s m u1.imagePixels u2.imagePixels := by
  obtain ⟨hmap1, hst1⟩ := hJ1
  obtain ⟨hmap2, hst2⟩ := hJ2
  have hr1 := g1.radius_eq
  have hr2 := g2.radius_eq
  have hlenpx1 : v1.imagePixels.length = A1.length := by rw [← hmap1, List.length_map]
  have hlenpx2 : v2.imagePixels.length = A2.length := by rw [← hmap2, List.length_map]
  have g1' : LineGeom sv1 stride nMax b1 s m r v1.imagePixels.length := by
    rw [hlenpx1]; exact g1
  have g2' : LineGeom sv2 stride nMax b2 s m r v2.imagePixels.length := by
    rw [hlenpx2]; exact g2
  have hcount1 : (sv1.blurRadius + 1).toNat = r + 1 := by rw [hr1]; omega
  have hcount2 : (sv2.blurRadius + 1).toNat = r + 1 := by rw [hr2]; omega
  unfold lineRun
  rw [hcount1, hcount2]
  obtain ⟨w1, w2, hw1, hw2, ⟨hpx1, hsl1, -⟩, ⟨hpx2, hsl2, -⟩, hsim⟩ := forRange_rel
    (lineSeed sv1 stride nMax lead1 weight) (lineSeed sv2 stride nMax lead2 weight)
    (fun k u1 u2 => SeedInv b1 s m r v1.imagePixels k u1 ∧
      SeedInv b2 s m r v2.imagePixels k u2 ∧ SeedSim b1 b2 s m r k u1 u2) 0 (r + 1)
    (fun k u1 u2 hk hu => by
      obtain ⟨hi1, hi2, hsm⟩ := hu
      obtain ⟨t1, ht1, hinv1⟩ := lineSeed_step sv1 stride nMax b1 s m r v1.imagePixels g1'
        lead1 weight hlead1 k u1 hk hi1
      obtain ⟨t2, ht2, hinv2⟩ := lineSeed_step sv2 stride nMax b2 s m r v2.imagePixels g2'
        lead2 weight hlead2 k u2 hk hi2
      refine ⟨t1, t2, ht1, ht2, hinv1, hinv2, ?_⟩
      have hk0 : (0 : Int) + (k : Int) = (k : Int) := by omega
      rw [lineSeed_eq_seedNext _ _ _ _ _ _ _ _ ht1, lineSeed_eq_seedNext _ _ _ _ _ _ _ _ ht2, hk0]
      refine seedNext_sim sv1 sv2 hsv stride nMax b1 b2 s m r g1.stride_eq g1.nMax_eq hr1
        lead1 lead2 weight hlead k hk u1 u2 hi1.2.1 hi2.2.1 ?_ hsm
      rw [hi1.1, hi2.1]
      exact hag)
    (r + 1) 0 (lineStart (b1 : Int) v1) (lineStart (b2 : Int) v2) (by omega)
    ⟨⟨rfl, hst1, 0, by omega, by omega, by simp [lineStart]⟩,
      ⟨rfl, hst2, 0, by omega, by omega, by simp [lineStart]⟩,
      ⟨⟨rfl, rfl, rfl, rfl, rfl, rfl, rfl, rfl, rfl⟩, fun c hc => by omega,
        0, by omega, by omega, by simp [lineStart], by simp [lineStart]⟩⟩
  simp only [Nat.cast_zero, add_zero] at hw1 hw2
  rw [hw1, hw2]
  have hstack : w1.blurStack = w2.blurStack := by
    apply List.ext_getElem?
    intro c
    by_cases hc : c < 2 * r + 1
    · exact hsim.2.1 c (by omega)
    · rw [List.getElem?_eq_none (by omega), List.getElem?_eq_none (by omega)]
  have hmin1 : min sv1.blurRadius nMax = ((min r m : Nat) : Int) := by
    rw [hr1, g1.nMax_eq]; omega
  have hmin2 : min sv2.blurRadius nMax = ((min r m : Nat) : Int) := by
    rw [hr2, g1.nMax_eq]; omega
  have hstr := g1.stride_eq
  obtain ⟨u1, u2, hu1, hu2, ⟨hA1, hs1, -⟩, ⟨hA2, hs2, -⟩, hsc⟩ := forRange_rel
    (lineScan sv1 stride nMax) (lineScan sv2 stride nMax)
    (fun x t1 t2 => ScanInv b1 s m r A1 x t1 ∧ ScanInv b2 s m r A2 x t2 ∧
      ScanSim b1 b2 s m x t1 t2) 0 (m + 1)
    (fun x t1 t2 hx ht => by
      obtain ⟨hi1, hi2, hsm⟩ := ht
      obtain ⟨n1, hn1, hinv1⟩ := lineScan_step sv1 stride nMax b1 s m r A1 g1 _ x t1
        (by omega) hi1
      obtain ⟨n2, hn2, hinv2⟩ := lineScan_step sv2 stride nMax b2 s m r A2 g2 _ x t2
        (by omega) hi2
      refine ⟨n1, n2, hn1, hn2, hinv1, hinv2, ?_⟩
      rw [lineScan_eq_scanNext _ _ _ _ _ _ hn1, lineScan_eq_scanNext _ _ _ _ _ _ hn2]
      refine scanNext_sim sv1 sv2 hsv stride nMax b1 b2 s m hs g1.stride_eq g1.nMax_eq x
        (by omega) t1 t2 ?_ ?_ hsm
      · have : t1.imagePixels.length = A1.length := by rw [← hi1.1, List.length_map]
        rw [this]; exact g1.fits
      · have : t2.imagePixels.length = A2.length := by rw [← hi2.1, List.length_map]
        rw [this]; exact g2.fits)
    (m + 1) 0 (scanStart sv1 stride nMax (b1 : Int) w1) (scanStart sv2 stride nMax (b2 : Int) w2)
    (by omega)
    ⟨⟨by simp only [scanStart]; rw [hpx1]; exact hmap1, hsl1,
        by simp only [scanStart]; omega, by simp only [scanStart]; omega,
        by simp only [scanStart]; omega,
        min r m, by omega, by simp only [scanStart]; exact hmin1,
        by simp only [scanStart]; rw [hmin1, hstr]; push_cast; ring⟩,
      ⟨by simp only [scanStart]; rw [hpx2]; exact hmap2, hsl2,
        by simp only [scanStart]; omega, by simp only [scanStart]; omega,
        by simp only [scanStart]; omega,
        min r m, by omega, by simp only [scanStart]; exact hmin2,
        by simp only [scanStart]; rw [hmin2, hstr]; push_cast; ring⟩,
      ⟨hsim.1, by simp only [scanStart]; exact hstack,
        by simp only [scanStart]; rw [hr1, hr2],
        by simp only [scanStart]; omega, by simp only [scanStart]; omega,
        ⟨min r m, by omega, by simp only [scanStart]; exact hmin1,
          by simp only [scanStart]; exact hmin2,
          by simp only [scanStart]; rw [hmin1, hstr]; push_cast; ring,
          by simp only [scanStart]; rw [hmin2, hstr]; push_cast; ring⟩,
        by simp only [scanStart]; rw [hpx1, hpx2]; exact hag⟩⟩
  simp only [Nat.cast_zero, add_zero] at hu1 hu2
  exact ⟨u1, u2, hu1, hu2, ⟨hA1, hs1⟩, ⟨hA2, hs2⟩, hsc.2.2.2.2.2.2⟩

theorem row_index_ne (w y ρ j j1 : Nat) (hj : j < w) (hj1 : j1 < w) (hne : y ≠ ρ) :
    y * w + j ≠ ρ * w + j1 := by
  intro h
  have hw : 0 < w := by omega
  have h1 : (y * w + j) / w = y := by
    rw [Nat.mul_comm y w, Nat.mul_add_div hw, Nat.div_eq_of_lt hj]; omega
  have h2 : (ρ * w + j1) / w = ρ := by
    rw [Nat.mul_comm ρ w, Nat.mul_add_div hw, Nat.div_eq_of_lt hj1]; omega
  rw [h] at h1
  omega

theorem column_index_ne (w c c1 j j1 : Nat) (hc : c < w) (hc1 : c1 < w) (hne : c ≠ c1) :
    c + j * w ≠ c1 + j1 * w := by
  intro h
  have h1 : (c + j * w) % w = c := by
    rw [Nat.add_mul_mod_self_right, Nat.mod_eq_of_lt hc]
  have h2 : (c1 + j1 * w) % w = c1 := by
    rw [Nat.add_mul_mod_self_right, Nat.mod_eq_of_lt hc1]
  rw [h] at h1
  omega

theorem processingRow_of_loop (sv : SharedValues) (imagePixels : List Nat)
    (startRow endRow : Int) (v : Locals) (hd : 0 ≤ sv.divisor)
    (h : forRange (processingRowLine sv) (endRow + 1 - startRow).toNat startRow
      (initLocals imagePixels (List.replicate sv.divisor.toNat 0)) = .ok v) :
    processingRow sv imagePixels startRow endRow = .ok v.imagePixels := by
  unfold processingRow
  rw [newIntArray_ok _ hd]
  show (forRange (processingRowLine sv) (endRow + 1 - startRow).toNat startRow
    (initLocals imagePixels (List.replicate sv.divisor.toNat 0)) >>= fun v =>
      pure v.imagePixels) = _
  rw [h]
  rfl

theorem processingColumn_of_loop (sv : SharedValues) (imagePixels : List Nat)
    (startColumn endColumn : Int) (v : Locals) (hd : 0 ≤ sv.divisor)
    (h : forRange (processingColumnLine sv) (endColumn + 1 - startColumn).toNat startColumn
      (initLocals imagePixels (List.replicate sv.divisor.toNat 0)) = .ok v) :
    processingColumn sv imagePixels startColumn endColumn = .ok v.imagePixels := by
  unfold processingColumn
  rw [newIntArray_ok _ hd]
  show (forRange (processingColumnLine sv) (endColumn + 1 - startColumn).toNat startColumn
    (initLocals imagePixels (List.replicate sv.divisor.toNat 0)) >>= fun v =>
      pure v.imagePixels) = _
  rw [h]
  rfl

/-- Two row jobs on the same band, on buffers that agree on row `y`: both end without a
fault and their results agree on row `y`. -/
theorem processingRow_local (sv : SharedValues) (r w h : Nat) (hv : Valid sv r w h)
    (px1 px2 : List Nat) (hlen1 : px1.length = w * h) (hlen2 : px2.length = w * h)
    (startRow endRow : Int) (h0 : 0 ≤ startRow) (h1 : endRow ≤ (h : Int) - 1)
    (y : Nat) (hag : LinesAgree (y * w) (y * w) 1 (w - 1) px1 px2) :
    ∃ out1 out2, processingRow sv px1 startRow endRow = .ok out1 ∧
      processingRow sv px2 startRow endRow = .ok out2 ∧
      LinesAgree (y * w) (y * w) 1 (w - 1) out1 out2 := by
  have hd := hv.divisor_eq
  have hw := hv.width_pos
  obtain ⟨v1, v2, hv1, hv2, -, -, hL⟩ := forRange_rel (processingRowLine sv)
    (processingRowLine sv)
    (fun _ u1 u2 => JobInv r (px1.map alpha) u1 ∧ JobInv r (px2.map alpha) u2 ∧
      LinesAgree (y * w) (y * w) 1 (w - 1) u1.imagePixels u2.imagePixels)
    startRow (endRow + 1 - startRow).toNat
    (fun k u1 u2 hk hu => by
      obtain ⟨hJ1, hJ2, hL⟩ := hu
      have hrow0 : 0 ≤ startRow + (k : Int) := by omega
      have hrow1 : startRow + (k : Int) ≤ (h : Int) - 1 := by omega
      obtain ⟨ρ, hρ⟩ := Int.eq_ofNat_of_zero_le hrow0
      have hfit : ρ * w + (w - 1) * 1 < w * h := by
        have h2 : (ρ + 1) * w ≤ h * w := Nat.mul_le_mul_right w (by omega)
        have h3 : (ρ + 1) * w = ρ * w + w := by ring
        have h4 : h * w = w * h := Nat.mul_comm h w
        omega
      have g1 : LineGeom sv 1 sv.widthMax (ρ * w) 1 (w - 1) r (px1.map alpha).length :=
        ⟨by simp, by rw [hv.widthMax_eq]; omega, hv.blurRadius_eq, by rw [hd]; ring,
          by rw [List.length_map, hlen1]; exact hfit⟩
      have g2 : LineGeom sv 1 sv.widthMax (ρ * w) 1 (w - 1) r (px2.map alpha).length :=
        ⟨by simp, by rw [hv.widthMax_eq]; omega, hv.blurRadius_eq, by rw [hd]; ring,
          by rw [List.length_map, hlen2]; exact hfit⟩
      have hb : (startRow + (k : Int)) * sv.targetWidth = ((ρ * w : Nat) : Int) := by
        rw [hv.targetWidth_eq, hρ]; push_cast; ring
      have hcount : sv.targetWidth.toNat = w - 1 + 1 := by rw [hv.targetWidth_eq]; omega
      rw [processingRowLine_eq_lineRun, processingRowLine_eq_lineRun, hb, hcount]
      by_cases hy : y = ρ
      · subst hy
        obtain ⟨t1, t2, ht1, ht2, hK1, hK2, hL1⟩ := lineRun_sim sv sv ⟨rfl, rfl, rfl, rfl⟩ 1
          sv.widthMax (y * w) (y * w) 1 (w - 1) r (by omega) _ _ g1 g2
          (fun _ => ((y * w : Nat) : Int)) (fun _ => ((y * w : Nat) : Int)) (fun rad => rad - 1)
          (fun _ _ => ⟨0, by omega, by simp⟩) (fun _ _ => ⟨0, by omega, by simp⟩)
          (fun _ _ _ => ⟨0, by omega, by simp, by simp⟩) u1 u2 hJ1 hJ2 hL
        exact ⟨t1, t2, ht1, ht2, hK1, hK2, hL1⟩
      · obtain ⟨t1, ht1, hK1, hF1⟩ := lineRun_frame sv 1 sv.widthMax (ρ * w) 1 (w - 1) r _ g1
          (fun _ => ((ρ * w : Nat) : Int)) (fun rad => rad - 1)
          (fun _ _ => ⟨0, by omega, by simp⟩) u1 hJ1
        obtain ⟨t2, ht2, hK2, hF2⟩ := lineRun_frame sv 1 sv.widthMax (ρ * w) 1 (w - 1) r _ g2
          (fun _ => ((ρ * w : Nat) : Int)) (fun rad => rad - 1)
          (fun _ _ => ⟨0, by omega, by simp⟩) u2 hJ2
        refine ⟨t1, t2, ht1, ht2, hK1, hK2, ?_⟩
        intro j hj
        have hoff : ∀ j1 : Nat, j1 ≤ w - 1 → y * w + j * 1 ≠ ρ * w + j1 * 1 := by
          intro j1 hj1
          rw [Nat.mul_one, Nat.mul_one]
          exact row_index_ne w y ρ j j1 (by omega) (by omega) hy
        rw [hF1 _ hoff, hF2 _ hoff]
        exact hL j hj)
    (endRow + 1 - startRow).toNat 0
    (initLocals px1 (List.replicate sv.divisor.toNat 0))
    (initLocals px2 (List.replicate sv.divisor.toNat 0))
    (by omega)
    ⟨⟨rfl, by simp only [initLocals, List.length_replicate]; omega⟩,
      ⟨rfl, by simp only [initLocals, List.length_replicate]; omega⟩, hag⟩
  simp only [Nat.cast_zero, add_zero] at hv1 hv2
  exact ⟨v1.imagePixels, v2.imagePixels,
    processingRow_of_loop sv px1 startRow endRow v1 (by omega) hv1,
    processingRow_of_loop sv px2 startRow endRow v2 (by omega) hv2, hL⟩

/-- Two column jobs on the same band, on buffers that agree on column `c`: both end
without a fault and their results agree on column `c`. -/
theorem processingColumn_local (sv : SharedValues) (r w h : Nat) (hv : Valid sv r w h)
    (px1 px2 : List Nat) (hlen1 : px1.length = w * h) (hlen2 : px2.length = w * h)
    (startColumn endColumn : Int) (h0 : 0 ≤ startColumn) (h1 : endColumn ≤ (w : Int) - 1)
    (c : Nat) (hc : c < w) (hag : LinesAgree c c w (h - 1) px1 px2) :
    ∃ out1 out2, processingColumn sv px1 startColumn endColumn = .ok out1 ∧
      processingColumn sv px2 startColumn endColumn = .ok out2 ∧
      LinesAgree c c w (h - 1) out1 out2 := by
  have hd := hv.divisor_eq
  have hw := hv.width_pos
  have hh := hv.height_pos
  obtain ⟨v1, v2, hv1, hv2, -, -, hL⟩ := forRange_rel (processingColumnLine sv)
    (processingColumnLine sv)
    (fun _ u1 u2 => JobInv r (px1.map alpha) u1 ∧ JobInv r (px2.map alpha) u2 ∧
      LinesAgree c c w (h - 1) u1.imagePixels u2.imagePixels)
    startColumn (endColumn + 1 - startColumn).toNat
    (fun k u1 u2 hk hu => by
      obtain ⟨hJ1, hJ2, hL⟩ := hu
      have hcol0 : 0 ≤ startColumn + (k : Int) := by omega
      have hcol1 : startColumn + (k : Int) ≤ (w : Int) - 1 := by omega
      obtain ⟨ρ, hρ⟩ := Int.eq_ofNat_of_zero_le hcol0
      have hfit : ρ + (h - 1) * w < w * h := by
        have h2 : (h - 1 + 1) * w = (h - 1) * w + w := by ring
        have h3 : h - 1 + 1 = h := by omega
        rw [h3] at h2
        have h4 : h * w = w * h := Nat.mul_comm h w
        omega
      have g1 : LineGeom sv sv.targetWidth sv.heightMax ρ w (h - 1) r (px1.map alpha).length :=
        ⟨hv.targetWidth_eq, by rw [hv.heightMax_eq]; omega, hv.blurRadius_eq,
          by rw [hd]; ring, by rw [List.length_map, hlen1]; exact hfit⟩
      have g2 : LineGeom sv sv.targetWidth sv.heightMax ρ w (h - 1) r (px2.map alpha).length :=
        ⟨hv.targetWidth_eq, by rw [hv.heightMax_eq]; omega, hv.blurRadius_eq,
          by rw [hd]; ring, by rw [List.length_map, hlen2]; exact hfit⟩
      have hcount : sv.targetHeight.toNat = h - 1 + 1 := by rw [hv.targetHeight_eq]; omega
      rw [processingColumnLine_eq_lineRun, processingColumnLine_eq_lineRun, hρ, hcount]
      by_cases hy : c = ρ
      · subst hy
        obtain ⟨t1, t2, ht1, ht2, hK1, hK2, hL1⟩ := lineRun_sim sv sv ⟨rfl, rfl, rfl, rfl⟩
          sv.targetWidth sv.heightMax c c w (h - 1) r hw _ _ g1 g2
          (fun v => v.inIndex) (fun v => v.inIndex) (fun rad => rad + 1)
          (fun _ hj => hj) (fun _ hj => hj) (fun _ _ hj => hj) u1 u2 hJ1 hJ2 hL
        exact ⟨t1, t2, ht1, ht2, hK1, hK2, hL1⟩
      · obtain ⟨t1, ht1, hK1, hF1⟩ := lineRun_frame sv sv.targetWidth sv.heightMax ρ w (h - 1)
          r _ g1 (fun v => v.inIndex) (fun rad => rad + 1) (fun _ hj => hj) u1 hJ1
        obtain ⟨t2, ht2, hK2, hF2⟩ := lineRun_frame sv sv.targetWidth sv.heightMax ρ w (h - 1)
          r _ g2 (fun v => v.inIndex) (fun rad => rad + 1) (fun _ hj => hj) u2 hJ2
        refine ⟨t1, t2, ht1, ht2, hK1, hK2, ?_⟩
        intro j hj
        have hoff : ∀ j1 : Nat, j1 ≤ h - 1 → c + j * w ≠ ρ + j1 * w := by
          intro j1 _
          exact column_index_ne w c ρ j j1 hc (by omega) hy
        rw [hF1 _ hoff, hF2 _ hoff]
        exact hL j hj)
    (endColumn + 1 - startColumn).toNat 0
    (initLocals px1 (List.replicate sv.divisor.toNat 0))
    (initLocals px2 (List.replicate sv.divisor.toNat 0))
    (by omega)
    ⟨⟨rfl, by simp only [initLocals, List.length_replicate]; omega⟩,
      ⟨rfl, by simp only [initLocals, List.length_replicate]; omega⟩, hag⟩
  simp only [Nat.cast_zero, add_zero] at hv1 hv2
  exact ⟨v1.imagePixels, v2.imagePixels,
    processingColumn_of_loop sv px1 startColumn endColumn v1 (by omega) hv1,
    processingColumn_of_loop sv px2 startColumn endColumn v2 (by omega) hv2, hL⟩

/-! ## Jobs of one phase in any order -/

theorem jobs_commute (job : List Nat → Int → Int → Except Fault (List Nat)) (key : Nat → Nat)
    (n : Nat) (lim : Int) (hjob : LocalJob job key n lim) (px : List Nat) (hlen : px.length = n)
    (a b : Int × Int) (ha : 0 ≤ a.1 ∧ a.2 ≤ lim) (hb : 0 ≤ b.1 ∧ b.2 ≤ lim)
    (hdisj : BandsDisjoint a b) :
    ∃ out, out.length = n ∧ (job px a.1 a.2 >>= fun p => job p b.1 b.2) = .ok out ∧
      (job px b.1 b.2 >>= fun p => job p a.1 a.2) = .ok out := by
  obtain ⟨p1, hp1, hl1, hf1⟩ := hjob.frame px a.1 a.2 hlen ha.1 ha.2
  obtain ⟨q1, hq1, hm1, hg1⟩ := hjob.frame p1 b.1 b.2 hl1 hb.1 hb.2
  obtain ⟨p2, hp2, hl2, hf2⟩ := hjob.frame px b.1 b.2 hlen hb.1 hb.2
  obtain ⟨q2, hq2, hm2, hg2⟩ := hjob.frame p2 a.1 a.2 hl2 ha.1 ha.2
  have heq : q1 = q2 := by
    apply List.ext_getElem?
    intro i
    by_cases hin : ((key i : Nat) : Int) < a.1 ∨ a.2 < ((key i : Nat) : Int)
    · -- the line of `i` is outside the first band
      have e1 : p1[i]? = px[i]? := hf1 i hin
      have e2 : q2[i]? = p2[i]? := hg2 i hin
      have e3 : q1[i]? = p2[i]? :=
        hjob.local_ p1 px b.1 b.2 (key i) hl1 hlen hb.1 hb.2
          (fun i1 hi1 => hf1 i1 (by rw [hi1]; exact hin)) q1 p2 hq1 hp2 i rfl
      rw [e3, e2]
    · -- the line of `i` is in the first band, so outside the second
      have hout : ((key i : Nat) : Int) < b.1 ∨ b.2 < ((key i : Nat) : Int) := by
        unfold BandsDisjoint at hdisj
        omega
      have e1 : q1[i]? = p1[i]? := hg1 i hout
      have e3 : q2[i]? = p1[i]? :=
        hjob.local_ p2 px a.1 a.2 (key i) hl2 hlen ha.1 ha.2
          (fun i1 hi1 => hf2 i1 (by rw [hi1]; exact hout)) q2 p1 hq2 hp1 i rfl
      rw [e1, e3]
  refine ⟨q1, hm1, ?_, ?_⟩
  · rw [hp1]; exact hq1
  · rw [hp2, heq]; exact hq2

theorem runJobs_length (job : List Nat → Int → Int → Except Fault (List Nat)) (key : Nat → Nat)
    (n : Nat) (lim : Int) (hjob : LocalJob job key n lim) :
    ∀ (works : List (Int × Int)), (∀ b ∈ works, 0 ≤ b.1 ∧ b.2 ≤ lim) →
      ∀ px : List Nat, px.length = n →
        ∃ out, runJobs job works px = .ok out ∧ out.length = n := by
  intro works
  induction works with
  | nil =>
    intro _ px hpx
    exact ⟨px, rfl, hpx⟩
  | cons b rest ih =>
    intro hall px hpx
    obtain ⟨first, last⟩ := b
    obtain ⟨h0, h1⟩ := hall (first, last) (List.mem_cons_self _ _)
    obtain ⟨p1, hp1, hl1, -⟩ := hjob.frame px first last hpx h0 h1
    obtain ⟨out, ho, hl⟩ := ih (fun b hb => hall b (List.mem_cons_of_mem _ hb)) p1 hl1
    refine ⟨out, ?_, hl⟩
    simp only [runJobs, hp1]
    exact ho

/-- The jobs of one phase, on pairwise disjoint bands inside the image, give the same
buffer in every order. -/
theorem runJobs_perm (job : List Nat → Int → Int → Except Fault (List Nat)) (key : Nat → Nat)
    (n : Nat) (lim : Int) (hjob : LocalJob job key n lim) (works1 works2 : List (Int × Int))
    (hperm : works1.Perm works2) :
    (∀ b ∈ works1, 0 ≤ b.1 ∧ b.2 ≤ lim) → works1.Pairwise BandsDisjoint →
      ∀ px : List Nat, px.length = n → runJobs job works1 px = runJobs job works2 px := by
  induction hperm with
  | nil =>
    intro _ _ px _
    rfl
  | cons b _ ih =>
    intro hall hpw px hpx
    obtain ⟨first, last⟩ := b
    obtain ⟨h0, h1⟩ := hall (first, last) (List.mem_cons_self _ _)
    obtain ⟨p1, hp1, hl1, -⟩ := hjob.frame px first last hpx h0 h1
    simp only [runJobs, hp1]
    exact ih (fun b hb => hall b (List.mem_cons_of_mem _ hb)) (List.Pairwise.of_cons hpw) p1 hl1
  | swap a b rest =>
    intro hall hpw px hpx
    have hb := hall b (List.mem_cons_self _ _)
    have ha := hall a (List.mem_cons_of_mem _ (List.mem_cons_self _ _))
    have hdisj : BandsDisjoint b a := (List.pairwise_cons.mp hpw).1 a (List.mem_cons_self _ _)
    obtain ⟨out, -, h1, h2⟩ := jobs_commute job key n lim hjob px hpx b a hb ha hdisj
    obtain ⟨pb, hpb, -, -⟩ := hjob.frame px b.1 b.2 hpx hb.1 hb.2
    obtain ⟨pa, hpa, -, -⟩ := hjob.frame px a.1 a.2 hpx ha.1 ha.2
    rw [hpb] at h1
    rw [hpa] at h2
    have h1' : job pb a.1 a.2 = .ok out := h1
    have h2' : job pa b.1 b.2 = .ok out := h2
    obtain ⟨a1, a2⟩ := a
    obtain ⟨b1, b2⟩ := b
    simp only [runJobs, hpb, hpa, h1', h2']
  | trans hp1 _ ih1 ih2 =>
    intro hall hpw px hpx
    rw [ih1 hall hpw px hpx]
    refine ih2 (fun b hb => hall b (hp1.mem_iff.mpr hb)) ?_ px hpx
    exact (hp1.pairwise_iff (fun {a b} h => Or.symm h)).mp hpw

theorem processingRow_localJob (sv : SharedValues) (r w h : Nat) (hv : Valid sv r w h) :
    LocalJob (processingRow sv) (fun i => i / w) (w * h) ((h : Int) - 1) := by
  have hw := hv.width_pos
  constructor
  · intro px first last hlen h0 h1
    obtain ⟨out, ho, hA, hF⟩ := processingRow_frame sv r w h hv px hlen first last h0 h1
    exact ⟨out, ho, by rw [← List.length_map out alpha, hA, List.length_map, hlen], hF⟩
  · intro px1 px2 first last y hl1 hl2 h0 h1 hag o1 o2 ho1 ho2 i hi
    have hL : LinesAgree (y * w) (y * w) 1 (w - 1) px1 px2 := by
      intro j hj
      apply hag
      show (y * w + j * 1) / w = y
      rw [Nat.mul_one, Nat.mul_comm y w, Nat.mul_add_div hw, Nat.div_eq_of_lt (by omega)]
      omega
    obtain ⟨q1, q2, hq1, hq2, hL1⟩ := processingRow_local sv r w h hv px1 px2 hl1 hl2 first last
      h0 h1 y hL
    rw [ho1] at hq1
    rw [ho2] at hq2
    cases hq1
    cases hq2
    have hi' : i / w = y := hi
    have e : i = y * w + i % w * 1 := by
      rw [← hi', Nat.mul_one, Nat.mul_comm]
      exact (Nat.div_add_mod i w).symm
    rw [e]
    exact hL1 (i % w) (by have := Nat.mod_lt i hw; omega)

theorem processingColumn_localJob (sv : SharedValues) (r w h : Nat) (hv : Valid sv r w h) :
    LocalJob (processingColumn sv) (fun i => i % w) (w * h) ((w : Int) - 1) := by
  have hw := hv.width_pos
  have hh := hv.height_pos
  have hframe : ∀ (px : List Nat) (first last : Int), px.length = w * h → 0 ≤ first →
      last ≤ (w : Int) - 1 → ∃ out, processingColumn sv px first last = .ok out ∧
        out.length = w * h ∧
        ∀ i : Nat, (((i % w : Nat) : Int) < first ∨ last < ((i % w : Nat) : Int)) →
          out[i]? = px[i]? := by
    intro px first last hlen h0 h1
    obtain ⟨out, ho, hA, hF⟩ := processingColumn_frame sv r w h hv px hlen first last h0 h1
    exact ⟨out, ho, by rw [← List.length_map out alpha, hA, List.length_map, hlen], hF⟩
  constructor
  · exact hframe
  · intro px1 px2 first last c hl1 hl2 h0 h1 hag o1 o2 ho1 ho2 i hi
    have hi' : i % w = c := hi
    have hc : c < w := by rw [← hi']; exact Nat.mod_lt i hw
    have hL : LinesAgree c c w (h - 1) px1 px2 := by
      intro j _
      apply hag
      show (c + j * w) % w = c
      rw [Nat.add_mul_mod_self_right, Nat.mod_eq_of_lt hc]
    obtain ⟨q1, q2, hq1, hq2, hL1⟩ := processingColumn_local sv r w h hv px1 px2 hl1 hl2 first
      last h0 h1 c hc hL
    rw [ho1] at hq1
    rw [ho2] at hq2
    cases hq1
    cases hq2
    obtain ⟨p1, hp1, hlo1, -⟩ := hframe px1 first last hl1 h0 h1
    obtain ⟨p2, hp2, hlo2, -⟩ := hframe px2 first last hl2 h0 h1
    rw [ho1] at hp1
    rw [ho2] at hp2
    cases hp1
    cases hp2
    by_cases hrow : i / w ≤ h - 1
    · have e : i = c + i / w * w := by
        rw [← hi', Nat.add_comm, Nat.mul_comm]
        exact (Nat.div_add_mod i w).symm
      rw [e]
      exact hL1 (i / w) hrow
    · have hbig : w * h ≤ i := by
        have h2 : h ≤ i / w := by omega
        calc w * h ≤ w * (i / w) := Nat.mul_le_mul_left w h2
          _ ≤ i := Nat.mul_div_le i w
      rw [List.getElem?_eq_none (by omega), List.getElem?_eq_none (by omega)]

/-! ## Buffers without colour -/

theorem and_alphaMask_of_dark (p : Nat) (hd : Dark p) (hp : p < 2 ^ 32) :
    p &&& 0xff000000 = p := by
  obtain ⟨hr, hg, hb⟩ := hd
  unfold red at hr
  unfold green at hg
  unfold blue at hb
  have hr' : (p >>> 16) &&& 0xff = 0 := by exact_mod_cast hr
  have hg' : (p >>> 8) &&& 0xff = 0 := by exact_mod_cast hg
  have hb' : p &&& 0xff = 0 := by exact_mod_cast hb
  apply Nat.eq_of_testBit_eq
  intro i
  rw [Nat.testBit_and, testBit_alphaMask]
  by_cases h24 : 24 ≤ i
  · by_cases h32 : i < 32
    · simp [h24, h32]
    · have : p.testBit i = false := by
        apply Nat.testBit_eq_false_of_lt
        calc p < 2 ^ 32 := hp
          _ ≤ 2 ^ i := Nat.pow_le_pow_right (by norm_num) (by omega)
      simp [this]
  · have hbit : p.testBit i = false := by
      by_cases h8 : i < 8
      · have := congrArg (fun n => n.testBit i) hb'
        simpa [Nat.testBit_and, testBit_byteMask, h8] using this
      · by_cases h16 : i < 16
        · have := congrArg (fun n => n.testBit (i - 8)) hg'
          have h1 : i - 8 < 8 := by omega
          have h2 : 8 + (i - 8) = i := by omega
          simpa [Nat.testBit_and, Nat.testBit_shiftRight, testBit_byteMask, h1, h2] using this
        · have := congrArg (fun n => n.testBit (i - 16)) hr'
          have h1 : i - 16 < 8 := by omega
          have h2 : 16 + (i - 16) = i := by omega
          simpa [Nat.testBit_and, Nat.testBit_shiftRight, testBit_byteMask, h1, h2] using this
    simp [hbit]

theorem dark_zero : Dark 0 := by
  unfold Dark red green blue
  simp

theorem outChannel_zero (multiplySum shiftSum : Int) : outChannel 0 multiplySum shiftSum = 0 := by
  unfold outChannel lowByte
  simp

theorem blurredPixel_zero_sums (p : Nat) (multiplySum shiftSum : Int)
    (hp : p &&& 0xff000000 = p) : blurredPixel p 0 0 0 multiplySum shiftSum = p := by
  unfold blurredPixel
  rw [outChannel_zero, hp]
  simp

theorem set_getD_self (l : List Nat) (i : Nat) : l.set i (l.getD i 0) = l := by
  apply List.ext_getElem?
  intro j
  rw [List.getElem?_set]
  by_cases hij : i = j
  · subst hij
    by_cases hi : i < l.length
    · rw [if_pos rfl, if_pos hi, List.getD_eq_getElem?_getD, List.getElem?_eq_getElem hi]
      rfl
    · rw [if_pos rfl, if_neg hi, List.getElem?_eq_none (by omega)]
  · rw [if_neg hij]

theorem getD_mem_or_zero (l : List Nat) (i : Nat) : l.getD i 0 ∈ l ∨ l.getD i 0 = 0 := by
  by_cases hi : i < l.length
  · left
    rw [List.getD_eq_getElem?_getD, List.getElem?_eq_getElem hi]
    exact List.getElem_mem hi
  · right
    rw [List.getD_eq_getElem?_getD, List.getElem?_eq_none (by omega)]
    rfl

theorem dark_getD (l : List Nat) (hl : ∀ c ∈ l, Dark c) (i : Nat) : Dark (l.getD i 0) := by
  rcases getD_mem_or_zero l i with h | h
  · exact hl _ h
  · rw [h]; exact dark_zero

theorem dark_set (l : List Nat) (hl : ∀ c ∈ l, Dark c) (i : Nat) (p : Nat) (hp : Dark p) :
    ∀ c ∈ l.set i p, Dark c := by
  intro c hc
  rcases List.mem_or_eq_of_mem_set hc with h | h
  · exact hl c h
  · rw [h]; exact hp

theorem seedNext_black (sv : SharedValues) (stride nMax : Int) (lead : Locals → Int)
    (weight : Int → Int) (rad : Int) (px0 : List Nat) (hpx : ∀ p ∈ px0, Dark p) (v : Locals)
    (h : BlackInv px0 v) : BlackInv px0 (seedNext sv stride nMax lead weight rad v) := by
  obtain ⟨hp, hst, s1, s2, s3, s4, s5, s6, s7, s8, s9⟩ := h
  have hpx' : ∀ p ∈ v.imagePixels, Dark p := by rw [hp]; exact hpx
  have d1 := dark_getD v.imagePixels hpx' (lead v).toNat
  have d2 := dark_getD v.imagePixels hpx'
    (if rad ≤ nMax then v.inIndex + stride else v.inIndex).toNat
  obtain ⟨r1, g1, b1⟩ := d1
  obtain ⟨r2, g2, b2⟩ := d2
  unfold seedNext
  dsimp only
  by_cases h1 : rad ≥ 1
  · rw [if_pos h1]
    refine ⟨hp, ?_, ?_, ?_, ?_, ?_, ?_, ?_, ?_, ?_, ?_⟩
    · exact dark_set _ (dark_set _ hst _ _ ⟨r1, g1, b1⟩) _ _ ⟨r2, g2, b2⟩
    all_goals simp only [s1, s2, s3, s4, s5, s6, s7, s8, s9, r1, g1, b1, r2, g2, b2, zero_mul,
      add_zero]
  · rw [if_neg h1]
    refine ⟨hp, ?_, ?_, ?_, ?_, s4, s5, s6, ?_, ?_, ?_⟩
    · exact dark_set _ hst _ _ ⟨r1, g1, b1⟩
    all_goals simp only [s1, s2, s3, s7, s8, s9, r1, g1, b1, zero_mul, add_zero]

theorem scanNext_black (sv : SharedValues) (stride nMax : Int) (px0 : List Nat)
    (hpx : ∀ p ∈ px0, Dark p ∧ p &&& 0xff000000 = p) (v : Locals)
    (h : BlackInv px0 v) : BlackInv px0 (scanNext sv stride nMax v) := by
  obtain ⟨hp, hst, s1, s2, s3, s4, s5, s6, s7, s8, s9⟩ := h
  have hold : blurredPixel (v.imagePixels.getD v.outIndex.toNat 0) v.sumRed v.sumGreen
      v.sumBlue sv.multiplySum sv.shiftSum = v.imagePixels.getD v.outIndex.toNat 0 := by
    rw [s1, s2, s3]
    apply blurredPixel_zero_sums
    rcases getD_mem_or_zero v.imagePixels v.outIndex.toNat with hm | hz
    · rw [hp] at hm
      have := (hpx _ hm).2
      rw [hp]
      exact this
    · rw [hz]; rfl
  have himg : (scanNext sv stride nMax v).imagePixels = px0 := by
    rw [scanNext_imagePixels, hold, set_getD_self, hp]
  have hdp : Dark (scanPixel sv stride nMax v) := by
    unfold scanPixel
    rw [himg]
    exact dark_getD px0 (fun p hp => (hpx p hp).1) _
  have hstack : ∀ c ∈ (scanNext sv stride nMax v).blurStack, Dark c := by
    rw [scanNext_blurStack]
    exact dark_set _ hst _ _ hdp
  have hdl : Dark (scanLeaving sv v) := dark_getD _ hst _
  have hds : Dark (scanStackPixel sv stride nMax v) := dark_getD _ hstack _
  obtain ⟨a1, a2, a3, a4, a5, a6, a7, a8, a9⟩ := scanNext_sums sv stride nMax v
  obtain ⟨r1, g1, b1⟩ := hdp
  obtain ⟨r2, g2, b2⟩ := hdl
  obtain ⟨r3, g3, b3⟩ := hds
  refine ⟨himg, hstack, ?_, ?_, ?_, ?_, ?_, ?_, ?_, ?_, ?_⟩
  · rw [a1, s1, s4, s7, r1]; rfl
  · rw [a2, s2, s5, s8, g1]; rfl
  · rw [a3, s3, s6, s9, b1]; rfl
  · rw [a4, s4, r1, r3]; rfl
  · rw [a5, s5, g1, g3]; rfl
  · rw [a6, s6, b1, b3]; rfl
  · rw [a7, s7, r2, r3]; rfl
  · rw [a8, s8, g2, g3]; rfl
  · rw [a9, s9, b2, b3]; rfl

/-- One scanline of a buffer without colour ends without a fault and leaves the buffer
as it was. -/
theorem lineRun_black (sv : SharedValues) (stride nMax : Int) (b s m r : Nat) (px0 : List Nat)
    (hpx : ∀ p ∈ px0, Dark p ∧ p &&& 0xff000000 = p)
    (g : LineGeom sv stride nMax b s m r (px0.map alpha).length) (lead : Locals → Int)
    (weight : Int → Int)
    (hlead : ∀ v : Locals, (∃ j : Nat, j ≤ m ∧ v.inIndex = ((b + j * s : Nat) : Int)) →
      ∃ j : Nat, j ≤ m ∧ lead v = ((b + j * s : Nat) : Int))
    (v : Locals) (hst : v.blurStack.length = 2 * r + 1) (hB : BlackInv px0 v) :
    ∃ v1, lineRun sv stride nMax lead weight (b : Int) (m + 1) v = .ok v1 ∧
      v1.blurStack.length = 2 * r + 1 ∧ BlackInv px0 v1 := by
  obtain ⟨v1, hv1, hJ, hB1⟩ := lineRun_rule sv stride nMax b s m r (px0.map alpha) g lead weight
    hlead (BlackInv px0)
    (fun u hu => ⟨hu.1, hu.2.1, rfl, rfl, rfl, rfl, rfl, rfl, rfl, rfl, rfl⟩)
    (fun k u _ _ hu => seedNext_black sv stride nMax lead weight k px0
      (fun p hp => (hpx p hp).1) u hu)
    (fun u hu => hu)
    (fun x u _ _ hu => scanNext_black sv stride nMax px0 hpx u hu)
    v ⟨by rw [hB.1], hst⟩ hB
  exact ⟨v1, hv1, hJ.2, hB1⟩

theorem runJobs_fixed (job : List Nat → Int → Int → Except Fault (List Nat)) (px : List Nat) :
    ∀ (works : List (Int × Int)), (∀ b ∈ works, job px b.1 b.2 = .ok px) →
      runJobs job works px = .ok px := by
  intro works
  induction works with
  | nil =>
    intro _
    rfl
  | cons b rest ih =>
    intro hall
    obtain ⟨first, last⟩ := b
    have h1 := hall (first, last) (List.mem_cons_self _ _)
    simp only [runJobs, h1]
    exact ih (fun b hb => hall b (List.mem_cons_of_mem _ hb))

theorem blackInv_init (px0 : List Nat) (n : Nat) :
    BlackInv px0 (initLocals px0 (List.replicate n 0)) := by
  refine ⟨rfl, ?_, rfl, rfl, rfl, rfl, rfl, rfl, rfl, rfl, rfl⟩
  intro c hc
  simp only [initLocals] at hc
  rw [List.eq_of_mem_replicate hc]
  exact dark_zero

/-- A row job on a buffer without colour returns the buffer as it is. -/
theorem processingRow_black (sv : SharedValues) (r w h : Nat) (hv : Valid sv r w h)
    (px0 : List Nat) (hlen : px0.length = w * h)
    (hpx : ∀ p ∈ px0, Dark p ∧ p &&& 0xff000000 = p) (startRow endRow : Int)
    (h0 : 0 ≤ startRow) (h1 : endRow ≤ (h : Int) - 1) :
    processingRow sv px0 startRow endRow = .ok px0 := by
  have hd := hv.divisor_eq
  have hw := hv.width_pos
  obtain ⟨v, hv1, -, hB⟩ := forRange_inv (processingRowLine sv)
    (fun _ v => v.blurStack.length = 2 * r + 1 ∧ BlackInv px0 v)
    startRow (endRow + 1 - startRow).toNat
    (fun k u hk hu => by
      have hrow0 : 0 ≤ startRow + (k : Int) := by omega
      have hrow1 : startRow + (k : Int) ≤ (h : Int) - 1 := by omega
      obtain ⟨ρ, hρ⟩ := Int.eq_ofNat_of_zero_le hrow0
      have hfit : ρ * w + (w - 1) * 1 < (px0.map alpha).length := by
        rw [List.length_map, hlen]
        have h2 : (ρ + 1) * w ≤ h * w := Nat.mul_le_mul_right w (by omega)
        have h3 : (ρ + 1) * w = ρ * w + w := by ring
        have h4 : h * w = w * h := Nat.mul_comm h w
        omega
      have g : LineGeom sv 1 sv.widthMax (ρ * w) 1 (w - 1) r (px0.map alpha).length :=
        ⟨by simp, by rw [hv.widthMax_eq]; omega, hv.blurRadius_eq, by rw [hd]; ring, hfit⟩
      have hb : (startRow + (k : Int)) * sv.targetWidth = ((ρ * w : Nat) : Int) := by
        rw [hv.targetWidth_eq, hρ]; push_cast; ring
      have hcount : sv.targetWidth.toNat = w - 1 + 1 := by rw [hv.targetWidth_eq]; omega
      rw [processingRowLine_eq_lineRun, hb, hcount]
      exact lineRun_black sv 1 sv.widthMax (ρ * w) 1 (w - 1) r px0 hpx g
        (fun _ => ((ρ * w : Nat) : Int)) (fun rad => rad - 1)
        (fun _ _ => ⟨0, by omega, by simp⟩) u hu.1 hu.2)
    (endRow + 1 - startRow).toNat 0
    (initLocals px0 (List.replicate sv.divisor.toNat 0))
    (by omega)
    ⟨by simp only [initLocals, List.length_replicate]; omega, blackInv_init px0 _⟩
  simp only [Nat.cast_zero, add_zero] at hv1
  rw [processingRow_of_loop sv px0 startRow endRow v (by omega) hv1, hB.1]

/-- A column job on a buffer without colour returns the buffer as it is. -/
theorem processingColumn_black (sv : SharedValues) (r w h : Nat) (hv : Valid sv r w h)
    (px0 : List Nat) (hlen : px0.length = w * h)
    (hpx : ∀ p ∈ px0, Dark p ∧ p &&& 0xff000000 = p) (startColumn endColumn : Int)
    (h0 : 0 ≤ startColumn) (h1 : endColumn ≤ (w : Int) - 1) :
    processingColumn sv px0 startColumn endColumn = .ok px0 := by
  have hd := hv.divisor_eq
  have hw := hv.width_pos
  have hh := hv.height_pos
  obtain ⟨v, hv1, -, hB⟩ := forRange_inv (processingColumnLine sv)
    (fun _ v => v.blurStack.length = 2 * r + 1 ∧ BlackInv px0 v)
    startColumn (endColumn + 1 - startColumn).toNat
    (fun k u hk hu => by
      have hcol0 : 0 ≤ startColumn + (k : Int) := by omega
      have hcol1 : startColumn + (k : Int) ≤ (w : Int) - 1 := by omega
      obtain ⟨c, hc⟩ := Int.eq_ofNat_of_zero_le hcol0
      have hfit : c + (h - 1) * w < (px0.map alpha).length := by
        rw [List.length_map, hlen]
        have h2 : (h - 1 + 1) * w = (h - 1) * w + w := by ring
        have h3 : h - 1 + 1 = h := by omega
        rw [h3] at h2
        have h4 : h * w = w * h := Nat.mul_comm h w
        omega
      have g : LineGeom sv sv.targetWidth sv.heightMax c w (h - 1) r (px0.map alpha).length :=
        ⟨hv.targetWidth_eq, by rw [hv.heightMax_eq]; omega, hv.blurRadius_eq,
          by rw [hd]; ring, hfit⟩
      have hcount : sv.targetHeight.toNat = h - 1 + 1 := by rw [hv.targetHeight_eq]; omega
      rw [processingColumnLine_eq_lineRun, hc, hcount]
      exact lineRun_black sv sv.targetWidth sv.heightMax c w (h - 1) r px0 hpx g
        (fun v => v.inIndex) (fun rad => rad + 1) (fun _ hj => hj) u hu.1 hu.2)
    (endColumn + 1 - startColumn).toNat 0
    (initLocals px0 (List.replicate sv.divisor.toNat 0))
    (by omega)
    ⟨by simp only [initLocals, List.length_replicate]; omega, blackInv_init px0 _⟩
  simp only [Nat.cast_zero, add_zero] at hv1
  rw [processingColumn_of_loop sv px0 startColumn endColumn v (by omega) hv1, hB.1]

/-! ## A row as an image of its own -/

theorem rowOf_getElem? (w y : Nat) (pixels : List Nat) (j : Nat) (hj : j < w) :
    (rowOf w y pixels)[j]? = pixels[y * w + j]? := by
  unfold rowOf
  rw [List.getElem?_take_of_lt hj, List.getElem?_drop]

theorem rowOf_length (w h y : Nat) (pixels : List Nat) (hlen : pixels.length = w * h)
    (hy : y < h) : (rowOf w y pixels).length = w * 1 := by
  unfold rowOf
  rw [List.length_take, List.length_drop, hlen]
  have h2 : (y + 1) * w ≤ h * w := Nat.mul_le_mul_right w (by omega)
  have h3 : (y + 1) * w = y * w + w := by ring
  have h4 : h * w = w * h := Nat.mul_comm h w
  omega

/-- A row job treats a row of its band as a job on the image that consists of that row
alone. -/
theorem processingRow_alone (sv sv1 : SharedValues) (r w h : Nat) (hv : Valid sv r w h)
    (hv1 : Valid sv1 r w 1) (hsv : SameConsts sv sv1)
    (imagePixels : List Nat) (hlen : imagePixels.length = w * h) (startRow endRow : Int)
    (h0 : 0 ≤ startRow) (h1 : endRow ≤ (h : Int) - 1)
    (y : Nat) (hy0 : startRow ≤ (y : Int)) (hy1 : (y : Int) ≤ endRow) :
    ∃ out alone, processingRow sv imagePixels startRow endRow = .ok out ∧
      processingRow sv1 (rowOf w y imagePixels) 0 0 = .ok alone ∧
      LinesAgree (y * w) 0 1 (w - 1) out alone := by
  have hd := hv.divisor_eq
  have hw := hv.width_pos
  have hyh : y < h := by omega
  have hlenrow := rowOf_length w h y imagePixels hlen hyh
  -- the job on the row alone
  have galone : LineGeom sv1 1 ((w : Int) - 1) 0 1 (w - 1) r
      ((rowOf w y imagePixels).map alpha).length :=
    ⟨by simp, by omega, hv1.blurRadius_eq, by rw [hv1.divisor_eq]; ring,
      by rw [List.length_map, hlenrow]; omega⟩
  have hcount1 : sv1.targetWidth.toNat = w - 1 + 1 := by rw [hv1.targetWidth_eq]; omega
  have hcount : sv.targetWidth.toNat = w - 1 + 1 := by rw [hv.targetWidth_eq]; omega
  have hbase1 : (0 : Int) * sv1.targetWidth = ((0 : Nat) : Int) := by simp
  have hJalone : JobInv r ((rowOf w y imagePixels).map alpha)
      (initLocals (rowOf w y imagePixels) (List.replicate sv1.divisor.toNat 0)) :=
    ⟨rfl, by simp only [initLocals, List.length_replicate]; rw [hv1.divisor_eq]; omega⟩
  -- the rows of the band, one after the other
  obtain ⟨v, hvl, -, hL⟩ := forRange_inv (processingRowLine sv)
    (fun k u => JobInv r (imagePixels.map alpha) u ∧
      ((startRow + (k : Int) ≤ (y : Int) →
          LinesAgree (y * w) 0 1 (w - 1) u.imagePixels (rowOf w y imagePixels)) ∧
        ((y : Int) < startRow + (k : Int) →
          ∃ alone, processingRow sv1 (rowOf w y imagePixels) 0 0 = .ok alone ∧
            LinesAgree (y * w) 0 1 (w - 1) u.imagePixels alone)))
    startRow (endRow + 1 - startRow).toNat
    (fun k u hk hu => by
      obtain ⟨hJ, hbefore, hafter⟩ := hu
      have hrow0 : 0 ≤ startRow + (k : Int) := by omega
      have hrow1 : startRow + (k : Int) ≤ (h : Int) - 1 := by omega
      obtain ⟨ρ, hρ⟩ := Int.eq_ofNat_of_zero_le hrow0
      have hfit : ρ * w + (w - 1) * 1 < w * h := by
        have h2 : (ρ + 1) * w ≤ h * w := Nat.mul_le_mul_right w (by omega)
        have h3 : (ρ + 1) * w = ρ * w + w := by ring
        have h4 : h * w = w * h := Nat.mul_comm h w
        omega
      have g : LineGeom sv 1 ((w : Int) - 1) (ρ * w) 1 (w - 1) r (imagePixels.map alpha).length :=
        ⟨by simp, by omega, hv.blurRadius_eq, by rw [hd]; ring,
          by rw [List.length_map, hlen]; exact hfit⟩
      have hb : (startRow + (k : Int)) * sv.targetWidth = ((ρ * w : Nat) : Int) := by
        rw [hv.targetWidth_eq, hρ]; push_cast; ring
      rw [processingRowLine_eq_lineRun, hb, hcount, hv.widthMax_eq]
      by_cases hy : y = ρ
      · subst hy
        obtain ⟨t1, t2, ht1, ht2, hK1, -, hL1⟩ := lineRun_sim sv sv1 hsv 1 ((w : Int) - 1)
          (y * w) 0 1 (w - 1) r (by omega) _ _ g galone
          (fun _ => ((y * w : Nat) : Int)) (fun _ => (0 : Int) * sv1.targetWidth)
          (fun rad => rad - 1)
          (fun _ _ => ⟨0, by omega, by simp⟩) (fun _ _ => ⟨0, by omega, by simp⟩)
          (fun _ _ _ => ⟨0, by omega, by simp, by simp⟩) u
          (initLocals (rowOf w y imagePixels) (List.replicate sv1.divisor.toNat 0))
          hJ hJalone (hbefore (by omega))
        refine ⟨t1, ht1, hK1, fun hle => by omega, fun _ => ⟨t2.imagePixels, ?_, hL1⟩⟩
        apply processingRow_of_loop sv1 _ 0 0 t2 (by rw [hv1.divisor_eq]; omega)
        have hone : ((0 : Int) + 1 - 0).toNat = 0 + 1 := by omega
        rw [hone, forRange_succ_ok (processingRowLine sv1) 0 0 _ t2]
        · rfl
        · rw [processingRowLine_eq_lineRun, hcount1, hv1.widthMax_eq]
          rw [hbase1] at ht2 ⊢
          exact ht2
      · obtain ⟨t1, ht1, hK1, hF1⟩ := lineRun_frame sv 1 ((w : Int) - 1) (ρ * w) 1 (w - 1) r _ g
          (fun _ => ((ρ * w : Nat) : Int)) (fun rad => rad - 1)
          (fun _ _ => ⟨0, by omega, by simp⟩) u hJ
        have hoff : ∀ j : Nat, j ≤ w - 1 →
            ∀ j1 : Nat, j1 ≤ w - 1 → y * w + j * 1 ≠ ρ * w + j1 * 1 := by
          intro j hj j1 hj1
          rw [Nat.mul_one, Nat.mul_one]
          exact row_index_ne w y ρ j j1 (by omega) (by omega) hy
        refine ⟨t1, ht1, hK1, ?_, ?_⟩
        · intro hle j hj
          rw [hF1 _ (hoff j hj)]
          exact hbefore (by omega) j hj
        · intro hlt
          have hne : ((y : Nat) : Int) ≠ startRow + (k : Int) := by
            rw [hρ]; exact_mod_cast hy
          obtain ⟨alone, ha, hL0⟩ := hafter (by omega)
          refine ⟨alone, ha, ?_⟩
          intro j hj
          rw [hF1 _ (hoff j hj)]
          exact hL0 j hj)
    (endRow + 1 - startRow).toNat 0
    (initLocals imagePixels (List.replicate sv.divisor.toNat 0))
    (by omega)
    ⟨⟨rfl, by simp only [initLocals, List.length_replicate]; omega⟩,
      fun _ j hj => by
        simp only [initLocals]
        rw [Nat.zero_add, Nat.mul_one, rowOf_getElem? w y imagePixels j (by omega)],
      fun hlt => by simp at hlt; omega⟩
  simp only [Nat.cast_zero, add_zero] at hvl
  have hend : (y : Int) < startRow + ((endRow + 1 - startRow).toNat : Int) := by omega
  obtain ⟨alone, ha, hL0⟩ := hL.2 hend
  exact ⟨v.imagePixels, alone, processingRow_of_loop sv imagePixels startRow endRow v
    (by omega) hvl, ha, hL0⟩

/-! ## The fixed-point tables -/

theorem tableEntryOk_all : ∀ r, r < 255 → tableEntryOk r = true := by
  decide

theorem reciprocal_bound (m d p s : Nat) (hd : 0 < d) (h1 : p ≤ m * d)
    (h2 : 255 * (m * d - p) < p) (hs : s ≤ 255 * d) :
    s / d ≤ s * m / p ∧ s * m / p ≤ s / d + 1 ∧ s * m / p ≤ 255 := by
  have hp : 0 < p := by omega
  obtain ⟨e, he⟩ : ∃ e, m * d = p + e := ⟨m * d - p, by omega⟩
  have h2e : 255 * e < p := by
    have : m * d - p = e := by omega
    rw [this] at h2; exact h2
  have hq := Nat.div_mul_le_self s d
  have hlt : s < (s / d + 1) * d := by
    have := Nat.div_add_mod s d
    have := Nat.mod_lt s hd
    nlinarith
  have key : s * m * d = s * p + s * e := by
    calc s * m * d = s * (m * d) := by ring
      _ = s * (p + e) := by rw [he]
      _ = s * p + s * e := by ring
  have hse : s * e ≤ 255 * d * e := Nat.mul_le_mul_right e hs
  have hde' : 255 * d * e < d * p := by
    have : d * (255 * e) < d * p := Nat.mul_lt_mul_of_pos_left h2e hd
    calc 255 * d * e = d * (255 * e) := by ring
      _ < d * p := this
  refine ⟨?_, ?_, ?_⟩
  · rw [Nat.le_div_iff_mul_le hp]
    have : s / d * p * d ≤ s * m * d := by
      rw [key]
      calc s / d * p * d = (s / d * d) * p := by ring
        _ ≤ s * p := Nat.mul_le_mul_right p hq
        _ ≤ s * p + s * e := Nat.le_add_right _ _
    exact Nat.le_of_mul_le_mul_right this hd
  · have : s * m < (s / d + 1 + 1) * p := by
      have h3 : s * m * d < (s / d + 1 + 1) * p * d := by
        rw [key]
        calc s * p + s * e ≤ s * p + 255 * d * e := Nat.add_le_add_left hse _
          _ < s * p + d * p := Nat.add_lt_add_left hde' _
          _ = (s + d) * p := by ring
          _ < ((s / d + 1) * d + d) * p := by
              apply Nat.mul_lt_mul_of_pos_right _ hp
              omega
          _ = (s / d + 1 + 1) * p * d := by ring
      exact Nat.lt_of_mul_lt_mul_right h3
    exact Nat.lt_succ_iff.mp ((Nat.div_lt_iff_lt_mul hp).mpr this)
  · have : s * m < (255 + 1) * p := by
      have h3 : s * m * d < (255 + 1) * p * d := by
        rw [key]
        calc s * p + s * e ≤ 255 * d * p + 255 * d * e :=
              Nat.add_le_add (Nat.mul_le_mul_right p hs) hse
          _ < 255 * d * p + d * p := Nat.add_lt_add_left hde' _
          _ = (255 + 1) * p * d := by ring
      exact Nat.lt_of_mul_lt_mul_right h3
    exact Nat.lt_succ_iff.mp ((Nat.div_lt_iff_lt_mul hp).mpr this)
/-! ## The worker pool -/

theorem WorkerThread_returns_iff {Job : Type} (pool : ThreadPool Job) :
    ThreadPool.WorkerThread pool = .returns ↔ pool.stop_all = true ∧ pool.jobs_ = [] := by
  obtain ⟨n, jobs, stop⟩ := pool
  cases jobs <;> cases stop <;> simp [ThreadPool.WorkerThread]

theorem WorkerThread_waits_iff {Job : Type} (pool : ThreadPool Job) :
    ThreadPool.WorkerThread pool = .waits ↔ pool.stop_all = false ∧ pool.jobs_ = [] := by
  obtain ⟨n, jobs, stop⟩ := pool
  cases jobs <;> cases stop <;> simp [ThreadPool.WorkerThread]

theorem WorkerThread_runs_iff {Job : Type} (pool pool1 : ThreadPool Job) (job : Job) :
    ThreadPool.WorkerThread pool = .runs job pool1 ↔
      pool.jobs_ = job :: pool1.jobs_ ∧ pool1.stop_all = pool.stop_all ∧
      pool1.num_threads_ = pool.num_threads_ := by
  obtain ⟨n, jobs, stop⟩ := pool
  obtain ⟨n1, jobs1, stop1⟩ := pool1
  cases jobs <;> cases stop <;> simp [ThreadPool.WorkerThread] <;> tauto

theorem workerRun_drains {Job : Type} (n : Nat) (jobs : List Job) (stop : Bool) (fuel : Nat)
    (hfuel : jobs.length < fuel) :
    workerRun fuel { num_threads_ := n, jobs_ := jobs, stop_all := stop } = (jobs, stop) := by
  induction jobs generalizing fuel with
  | nil =>
    obtain ⟨fuel, rfl⟩ : ∃ k, fuel = k + 1 := ⟨fuel - 1, by simp at hfuel; omega⟩
    cases stop <;> simp [workerRun, ThreadPool.WorkerThread]
  | cons job rest ih =>
    obtain ⟨fuel, rfl⟩ : ∃ k, fuel = k + 1 := ⟨fuel - 1, by simp at hfuel; omega⟩
    have h := ih fuel (by simp at hfuel; omega)
    cases stop <;> simp [workerRun, ThreadPool.WorkerThread, h]

/-! ## The claims, continued -/

/-- C11, evidence of the defect: the 1x1 buffer with the pixel `0xFF102030` comes back
from `blur` at radius 2 with one thread as `0xFF050A10`; red, green and blue have
changed. -/
theorem blur_single_pixel_changes :
    blur [0xFF102030] 2 1 1 1 = .ok [0xFF050A10] := by
  decide

/-- C12: the two tables have 255 entries each, and for every radius `r` in `0 .. 254`
and every sum with `0 ≤ sum ≤ 255 * (r + 1) ^ 2` the value
`(sum * multiplier[r]) >> shift[r]` differs from `sum / (r + 1) ^ 2` (rounded down)
by at most 1 and lies in `0 .. 255`, so that the mask `& 0xff` leaves it as it is. -/
theorem fixed_point_reciprocal (r : Nat) (sum : Int) (hr : r ≤ 254) (h0 : 0 ≤ sum)
    (h1 : sum ≤ 255 * ((r : Int) + 1) ^ 2) :
    MUL_TABLE.length = 255 ∧ SHR_TABLE.length = 255 ∧
    ∃ multiplier shift, tableAt MUL_TABLE (r : Int) = .ok multiplier ∧
      tableAt SHR_TABLE (r : Int) = .ok shift ∧
      |(sum * multiplier) >>> shift.toNat - sum / ((r : Int) + 1) ^ 2| ≤ 1 ∧
      0 ≤ (sum * multiplier) >>> shift.toNat ∧
      (sum * multiplier) >>> shift.toNat ≤ 255 ∧
      (outChannel sum multiplier shift : Int) = (sum * multiplier) >>> shift.toNat := by
  refine ⟨MUL_TABLE_length, SHR_TABLE_length, MUL_TABLE.getD r 0, SHR_TABLE.getD r 0, ?_, ?_, ?_⟩
  · rw [tableAt_ok MUL_TABLE (r : Int) (by omega) (by rw [MUL_TABLE_length]; omega)]
    rfl
  · rw [tableAt_ok SHR_TABLE (r : Int) (by omega) (by rw [SHR_TABLE_length]; omega)]
    rfl
  · have hok := tableEntryOk_all r (by omega)
    unfold tableEntryOk at hok
    obtain ⟨hm0, hs0, hle, hlt⟩ := of_decide_eq_true hok
    obtain ⟨n, rfl⟩ := Int.eq_ofNat_of_zero_le h0
    obtain ⟨m, hm⟩ := Int.eq_ofNat_of_zero_le hm0
    rw [hm] at hle hlt ⊢
    rw [Int.toNat_ofNat] at hle hlt
    have hn : n ≤ 255 * (r + 1) ^ 2 := by exact_mod_cast h1
    obtain ⟨b1, b2, b3⟩ := reciprocal_bound m ((r + 1) ^ 2) (2 ^ (SHR_TABLE.getD r 0).toNat) n
      (by positivity) hle hlt hn
    have e1 : ((n : Int) * (m : Int)) >>> (SHR_TABLE.getD r 0).toNat =
        ((n * m / 2 ^ (SHR_TABLE.getD r 0).toNat : Nat) : Int) := by
      rw [Int.shiftRight_eq_div_pow]
      push_cast
      rfl
    have e2 : (n : Int) / ((r : Int) + 1) ^ 2 = ((n / (r + 1) ^ 2 : Nat) : Int) := by
      push_cast
      rfl
    have e3 : (outChannel (n : Int) (m : Int) (SHR_TABLE.getD r 0) : Int) =
        ((n * m / 2 ^ (SHR_TABLE.getD r 0).toNat : Nat) : Int) := by
      have hb : ((n * m / 2 ^ (SHR_TABLE.getD r 0).toNat : Nat) : Int) ≤ 255 := by
        exact_mod_cast b3
      have hb0 : (0 : Int) ≤ ((n * m / 2 ^ (SHR_TABLE.getD r 0).toNat : Nat) : Int) :=
        Int.natCast_nonneg _
      unfold outChannel lowByte
      rw [e1]
      omega
    rw [e3, e1, e2]
    refine ⟨?_, by positivity, by exact_mod_cast b3, rfl⟩
    rw [abs_le]
    constructor
    · have : ((n / (r + 1) ^ 2 : Nat) : Int) ≤
          ((n * m / 2 ^ (SHR_TABLE.getD r 0).toNat : Nat) : Int) := by exact_mod_cast b1
      omega
    · have : ((n * m / 2 ^ (SHR_TABLE.getD r 0).toNat : Nat) : Int) ≤
          ((n / (r + 1) ^ 2 + 1 : Nat) : Int) := by exact_mod_cast b2
      push_cast at this
      omega

/-- C12, witness: the theorem at radius 2 (multiplier 456, shift 12) and sum 2295. -/
theorem fixed_point_reciprocal_witness :
    MUL_TABLE.length = 255 ∧ SHR_TABLE.length = 255 ∧
    ∃ multiplier shift, tableAt MUL_TABLE ((2 : Nat) : Int) = .ok multiplier ∧
      tableAt SHR_TABLE ((2 : Nat) : Int) = .ok shift ∧
      |((2295 : Int) * multiplier) >>> shift.toNat - 2295 / (((2 : Nat) : Int) + 1) ^ 2| ≤ 1 ∧
      0 ≤ ((2295 : Int) * multiplier) >>> shift.toNat ∧
      ((2295 : Int) * multiplier) >>> shift.toNat ≤ 255 ∧
      (outChannel 2295 multiplier shift : Int) = ((2295 : Int) * multiplier) >>> shift.toNat :=
  fixed_point_reciprocal 2 2295 (by decide) (by decide) (by decide)

/-- C13: on a buffer of `width * height` pixels, for any radius `r ≥ 0`, two row jobs on
disjoint bands inside the image give the same buffer in either order, and so do two
column jobs on disjoint column bands; hence the jobs of one phase, on pairwise disjoint
bands, end without a fault and give the same buffer in every order. -/
theorem jobs_order_independent (r w h : Nat) (multiplySum shiftSum : Int)
    (imagePixels : List Nat) (hw : 0 < w) (hh : 0 < h) (hlen : imagePixels.length = w * h) :
    (∀ a b : Int × Int, 0 ≤ a.1 ∧ a.2 ≤ (h : Int) - 1 → 0 ≤ b.1 ∧ b.2 ≤ (h : Int) - 1 →
      BandsDisjoint a b →
      ∃ out,
        (processingRow (newSharedValues r w h multiplySum shiftSum) imagePixels a.1 a.2 >>=
          fun p => processingRow (newSharedValues r w h multiplySum shiftSum) p b.1 b.2)
          = .ok out ∧
        (processingRow (newSharedValues r w h multiplySum shiftSum) imagePixels b.1 b.2 >>=
          fun p => processingRow (newSharedValues r w h multiplySum shiftSum) p a.1 a.2)
          = .ok out) ∧
    (∀ a b : Int × Int, 0 ≤ a.1 ∧ a.2 ≤ (w : Int) - 1 → 0 ≤ b.1 ∧ b.2 ≤ (w : Int) - 1 →
      BandsDisjoint a b →
      ∃ out,
        (processingColumn (newSharedValues r w h multiplySum shiftSum) imagePixels a.1 a.2 >>=
          fun p => processingColumn (newSharedValues r w h multiplySum shiftSum) p b.1 b.2)
          = .ok out ∧
        (processingColumn (newSharedValues r w h multiplySum shiftSum) imagePixels b.1 b.2 >>=
          fun p => processingColumn (newSharedValues r w h multiplySum shiftSum) p a.1 a.2)
          = .ok out) ∧
    (∀ works1 works2 : List (Int × Int), works1.Perm works2 →
      (∀ b ∈ works1, 0 ≤ b.1 ∧ b.2 ≤ (h : Int) - 1) → works1.Pairwise BandsDisjoint →
      ∃ out,
        runJobs (processingRow (newSharedValues r w h multiplySum shiftSum)) works1 imagePixels
          = .ok out ∧
        runJobs (processingRow (newSharedValues r w h multiplySum shiftSum)) works2 imagePixels
          = .ok out) ∧
    (∀ works1 works2 : List (Int × Int), works1.Perm works2 →
      (∀ b ∈ works1, 0 ≤ b.1 ∧ b.2 ≤ (w : Int) - 1) → works1.Pairwise BandsDisjoint →
      ∃ out,
        runJobs (processingColumn (newSharedValues r w h multiplySum shiftSum)) works1
          imagePixels = .ok out ∧
        runJobs (processingColumn (newSharedValues r w h multiplySum shiftSum)) works2
          imagePixels = .ok out) := by
  have hv : Valid (newSharedValues r w h multiplySum shiftSum) r w h :=
    ⟨rfl, rfl, rfl, rfl, rfl, rfl, hw, hh⟩
  have hrow := processingRow_localJob _ r w h hv
  have hcol := processingColumn_localJob _ r w h hv
  refine ⟨?_, ?_, ?_, ?_⟩
  · intro a b ha hb hd
    obtain ⟨out, -, h1, h2⟩ := jobs_commute _ _ _ _ hrow imagePixels hlen a b ha hb hd
    exact ⟨out, h1, h2⟩
  · intro a b ha hb hd
    obtain ⟨out, -, h1, h2⟩ := jobs_commute _ _ _ _ hcol imagePixels hlen a b ha hb hd
    exact ⟨out, h1, h2⟩
  · intro works1 works2 hp hall hpw
    obtain ⟨out, ho, -⟩ := runJobs_length _ _ _ _ hrow works1 hall imagePixels hlen
    refine ⟨out, ho, ?_⟩
    rw [← runJobs_perm _ _ _ _ hrow works1 works2 hp hall hpw imagePixels hlen]
    exact ho
  · intro works1 works2 hp hall hpw
    obtain ⟨out, ho, -⟩ := runJobs_length _ _ _ _ hcol works1 hall imagePixels hlen
    refine ⟨out, ho, ?_⟩
    rw [← runJobs_perm _ _ _ _ hcol works1 works2 hp hall hpw imagePixels hlen]
    exact ho

/-- C13, witness: two row jobs on the rows 0 and 1 of a 2x2 buffer at radius 1, in both
orders. -/
theorem jobs_order_independent_witness :
    ∃ out,
      (processingRow (newSharedValues (1 : Nat) (2 : Nat) (2 : Nat) 512 11)
          [0xFF000010, 0xFF000020, 0xFF000030, 0xFF000040] 0 0 >>=
        fun p => processingRow (newSharedValues (1 : Nat) (2 : Nat) (2 : Nat) 512 11) p 1 1)
        = .ok out ∧
      (processingRow (newSharedValues (1 : Nat) (2 : Nat) (2 : Nat) 512 11)
          [0xFF000010, 0xFF000020, 0xFF000030, 0xFF000040] 1 1 >>=
        fun p => processingRow (newSharedValues (1 : Nat) (2 : Nat) (2 : Nat) 512 11) p 0 0)
        = .ok out :=
  (jobs_order_independent 1 2 2 512 11 [0xFF000010, 0xFF000020, 0xFF000030, 0xFF000040]
    (by decide) (by decide) (by decide)).1 (0, 0) (1, 1) (by decide) (by decide)
    (Or.inl (by decide))

/-- C14: for any radius `r ≥ 0` and any band inside the image, if two buffers of the
same width and height agree on row `y` of the band, then the two results of
`processingRow` agree on row `y`; and the result on row `y` is the result of
`processingRow` on the image that consists of row `y` alone. -/
theorem row_output_depends_on_row_only (r w h : Nat) (multiplySum shiftSum : Int)
    (pixels1 pixels2 : List Nat) (startRow endRow : Int) (y : Nat)
    (hw : 0 < w) (hh : 0 < h) (hlen1 : pixels1.length = w * h) (hlen2 : pixels2.length = w * h)
    (hband : 0 ≤ startRow ∧ endRow ≤ (h : Int) - 1)
    (hy : startRow ≤ (y : Int) ∧ (y : Int) ≤ endRow)
    (hagree : ∀ x : Nat, x < w → pixels1[y * w + x]? = pixels2[y * w + x]?) :
    ∃ out1 out2 alone,
      processingRow (newSharedValues r w h multiplySum shiftSum) pixels1 startRow endRow
        = .ok out1 ∧
      processingRow (newSharedValues r w h multiplySum shiftSum) pixels2 startRow endRow
        = .ok out2 ∧
      processingRow (newSharedValues r w 1 multiplySum shiftSum) (rowOf w y pixels1) 0 0
        = .ok alone ∧
      ∀ x : Nat, x < w →
        out1[y * w + x]? = out2[y * w + x]? ∧ out1[y * w + x]? = alone[x]? := by
  have hv : Valid (newSharedValues r w h multiplySum shiftSum) r w h :=
    ⟨rfl, rfl, rfl, rfl, rfl, rfl, hw, hh⟩
  have hv1 : Valid (newSharedValues r w 1 multiplySum shiftSum) r w 1 :=
    ⟨rfl, rfl, rfl, rfl, rfl, rfl, hw, by omega⟩
  have hL : LinesAgree (y * w) (y * w) 1 (w - 1) pixels1 pixels2 := by
    intro j hj
    rw [Nat.mul_one]
    exact hagree j (by omega)
  obtain ⟨out1, out2, ho1, ho2, hL1⟩ := processingRow_local _ r w h hv pixels1 pixels2 hlen1
    hlen2 startRow endRow hband.1 hband.2 y hL
  obtain ⟨o, alone, ho, ha, hL2⟩ := processingRow_alone _ _ r w h hv hv1 ⟨rfl, rfl, rfl, rfl⟩
    pixels1 hlen1 startRow endRow hband.1 hband.2 y hy.1 hy.2
  rw [ho1] at ho
  cases ho
  refine ⟨out1, out2, alone, ho1, ho2, ha, ?_⟩
  intro x hx
  have e1 := hL1 x (by omega)
  have e2 := hL2 x (by omega)
  rw [Nat.mul_one] at e1 e2
  rw [Nat.zero_add] at e2
  exact ⟨e1, e2⟩

/-- C14, witness: two 2x2 buffers that agree on row 1, the band of rows 0 to 1,
radius 1. -/
theorem row_output_depends_on_row_only_witness :
    ∃ out1 out2 alone,
      processingRow (newSharedValues (1 : Nat) (2 : Nat) (2 : Nat) 512 11)
        [0xFF000010, 0xFF000020, 0xFF000030, 0xFF000040] 0 1 = .ok out1 ∧
      processingRow (newSharedValues (1 : Nat) (2 : Nat) (2 : Nat) 512 11)
        [0xFF0000A0, 0xFF0000B0, 0xFF000030, 0xFF000040] 0 1 = .ok out2 ∧
      processingRow (newSharedValues (1 : Nat) (2 : Nat) 1 512 11)
        (rowOf 2 1 [0xFF000010, 0xFF000020, 0xFF000030, 0xFF000040]) 0 0 = .ok alone ∧
      ∀ x : Nat, x < 2 →
        out1[1 * 2 + x]? = out2[1 * 2 + x]? ∧ out1[1 * 2 + x]? = alone[x]? :=
  row_output_depends_on_row_only 1 2 2 512 11 [0xFF000010, 0xFF000020, 0xFF000030, 0xFF000040]
    [0xFF0000A0, 0xFF0000B0, 0xFF000030, 0xFF000040] 0 1 1 (by decide) (by decide)
    (by decide) (by decide) (by decide) (by decide) (by decide)

/-- C15: for any radius `r ≥ 0` and bands inside the image, `processingRow` over the
rows `startRow .. endRow` ends without a fault and leaves every pixel whose row
`i / width` is outside the band unchanged, and `processingColumn` over the columns
`startColumn .. endColumn` leaves every pixel whose column `i % width` is outside the
band unchanged. -/
theorem jobs_write_only_their_band (r w h : Nat) (multiplySum shiftSum : Int)
    (imagePixels : List Nat) (startRow endRow startColumn endColumn : Int)
    (hw : 0 < w) (hh : 0 < h) (hlen : imagePixels.length = w * h)
    (hrows : 0 ≤ startRow ∧ endRow ≤ (h : Int) - 1)
    (hcols : 0 ≤ startColumn ∧ endColumn ≤ (w : Int) - 1) :
    (∃ out, processingRow (newSharedValues r w h multiplySum shiftSum) imagePixels
        startRow endRow = .ok out ∧ out.length = imagePixels.length ∧
      ∀ i : Nat, (((i / w : Nat) : Int) < startRow ∨ endRow < ((i / w : Nat) : Int)) →
        out[i]? = imagePixels[i]?) ∧
    (∃ out, processingColumn (newSharedValues r w h multiplySum shiftSum) imagePixels
        startColumn endColumn = .ok out ∧ out.length = imagePixels.length ∧
      ∀ i : Nat, (((i % w : Nat) : Int) < startColumn ∨ endColumn < ((i % w : Nat) : Int)) →
        out[i]? = imagePixels[i]?) := by
  have hv : Valid (newSharedValues r w h multiplySum shiftSum) r w h :=
    ⟨rfl, rfl, rfl, rfl, rfl, rfl, hw, hh⟩
  constructor
  · obtain ⟨out, ho, hA, hF⟩ := processingRow_frame _ r w h hv imagePixels hlen startRow endRow
      hrows.1 hrows.2
    exact ⟨out, ho, by rw [← List.length_map out alpha, hA, List.length_map], hF⟩
  · obtain ⟨out, ho, hA, hF⟩ := processingColumn_frame _ r w h hv imagePixels hlen startColumn
      endColumn hcols.1 hcols.2
    exact ⟨out, ho, by rw [← List.length_map out alpha, hA, List.length_map], hF⟩

/-- C15, witness: the band of row 1 and the band of column 0 of a 2x2 buffer at
radius 1. -/
theorem jobs_write_only_their_band_witness :
    (∃ out, processingRow (newSharedValues (1 : Nat) (2 : Nat) (2 : Nat) 512 11)
        [0xFF000010, 0xFF000020, 0xFF000030, 0xFF000040] 1 1 = .ok out ∧
      out.length = [0xFF000010, 0xFF000020, 0xFF000030, 0xFF000040].length ∧
      ∀ i : Nat, (((i / 2 : Nat) : Int) < 1 ∨ (1 : Int) < ((i / 2 : Nat) : Int)) →
        out[i]? = [0xFF000010, 0xFF000020, 0xFF000030, 0xFF000040][i]?) ∧
    (∃ out, processingColumn (newSharedValues (1 : Nat) (2 : Nat) (2 : Nat) 512 11)
        [0xFF000010, 0xFF000020, 0xFF000030, 0xFF000040] 0 0 = .ok out ∧
      out.length = [0xFF000010, 0xFF000020, 0xFF000030, 0xFF000040].length ∧
      ∀ i : Nat, (((i % 2 : Nat) : Int) < 0 ∨ (0 : Int) < ((i % 2 : Nat) : Int)) →
        out[i]? = [0xFF000010, 0xFF000020, 0xFF000030, 0xFF000040][i]?) :=
  jobs_write_only_their_band 1 2 2 512 11 [0xFF000010, 0xFF000020, 0xFF000030, 0xFF000040]
    1 1 0 0 (by decide) (by decide) (by decide) (by decide) (by decide)

/-- C16, evidence of the defect: at radius 1 on the buffer of width 2 and height 3 with
blue 1 .. 6, `processingColumn` gives the columns 1, 3, 4 and 2, 4, 5, while
`processingRow` on the transposed buffer gives the rows 0, 2, 3 and 0, 2, 3; the
transpose of the latter is not the result of the former. -/
theorem processingColumn_is_not_transposed_processingRow :
    processingColumn (newSharedValues 1 2 3 512 11)
      [0xFF000001, 0xFF000002, 0xFF000003, 0xFF000004, 0xFF000005, 0xFF000006] 0 1
      = .ok [0xFF000001, 0xFF000002, 0xFF000003, 0xFF000004, 0xFF000004, 0xFF000005] ∧
    transposeBuffer 2 3
      [0xFF000001, 0xFF000002, 0xFF000003, 0xFF000004, 0xFF000005, 0xFF000006]
      = [0xFF000001, 0xFF000003, 0xFF000005, 0xFF000002, 0xFF000004, 0xFF000006] ∧
    processingRow (newSharedValues 1 3 2 512 11)
      [0xFF000001, 0xFF000003, 0xFF000005, 0xFF000002, 0xFF000004, 0xFF000006] 0 1
      = .ok [0xFF000000, 0xFF000002, 0xFF000003, 0xFF000000, 0xFF000002, 0xFF000003] ∧
    transposeBuffer 3 2
      [0xFF000000, 0xFF000002, 0xFF000003, 0xFF000000, 0xFF000002, 0xFF000003]
      = [0xFF000000, 0xFF000000, 0xFF000002, 0xFF000002, 0xFF000003, 0xFF000003] := by
  decide

/-- C17: for a radius in `0 .. 254`, positive width and height, at least one thread and
a buffer of `width * height` 32-bit pixels whose red, green and blue are all zero,
`blur` ends without a fault and returns the buffer exactly as it was. -/
theorem blur_black_unchanged (imagePixels : List Nat) (radius targetWidth targetHeight : Int)
    (availableThreads : Nat) (hradius : 0 ≤ radius ∧ radius ≤ 254) (hwidth : 0 < targetWidth)
    (hheight : 0 < targetHeight) (_hthreads : 1 ≤ availableThreads)
    (hlen : (imagePixels.length : Int) = targetWidth * targetHeight)
    (hblack : ∀ p ∈ imagePixels, red p = 0 ∧ green p = 0 ∧ blue p = 0 ∧ p < 2 ^ 32) :
    blur imagePixels radius targetWidth targetHeight availableThreads = .ok imagePixels := by
  obtain ⟨r, rfl⟩ := Int.eq_ofNat_of_zero_le hradius.1
  obtain ⟨w, rfl⟩ := Int.eq_ofNat_of_zero_le (le_of_lt hwidth)
  obtain ⟨h, rfl⟩ := Int.eq_ofNat_of_zero_le (le_of_lt hheight)
  have hlen1 : imagePixels.length = w * h := by exact_mod_cast hlen
  have hpx : ∀ p ∈ imagePixels, Dark p ∧ p &&& 0xff000000 = p := by
    intro p hp
    obtain ⟨h1, h2, h3, h4⟩ := hblack p hp
    exact ⟨⟨h1, h2, h3⟩, and_alphaMask_of_dark p ⟨h1, h2, h3⟩ h4⟩
  unfold blur
  rw [tableAt_ok MUL_TABLE (r : Int) (by omega) (by rw [MUL_TABLE_length]; omega),
    tableAt_ok SHR_TABLE (r : Int) (by omega) (by rw [SHR_TABLE_length]; omega)]
  have hv : Valid
      (newSharedValues (r : Int) (w : Int) (h : Int)
        (MUL_TABLE.getD (r : Int).toNat 0) (SHR_TABLE.getD (r : Int).toNat 0))
      r w h := ⟨rfl, rfl, rfl, rfl, rfl, rfl, by omega, by omega⟩
  have hrows := runJobs_fixed
    (processingRow (newSharedValues (r : Int) (w : Int) (h : Int)
      (MUL_TABLE.getD (r : Int).toNat 0) (SHR_TABLE.getD (r : Int).toNat 0))) imagePixels
    (bands (Int.tdiv (h : Int) (availableThreads : Int)) availableThreads)
    (fun b hb => processingRow_black _ r w h hv imagePixels hlen1 hpx b.1 b.2
      (bands_inside h availableThreads b hb).1 (bands_inside h availableThreads b hb).2)
  have hcols := runJobs_fixed
    (processingColumn (newSharedValues (r : Int) (w : Int) (h : Int)
      (MUL_TABLE.getD (r : Int).toNat 0) (SHR_TABLE.getD (r : Int).toNat 0))) imagePixels
    (bands (Int.tdiv (w : Int) (availableThreads : Int)) availableThreads)
    (fun b hb => processingColumn_black _ r w h hv imagePixels hlen1 hpx b.1 b.2
      (bands_inside w availableThreads b hb).1 (bands_inside w availableThreads b hb).2)
  show (Except.ok _ >>= fun multiplySum => Except.ok _ >>= fun shiftSum => _) = _
  simp only [bind, Except.bind]
  rw [hrows]
  exact hcols

/-- C17, witness: the 4x4 buffer of `0xFF000000` pixels at radius 1 with one thread. -/
theorem blur_black_unchanged_witness :
    blur (List.replicate 16 0xFF000000) 1 4 4 1 = .ok (List.replicate 16 0xFF000000) :=
  blur_black_unchanged (List.replicate 16 0xFF000000) 1 4 4 1 (by decide) (by decide)
    (by decide) (by decide) (by decide) (by decide)

/-- C18, evidence of the defect: with eight threads `4 / 8 = 0` rows and columns go to
each band, so `blur` at radius 1 returns the 4x4 checkerboard as it was and its
interior pixels are still 0 or 255 in every channel; with one thread the interior
pixels come back as `0xFF7F7F7F`. -/
theorem blur_checkerboard_unchanged_with_eight_threads :
    blur checkerboard 1 4 4 8 = .ok checkerboard ∧
    blur checkerboard 1 4 4 1 = .ok
      [0xFF5F5F5F, 0xFF7F7F7F, 0xFF7F7F7F, 0xFF9F9F9F,
       0xFF7F7F7F, 0xFF7F7F7F, 0xFF7F7F7F, 0xFF7F7F7F,
       0xFF7F7F7F, 0xFF7F7F7F, 0xFF7F7F7F, 0xFF7F7F7F,
       0xFF9F9F9F, 0xFF7F7F7F, 0xFF7F7F7F, 0xFF5F5F5F] := by
  decide

/-- C19: `EnqueueJob` on a pool whose stop flag is set returns the error and leaves the
pool, and so the queue, as it was; on a pool whose stop flag is clear it appends the job
at the back of the queue, changes nothing else and returns the future of that job. -/
theorem EnqueueJob_stopped_or_appends {Job : Type} (pool : ThreadPool Job) (f : Job) :
    (pool.stop_all = true →
      ThreadPool.EnqueueJob pool f = (pool, .error PoolError.stopped)) ∧
    (pool.stop_all = false →
      ThreadPool.EnqueueJob pool f =
        ({ pool with jobs_ := pool.jobs_ ++ [f] }, .ok { job := f }) ∧
      (ThreadPool.EnqueueJob pool f).1.jobs_.length = pool.jobs_.length + 1) := by
  constructor
  · intro h
    simp [ThreadPool.EnqueueJob, h]
  · intro h
    simp [ThreadPool.EnqueueJob, h]

/-- C19, witness: a job submitted to a running pool with two queued jobs. -/
theorem EnqueueJob_stopped_or_appends_witness :
    ThreadPool.EnqueueJob ({ num_threads_ := 2, jobs_ := [7, 8], stop_all := false } :
        ThreadPool Nat) 9 =
      ({ num_threads_ := 2, jobs_ := [7, 8, 9], stop_all := false }, .ok { job := 9 }) :=
  ((EnqueueJob_stopped_or_appends
    ({ num_threads_ := 2, jobs_ := [7, 8], stop_all := false } : ThreadPool Nat) 9).2 rfl).1

/-- C20: a pass of a worker returns exactly when the stop flag is set and the queue is
empty; it waits exactly when the flag is clear and the queue is empty; in every other
state it removes the job at the front of the queue, runs it and changes nothing else.
Hence, after the stop flag has been set, a worker runs every queued job, in the order
of the queue, before it returns, also a job that was submitted just before. -/
theorem worker_drains_queue_in_order {Job : Type} (pool : ThreadPool Job) (fuel : Nat)
    (hfuel : pool.jobs_.length + 1 < fuel) :
    (ThreadPool.WorkerThread pool = .returns ↔ pool.stop_all = true ∧ pool.jobs_ = []) ∧
    (ThreadPool.WorkerThread pool = .waits ↔ pool.stop_all = false ∧ pool.jobs_ = []) ∧
    (∀ job pool1, ThreadPool.WorkerThread pool = .runs job pool1 ↔
      pool.jobs_ = job :: pool1.jobs_ ∧ pool1.stop_all = pool.stop_all ∧
      pool1.num_threads_ = pool.num_threads_) ∧
    workerRun fuel pool.shutdown = (pool.jobs_, true) ∧
    (∀ f : Job, pool.stop_all = false →
      workerRun fuel (ThreadPool.EnqueueJob pool f).1.shutdown = (pool.jobs_ ++ [f], true)) := by
  refine ⟨WorkerThread_returns_iff pool, WorkerThread_waits_iff pool,
    fun job pool1 => WorkerThread_runs_iff pool pool1 job, ?_, ?_⟩
  · exact workerRun_drains pool.num_threads_ pool.jobs_ true fuel (by omega)
  · intro f hf
    have e : (ThreadPool.EnqueueJob pool f).1.shutdown =
        { num_threads_ := pool.num_threads_, jobs_ := pool.jobs_ ++ [f], stop_all := true } := by
      simp [ThreadPool.EnqueueJob, ThreadPool.shutdown, hf]
    rw [e]
    exact workerRun_drains pool.num_threads_ (pool.jobs_ ++ [f]) true fuel
      (by rw [List.length_append]; simp; omega)

/-- C20, witness: a pool with three queued jobs that is shut down. -/
theorem worker_drains_queue_in_order_witness :
    workerRun 5 (ThreadPool.shutdown
      ({ num_threads_ := 2, jobs_ := [7, 8, 9], stop_all := false } : ThreadPool Nat)) =
      ([7, 8, 9], true) :=
  (worker_drains_queue_in_order
    ({ num_threads_ := 2, jobs_ := [7, 8, 9], stop_all := false } : ThreadPool Nat) 5
    (by decide)).2.2.2.1

/-! ## Bands of a phase -/

theorem bands_pairwise (per : Int) (t : Nat) (hper : 0 ≤ per) :
    (bands per t).Pairwise BandsDisjoint := by
  unfold bands
  rw [List.pairwise_map]
  refine List.Pairwise.imp ?_ (List.pairwise_lt_range t)
  intro i j hij
  left
  dsimp only
  have h1 : ((i : Int) + 1) * per ≤ (j : Int) * per :=
    Int.mul_le_mul_of_nonneg_right (by omega) hper
  omega

theorem bands_getElem? (per : Int) (t i : Nat) (hi : i < t) :
    (bands per t)[i]? = some ((i : Int) * per, ((i : Int) + 1) * per - 1) := by
  unfold bands
  rw [List.getElem?_map, List.getElem?_range hi]
  rfl

/-! ## Scanlines forget the window of the scanline before -/

theorem forRange_append {σ : Type} (body : Int → σ → Except Fault σ) (n2 : Nat) :
    ∀ (n1 : Nat) (first : Int) (s : σ),
      forRange body (n1 + n2) first s =
        (forRange body n1 first s >>= fun t => forRange body n2 (first + (n1 : Int)) t) := by
  intro n1
  induction n1 with
  | zero =>
    intro first s
    simp only [Nat.zero_add, Nat.cast_zero, add_zero]
    rfl
  | succ n ih =>
    intro first s
    have e : n + 1 + n2 = (n + n2) + 1 := by omega
    rw [e]
    cases hb : body first s with
    | error err =>
      simp only [forRange, hb]
      rfl
    | ok s1 =>
      rw [forRange_succ_ok body _ _ s s1 hb, forRange_succ_ok body _ _ s s1 hb, ih]
      have e2 : first + 1 + (n : Int) = first + ((n + 1 : Nat) : Int) := by push_cast; ring
      rw [e2]

/-- One scanline from two states that hold the same buffer: both runs end without a
fault and they leave the same buffer, whatever the stacks, the sums and the cursors of
the two states were. -/
theorem lineRun_forgets (sv : SharedValues) (stride nMax : Int) (b s m r : Nat) (hs : 0 < s)
    (A : List Nat) (g : LineGeom sv stride nMax b s m r A.length)
    (lead : Locals → Int) (weight : Int → Int)
    (hlead : ∀ v : Locals, (∃ j : Nat, j ≤ m ∧ v.inIndex = ((b + j * s : Nat) : Int)) →
      ∃ j : Nat, j ≤ m ∧ lead v = ((b + j * s : Nat) : Int))
    (hlead2 : ∀ u1 u2 : Locals,
      (∃ j : Nat, j ≤ m ∧ u1.inIndex = ((b + j * s : Nat) : Int) ∧
        u2.inIndex = ((b + j * s : Nat) : Int)) →
      ∃ j : Nat, j ≤ m ∧ lead u1 = ((b + j * s : Nat) : Int) ∧
        lead u2 = ((b + j * s : Nat) : Int))
    (v1 v2 : Locals) (hJ1 : JobInv r A v1) (hJ2 : JobInv r A v2)
    (hpx : v1.imagePixels = v2.imagePixels) :
    ∃ u1 u2, lineRun sv stride nMax lead weight (b : Int) (m + 1) v1 = .ok u1 ∧
      lineRun sv stride nMax lead weight (b : Int) (m + 1) v2 = .ok u2 ∧
      JobInv r A u1 ∧ JobInv r A u2 ∧ u1.imagePixels = u2.imagePixels := by
  obtain ⟨u1, u2, h1, h2, hK1, hK2, hL⟩ := lineRun_sim sv sv ⟨rfl, rfl, rfl, rfl⟩ stride nMax
    b b s m r hs A A g g lead lead weight hlead hlead hlead2 v1 v2 hJ1 hJ2
    (fun j _ => by rw [hpx])
  obtain ⟨t1, ht1, -, hF1⟩ := lineRun_frame sv stride nMax b s m r A g lead weight hlead v1 hJ1
  obtain ⟨t2, ht2, -, hF2⟩ := lineRun_frame sv stride nMax b s m r A g lead weight hlead v2 hJ2
  rw [h1] at ht1
  rw [h2] at ht2
  cases ht1
  cases ht2
  refine ⟨u1, u2, h1, h2, hK1, hK2, ?_⟩
  apply List.ext_getElem?
  intro i
  by_cases hi : ∃ j : Nat, j ≤ m ∧ i = b + j * s
  · obtain ⟨j, hj, rfl⟩ := hi
    exact hL j hj
  · rw [hF1 i (fun j hj hij => hi ⟨j, hj, hij⟩), hF2 i (fun j hj hij => hi ⟨j, hj, hij⟩), hpx]


/-- The loop over rows from two states that hold the same buffer: both runs end without
a fault and leave the same buffer. -/
theorem processingRow_loop_forgets (sv : SharedValues) (r w h : Nat) (hv : Valid sv r w h)
    (A : List Nat) (hlen : A.length = w * h) (first : Int) (n : Nat) (h0 : 0 ≤ first)
    (h1 : first + (n : Int) ≤ (h : Int)) (v1 v2 : Locals)
    (hJ1 : JobInv r A v1) (hJ2 : JobInv r A v2) (hpx : v1.imagePixels = v2.imagePixels) :
    ∃ t1 t2, forRange (processingRowLine sv) n first v1 = .ok t1 ∧
      forRange (processingRowLine sv) n first v2 = .ok t2 ∧
      JobInv r A t1 ∧ JobInv r A t2 ∧ t1.imagePixels = t2.imagePixels := by
  have hd := hv.divisor_eq
  have hw := hv.width_pos
  have key := forRange_rel (processingRowLine sv) (processingRowLine sv)
    (fun _ u1 u2 => JobInv r A u1 ∧ JobInv r A u2 ∧ u1.imagePixels = u2.imagePixels)
    first n
    (fun k u1 u2 hk hu => by
      obtain ⟨hK1, hK2, hE⟩ := hu
      have hrow0 : 0 ≤ first + (k : Int) := by omega
      obtain ⟨ρ, hρ⟩ := Int.eq_ofNat_of_zero_le hrow0
      have hfit : ρ * w + (w - 1) * 1 < A.length := by
        rw [hlen]
        have h2 : (ρ + 1) * w ≤ h * w := Nat.mul_le_mul_right w (by omega)
        have h3 : (ρ + 1) * w = ρ * w + w := by ring
        have h4 : h * w = w * h := Nat.mul_comm h w
        omega
      have g : LineGeom sv 1 sv.widthMax (ρ * w) 1 (w - 1) r A.length :=
        ⟨by simp, by rw [hv.widthMax_eq]; omega, hv.blurRadius_eq, by rw [hd]; ring, hfit⟩
      have hb : (first + (k : Int)) * sv.targetWidth = ((ρ * w : Nat) : Int) := by
        rw [hv.targetWidth_eq, hρ]; push_cast; ring
      have hcount : sv.targetWidth.toNat = w - 1 + 1 := by rw [hv.targetWidth_eq]; omega
      rw [processingRowLine_eq_lineRun, processingRowLine_eq_lineRun, hb, hcount]
      exact lineRun_forgets sv 1 sv.widthMax (ρ * w) 1 (w - 1) r (by omega) A g
        (fun _ => ((ρ * w : Nat) : Int)) (fun rad => rad - 1)
        (fun _ _ => ⟨0, by omega, by simp⟩) (fun _ _ _ => ⟨0, by omega, by simp, by simp⟩)
        u1 u2 hK1 hK2 hE)
    n 0 v1 v2 (by omega) ⟨hJ1, hJ2, hpx⟩
  simp only [Nat.cast_zero, add_zero] at key
  exact key

/-- The loop over columns from two states that hold the same buffer: both runs end
without a fault and leave the same buffer. -/
theorem processingColumn_loop_forgets (sv : SharedValues) (r w h : Nat) (hv : Valid sv r w h)
    (A : List Nat) (hlen : A.length = w * h) (first : Int) (n : Nat) (h0 : 0 ≤ first)
    (h1 : first + (n : Int) ≤ (w : Int)) (v1 v2 : Locals)
    (hJ1 : JobInv r A v1) (hJ2 : JobInv r A v2) (hpx : v1.imagePixels = v2.imagePixels) :
    ∃ t1 t2, forRange (processingColumnLine sv) n first v1 = .ok t1 ∧
      forRange (processingColumnLine sv) n first v2 = .ok t2 ∧
      JobInv r A t1 ∧ JobInv r A t2 ∧ t1.imagePixels = t2.imagePixels := by
  have hd := hv.divisor_eq
  have hw := hv.width_pos
  have hh := hv.height_pos
  have key := forRange_rel (processingColumnLine sv) (processingColumnLine sv)
    (fun _ u1 u2 => JobInv r A u1 ∧ JobInv r A u2 ∧ u1.imagePixels = u2.imagePixels)
    first n
    (fun k u1 u2 hk hu => by
      obtain ⟨hK1, hK2, hE⟩ := hu
      have hcol0 : 0 ≤ first + (k : Int) := by omega
      obtain ⟨c, hc⟩ := Int.eq_ofNat_of_zero_le hcol0
      have hfit : c + (h - 1) * w < A.length := by
        rw [hlen]
        have h2 : (h - 1 + 1) * w = (h - 1) * w + w := by ring
        have h3 : h - 1 + 1 = h := by omega
        rw [h3] at h2
        have h4 : h * w = w * h := Nat.mul_comm h w
        omega
      have g : LineGeom sv sv.targetWidth sv.heightMax c w (h - 1) r A.length :=
        ⟨hv.targetWidth_eq, by rw [hv.heightMax_eq]; omega, hv.blurRadius_eq,
          by rw [hd]; ring, hfit⟩
      have hcount : sv.targetHeight.toNat = h - 1 + 1 := by rw [hv.targetHeight_eq]; omega
      rw [processingColumnLine_eq_lineRun, processingColumnLine_eq_lineRun, hc, hcount]
      exact lineRun_forgets sv sv.targetWidth sv.heightMax c w (h - 1) r hw A g
        (fun v => v.inIndex) (fun rad => rad + 1)
        (fun _ hj => hj) (fun _ _ hj => hj)
        u1 u2 hK1 hK2 hE)
    n 0 v1 v2 (by omega) ⟨hJ1, hJ2, hpx⟩
  simp only [Nat.cast_zero, add_zero] at key
  exact key

/-! ## The barrier between the two phases -/

theorem rowJobs_getElem? (n k : Nat) (hk : k < n) :
    (rowJobs n)[k]? = some { phase := .row, index := k } := by
  unfold rowJobs
  rw [List.getElem?_map, List.getElem?_range hk]
  rfl

theorem columnJobs_getElem? (n k : Nat) (hk : k < n) :
    (columnJobs n)[k]? = some { phase := .column, index := k } := by
  unfold columnJobs
  rw [List.getElem?_map, List.getElem?_range hk]
  rfl

theorem rowJobs_length (n : Nat) : (rowJobs n).length = n := by
  simp [rowJobs]

theorem columnJobs_length (n : Nat) : (columnJobs n).length = n := by
  simp [columnJobs]

theorem rowJobs_succ (n : Nat) :
    rowJobs (n + 1) = rowJobs n ++ [{ phase := .row, index := n }] := by
  simp [rowJobs, List.range_succ]

theorem columnJobs_succ (n : Nat) :
    columnJobs (n + 1) = columnJobs n ++ [{ phase := .column, index := n }] := by
  simp [columnJobs, List.range_succ]

theorem submit_eq_some (s s1 : BlurRun) (job : BlurJob) (next : BlurPc)
    (h : submit s job next = some s1) :
    s1 = { s with pc := next, pool := { s.pool with jobs_ := s.pool.jobs_ ++ [job] },
                  futures := s.futures ++ [{ job := job }] } := by
  unfold submit ThreadPool.EnqueueJob at h
  by_cases hs : s.pool.stop_all = true
  · rw [if_pos hs] at h
    cases h
  · rw [if_neg hs] at h
    simp only [Option.some.injEq] at h
    exact h.symm

theorem waitFor_eq_some (s s1 : BlurRun) (i : Nat) (next after : BlurPc)
    (h : waitFor s i next after = some s1) :
    (s.futures.length ≤ i ∧ s1 = { s with pc := after }) ∨
    (∃ future, s.futures[i]? = some future ∧ future.job ∈ s.finished ∧
      s1 = { s with pc := next }) := by
  unfold waitFor at h
  cases hf : s.futures[i]? with
  | none =>
    rw [hf] at h
    dsimp only at h
    simp only [Option.some.injEq] at h
    exact Or.inl ⟨List.getElem?_eq_none_iff.mp hf, h.symm⟩
  | some future =>
    rw [hf] at h
    dsimp only at h
    by_cases hm : future.job ∈ s.finished
    · rw [if_pos hm] at h
      simp only [Option.some.injEq] at h
      exact Or.inr ⟨future, rfl, hm, h.symm⟩
    · rw [if_neg hm] at h
      cases h

theorem waited_all (s : BlurRun) (i : Nat) (jobs : List BlurJob)
    (hmap : s.futures.map (fun f => f.job) = jobs) (hw : Waited s i)
    (hlen : s.futures.length ≤ i) (k : Nat) (job : BlurJob) (hk : jobs[k]? = some job) :
    job ∈ s.finished := by
  rw [← hmap, List.getElem?_map] at hk
  cases hf : s.futures[k]? with
  | none => rw [hf] at hk; cases hk
  | some future =>
    rw [hf] at hk
    simp only [Option.map_some', Option.some.injEq] at hk
    rw [← hk]
    have hk2 : k < s.futures.length := by
      by_contra hc
      rw [List.getElem?_eq_none (by omega)] at hf
      cases hf
    exact hw k future (by omega) hf

theorem barrierInv_main (T : Nat) (s s1 : BlurRun) (hinv : BarrierInv T s)
    (h : blurMain T s = some s1) : BarrierInv T s1 := by
  unfold blurMain at h
  unfold BarrierInv at hinv
  cases hpc : s.pc with
  | enqueueRows i =>
    rw [hpc] at h hinv
    dsimp only at h hinv
    obtain ⟨hi, hmap, hno⟩ := hinv
    by_cases hiT : i < T
    · rw [if_pos hiT] at h
      rw [submit_eq_some _ _ _ _ h]
      unfold BarrierInv
      dsimp only
      refine ⟨hiT, ?_, ?_⟩
      · rw [List.map_append, hmap, rowJobs_succ]
        rfl
      · intro job hjob
        dsimp only at hjob
        rcases hjob with hq | hr | hf
        · rw [List.mem_append] at hq
          rcases hq with hq | hq
          · exact hno job (Or.inl hq)
          · rw [List.mem_singleton] at hq
            rw [hq]
        · exact hno job (Or.inr (Or.inl hr))
        · exact hno job (Or.inr (Or.inr hf))
    · rw [if_neg hiT] at h
      simp only [Option.some.injEq] at h
      rw [← h]
      unfold BarrierInv
      dsimp only
      have e : i = T := by omega
      subst e
      exact ⟨hmap, hno, fun k _ hk => absurd hk (by omega)⟩
  | waitRows i =>
    rw [hpc] at h hinv
    dsimp only at h hinv
    obtain ⟨hmap, hno, hw⟩ := hinv
    rcases waitFor_eq_some _ _ _ _ _ h with ⟨hlen, rfl⟩ | ⟨future, hf, hfin, rfl⟩
    · unfold BarrierInv
      dsimp only
      refine ⟨Nat.zero_le _, ?_, ?_⟩
      · rw [hmap]
        simp [columnJobs]
      · intro k hk
        exact waited_all s i _ hmap hw hlen k _ (rowJobs_getElem? T k hk)
    · unfold BarrierInv
      dsimp only
      refine ⟨hmap, hno, ?_⟩
      intro k future1 hk hf1
      by_cases hki : k = i
      · subst hki
        rw [hf] at hf1
        cases hf1
        exact hfin
      · exact hw k future1 (by omega) hf1
  | enqueueColumns i =>
    rw [hpc] at h hinv
    dsimp only at h hinv
    obtain ⟨hi, hmap, hrows⟩ := hinv
    by_cases hiT : i < T
    · rw [if_pos hiT] at h
      rw [submit_eq_some _ _ _ _ h]
      unfold BarrierInv
      dsimp only
      refine ⟨hiT, ?_, hrows⟩
      rw [List.map_append, hmap, columnJobs_succ, List.append_assoc]
      rfl
    · rw [if_neg hiT] at h
      simp only [Option.some.injEq] at h
      rw [← h]
      unfold BarrierInv
      dsimp only
      have e : i = T := by omega
      subst e
      exact ⟨hmap, hrows, fun k _ hk => absurd hk (by omega)⟩
  | waitAll i =>
    rw [hpc] at h hinv
    dsimp only at h hinv
    obtain ⟨hmap, hrows, hw⟩ := hinv
    rcases waitFor_eq_some _ _ _ _ _ h with ⟨hlen, rfl⟩ | ⟨future, hf, hfin, rfl⟩
    · unfold BarrierInv
      dsimp only
      refine ⟨hrows, ?_⟩
      intro k hk
      refine waited_all s i _ hmap hw hlen (T + k) _ ?_
      rw [List.getElem?_append_right (by rw [rowJobs_length]; omega), rowJobs_length,
        Nat.add_sub_cancel_left]
      exact columnJobs_getElem? T k hk
    · unfold BarrierInv
      dsimp only
      refine ⟨hmap, hrows, ?_⟩
      intro k future1 hk hf1
      by_cases hki : k = i
      · subst hki
        rw [hf] at hf1
        cases hf1
        exact hfin
      · exact hw k future1 (by omega) hf1
  | returned =>
    rw [hpc] at h
    cases h

theorem barrierInv_mono (T : Nat) (s s1 : BlurRun) (hinv : BarrierInv T s)
    (hpc : s1.pc = s.pc) (hfut : s1.futures = s.futures)
    (hfin : ∀ job, job ∈ s.finished → job ∈ s1.finished)
    (hjobs : ∀ job, job ∈ s1.pool.jobs_ ∨ job ∈ s1.running ∨ job ∈ s1.finished →
      job ∈ s.pool.jobs_ ∨ job ∈ s.running ∨ job ∈ s.finished) :
    BarrierInv T s1 := by
  unfold BarrierInv at hinv ⊢
  rw [hpc]
  have hno : NoColumn s → NoColumn s1 := fun h job hjob => h job (hjobs job hjob)
  have hrows : RowsDone T s → RowsDone T s1 := fun h i hi => hfin _ (h i hi)
  have hw : ∀ i, Waited s i → Waited s1 i := fun i h k future hk hf =>
    hfin _ (h k future hk (by rw [← hfut]; exact hf))
  cases hp : s.pc with
  | enqueueRows i =>
    rw [hp] at hinv
    dsimp only at hinv ⊢
    rw [hfut]
    exact ⟨hinv.1, hinv.2.1, hno hinv.2.2⟩
  | waitRows i =>
    rw [hp] at hinv
    dsimp only at hinv ⊢
    rw [hfut]
    exact ⟨hinv.1, hno hinv.2.1, hw i hinv.2.2⟩
  | enqueueColumns i =>
    rw [hp] at hinv
    dsimp only at hinv ⊢
    rw [hfut]
    exact ⟨hinv.1, hinv.2.1, hrows hinv.2.2⟩
  | waitAll i =>
    rw [hp] at hinv
    dsimp only at hinv ⊢
    rw [hfut]
    exact ⟨hinv.1, hrows hinv.2.1, hw i hinv.2.2⟩
  | returned =>
    rw [hp] at hinv
    dsimp only at hinv ⊢
    exact ⟨hrows hinv.1, fun i hi => hfin _ (hinv.2 i hi)⟩

theorem barrierInv_step (T : Nat) (event : Event) (s s1 : BlurRun) (hinv : BarrierInv T s)
    (h : blurStep T event s = some s1) : BarrierInv T s1 := by
  cases event with
  | main => exact barrierInv_main T s s1 hinv h
  | take =>
    unfold blurStep at h
    dsimp only at h
    cases hw : ThreadPool.WorkerThread s.pool with
    | waits => rw [hw] at h; cases h
    | returns => rw [hw] at h; cases h
    | runs job pool =>
      rw [hw] at h
      simp only [Option.some.injEq] at h
      obtain ⟨hq, -, -⟩ := (WorkerThread_runs_iff _ _ _).mp hw
      subst h
      refine barrierInv_mono T s _ hinv rfl rfl (fun _ hj => hj) ?_
      intro j hj
      dsimp only at hj
      rcases hj with hj | hj | hj
      · exact Or.inl (by rw [hq]; exact List.mem_cons_of_mem _ hj)
      · rw [List.mem_cons] at hj
        rcases hj with hj | hj
        · exact Or.inl (by rw [hq, hj]; exact List.mem_cons_self _ _)
        · exact Or.inr (Or.inl hj)
      · exact Or.inr (Or.inr hj)
  | finish job =>
    unfold blurStep at h
    dsimp only at h
    by_cases hm : job ∈ s.running
    · rw [if_pos hm] at h
      simp only [Option.some.injEq] at h
      subst h
      refine barrierInv_mono T s _ hinv rfl rfl (fun _ hj => List.mem_cons_of_mem _ hj) ?_
      intro j hj
      dsimp only at hj
      rcases hj with hj | hj | hj
      · exact Or.inl hj
      · exact Or.inr (Or.inl (List.mem_of_mem_erase hj))
      · rw [List.mem_cons] at hj
        rcases hj with hj | hj
        · exact Or.inr (Or.inl (by rw [hj]; exact hm))
        · exact Or.inr (Or.inr hj)
    · rw [if_neg hm] at h
      cases h

theorem barrierInv_schedule (T : Nat) (events : List Event) :
    ∀ s s1 : BlurRun, BarrierInv T s → blurSchedule T events s = some s1 → BarrierInv T s1 := by
  induction events with
  | nil =>
    intro s s1 hinv h
    simp only [blurSchedule, Option.some.injEq] at h
    rw [← h]
    exact hinv
  | cons event rest ih =>
    intro s s1 hinv h
    unfold blurSchedule at h
    cases hs : blurStep T event s with
    | none => rw [hs] at h; cases h
    | some s2 =>
      rw [hs] at h
      exact ih s2 s1 (barrierInv_step T event s s2 hinv hs) h

theorem barrierInv_start (T : Nat) : BarrierInv T (BlurRun.start T) := by
  unfold BarrierInv BlurRun.start
  dsimp only
  refine ⟨Nat.zero_le _, by simp [rowJobs], ?_⟩
  intro job hjob
  simp [ThreadPool.create] at hjob

theorem barrierInv_column (T : Nat) (s : BlurRun) (hinv : BarrierInv T s) (job : BlurJob)
    (hjob : job ∈ s.pool.jobs_ ∨ job ∈ s.running ∨ job ∈ s.finished)
    (hcol : job.phase = .column) : RowsDone T s := by
  unfold BarrierInv at hinv
  cases hp : s.pc with
  | enqueueRows i =>
    rw [hp] at hinv
    have := hinv.2.2 job hjob
    rw [hcol] at this
    cases this
  | waitRows i =>
    rw [hp] at hinv
    have := hinv.2.1 job hjob
    rw [hcol] at this
    cases this
  | enqueueColumns i => rw [hp] at hinv; exact hinv.2.2
  | waitAll i => rw [hp] at hinv; exact hinv.2.1
  | returned => rw [hp] at hinv; exact hinv.1

/-! ## Sums of a window that moves by one position -/

theorem leavingSum_shift (g : Nat → Int) (r : Nat) :
    leavingSum (fun i => g (i + 1)) r = leavingSum g r - g 0 + g (r + 1) := by
  unfold leavingSum
  rw [Finset.sum_range_succ' g r, Finset.sum_range_succ (fun i => g (i + 1)) r]
  ring

theorem enteringSum_shift (g : Nat → Int) (r : Nat) :
    enteringSum (fun i => g (i + 1)) r =
      enteringSum g r + g (2 * r + 1) - g (r + 1) := by
  unfold enteringSum
  have h1 : ∑ i in Finset.range (r + 1), g (r + 1 + i) =
      ∑ i in Finset.range r, g (r + 1 + i) + g (2 * r + 1) := by
    rw [Finset.sum_range_succ]
    have e : r + 1 + r = 2 * r + 1 := by omega
    rw [e]
  have h2 : ∑ i in Finset.range (r + 1), g (r + 1 + i) =
      ∑ i in Finset.range r, g (r + 1 + i + 1) + g (r + 1) := by
    rw [Finset.sum_range_succ']
    rfl
  have h3 : ∑ i in Finset.range r, g (r + 1 + i + 1) = ∑ i in Finset.range r, g (r + 1 + (i + 1)) :=
    rfl
  linarith

theorem triangleSum_shift (g : Nat → Int) (r : Nat) :
    triangleSum (fun i => g (i + 1)) r =
      triangleSum g r - leavingSum g r + (enteringSum g r + g (2 * r + 1)) := by
  unfold triangleSum leavingSum enteringSum
  -- the leaving half
  have a1 : ∑ i in Finset.range (r + 1), ((i : Int) + 1) * g i -
      ∑ i in Finset.range (r + 1), g i = ∑ i in Finset.range (r + 1), (i : Int) * g i := by
    rw [← Finset.sum_sub_distrib]
    exact Finset.sum_congr rfl (fun i _ => by ring)
  have a2 : ∑ i in Finset.range (r + 1), (i : Int) * g i =
      ∑ i in Finset.range r, ((i : Int) + 1) * g (i + 1) := by
    rw [Finset.sum_range_succ' (fun i => (i : Int) * g i) r]
    simp
  have a3 : ∑ i in Finset.range (r + 1), ((i : Int) + 1) * g (i + 1) =
      ∑ i in Finset.range r, ((i : Int) + 1) * g (i + 1) + ((r : Int) + 1) * g (r + 1) := by
    rw [Finset.sum_range_succ]
  -- the entering half
  have b0 : ∑ i in Finset.range r, ((r : Int) - (i : Int)) * g (r + 1 + i) +
      ∑ i in Finset.range r, g (r + 1 + i) =
      ∑ i in Finset.range r, ((r : Int) + 1 - (i : Int)) * g (r + 1 + i) := by
    rw [← Finset.sum_add_distrib]
    exact Finset.sum_congr rfl (fun i _ => by ring)
  have b1 : ∑ i in Finset.range (r + 1), ((r : Int) + 1 - (i : Int)) * g (r + 1 + i) =
      ∑ i in Finset.range r, ((r : Int) + 1 - (i : Int)) * g (r + 1 + i) + g (2 * r + 1) := by
    rw [Finset.sum_range_succ]
    have e : r + 1 + r = 2 * r + 1 := by omega
    rw [e]
    ring
  have b2 : ∑ i in Finset.range (r + 1), ((r : Int) + 1 - (i : Int)) * g (r + 1 + i) =
      ∑ i in Finset.range r, ((r : Int) - (i : Int)) * g (r + 1 + i + 1) +
        ((r : Int) + 1) * g (r + 1) := by
    rw [Finset.sum_range_succ' (fun i => ((r : Int) + 1 - (i : Int)) * g (r + 1 + i)) r]
    simp only [Nat.cast_zero, sub_zero, add_zero, Nat.cast_add, Nat.cast_one]
    congr 1
    exact Finset.sum_congr rfl (fun i _ => by ring_nf)
  have b3 : ∑ i in Finset.range r, ((r : Int) - (i : Int)) * g (r + 1 + i + 1) =
      ∑ i in Finset.range r, ((r : Int) - (i : Int)) * g (r + 1 + (i + 1)) := rfl
  show ∑ i in Finset.range (r + 1), ((i : Int) + 1) * g (i + 1) +
      ∑ i in Finset.range r, ((r : Int) - (i : Int)) * g (r + 1 + i + 1) = _
  linarith

/-- The weights of a window of radius `r` add up to `(r + 1) ^ 2`. -/
theorem triangleSum_const (c : Int) (r : Nat) :
    triangleSum (fun _ => c) r = c * ((r : Int) + 1) ^ 2 := by
  unfold triangleSum
  rw [← Finset.sum_mul, ← Finset.sum_mul]
  have h : ∀ n : Nat, ∑ i in Finset.range (n + 1), ((i : Int) + 1) +
      ∑ i in Finset.range n, ((n : Int) - (i : Int)) = ((n : Int) + 1) ^ 2 := by
    intro n
    induction n with
    | zero => simp
    | succ n ih =>
      have e1 : ∑ i in Finset.range (n + 1), (((n + 1 : Nat) : Int) - (i : Int)) =
          ∑ i in Finset.range n, ((n : Int) - (i : Int)) + ((n : Int) + 1) := by
        rw [Finset.sum_range_succ]
        have e2 : ∑ i in Finset.range n, (((n + 1 : Nat) : Int) - (i : Int)) =
            ∑ i in Finset.range n, (((n : Int) - (i : Int)) + 1) :=
          Finset.sum_congr rfl (fun i _ => by push_cast; ring)
        rw [e2, Finset.sum_add_distrib]
        simp
        ring
      rw [Finset.sum_range_succ, e1]
      push_cast
      push_cast at ih
      linarith
  have := h r
  linear_combination c * this

/-! ## The steps of the two loops, channel by channel -/

theorem seedNext_of_pos (sv : SharedValues) (stride nMax : Int) (lead : Locals → Int)
    (weight : Int → Int) (rad : Int) (v : Locals) (h : rad ≥ 1) :
    (seedNext sv stride nMax lead weight rad v).blurStack =
      (v.blurStack.set rad.toNat (v.imagePixels.getD (lead v).toNat 0)).set
        (rad + sv.blurRadius).toNat
        (v.imagePixels.getD (if rad ≤ nMax then v.inIndex + stride else v.inIndex).toNat 0) ∧
    (seedNext sv stride nMax lead weight rad v).inIndex =
      (if rad ≤ nMax then v.inIndex + stride else v.inIndex) ∧
    ∀ ch : Channel, IsChannel ch →
      ch.leaving (seedNext sv stride nMax lead weight rad v) =
        ch.leaving v + ch.value (v.imagePixels.getD (lead v).toNat 0) ∧
      ch.entering (seedNext sv stride nMax lead weight rad v) =
        ch.entering v + ch.value (v.imagePixels.getD
          (if rad ≤ nMax then v.inIndex + stride else v.inIndex).toNat 0) ∧
      ch.total (seedNext sv stride nMax lead weight rad v) =
        ch.total v + ch.value (v.imagePixels.getD (lead v).toNat 0) * weight rad +
          ch.value (v.imagePixels.getD
            (if rad ≤ nMax then v.inIndex + stride else v.inIndex).toNat 0) *
            (sv.blurRadius + 1 - rad) := by
  unfold seedNext
  dsimp only
  rw [if_pos h]
  refine ⟨rfl, rfl, ?_⟩
  intro ch hch
  rcases hch with rfl | rfl | rfl <;> exact ⟨rfl, rfl, rfl⟩

theorem seedNext_of_zero (sv : SharedValues) (stride nMax : Int) (lead : Locals → Int)
    (weight : Int → Int) (rad : Int) (v : Locals) (h : ¬ rad ≥ 1) :
    (seedNext sv stride nMax lead weight rad v).blurStack =
      v.blurStack.set rad.toNat (v.imagePixels.getD (lead v).toNat 0) ∧
    (seedNext sv stride nMax lead weight rad v).inIndex = v.inIndex ∧
    ∀ ch : Channel, IsChannel ch →
      ch.leaving (seedNext sv stride nMax lead weight rad v) =
        ch.leaving v + ch.value (v.imagePixels.getD (lead v).toNat 0) ∧
      ch.entering (seedNext sv stride nMax lead weight rad v) = ch.entering v ∧
      ch.total (seedNext sv stride nMax lead weight rad v) =
        ch.total v + ch.value (v.imagePixels.getD (lead v).toNat 0) * weight rad := by
  unfold seedNext
  dsimp only
  rw [if_neg h]
  refine ⟨rfl, rfl, ?_⟩
  intro ch hch
  rcases hch with rfl | rfl | rfl <;> exact ⟨rfl, rfl, rfl⟩

theorem scanNext_channel (sv : SharedValues) (stride nMax : Int) (v : Locals)
    (ch : Channel) (hch : IsChannel ch) :
    ch.leaving (scanNext sv stride nMax v) =
      ch.leaving v - ch.value (scanLeaving sv v) +
        ch.value (scanStackPixel sv stride nMax v) ∧
    ch.entering (scanNext sv stride nMax v) =
      ch.entering v + ch.value (scanPixel sv stride nMax v) -
        ch.value (scanStackPixel sv stride nMax v) ∧
    ch.total (scanNext sv stride nMax v) =
      ch.total v - ch.leaving v + (ch.entering v + ch.value (scanPixel sv stride nMax v)) := by
  rcases hch with rfl | rfl | rfl <;> exact ⟨rfl, rfl, rfl⟩

theorem mod_ne_of_within (d x t : Nat) (h1 : x < t) (h2 : t < x + d) : t % d ≠ x % d := by
  intro h
  have h3 : (t - x) % d = 0 := Nat.sub_mod_eq_zero_of_mod_eq h
  rw [Nat.mod_eq_of_lt (by omega)] at h3
  omega

theorem stackStartOf_mod (sv : SharedValues) (r x : Nat) (hr : sv.blurRadius = (r : Int))
    (hd : sv.divisor = 2 * (r : Int) + 1) :
    stackStartOf sv (((x + r) % (2 * r + 1) : Nat) : Int) = ((x % (2 * r + 1) : Nat) : Int) := by
  have hq : (x + r) % (2 * r + 1) < 2 * r + 1 := Nat.mod_lt _ (by omega)
  have h1 : ((x + r) % (2 * r + 1) + (r + 1)) % (2 * r + 1) = x % (2 * r + 1) := by
    rw [Nat.mod_add_mod]
    have e : x + r + (r + 1) = x + (2 * r + 1) := by omega
    rw [e, Nat.add_mod_right]
  unfold stackStartOf
  rw [hr, hd]
  by_cases hc : r ≤ (x + r) % (2 * r + 1)
  · have h2 : ((x + r) % (2 * r + 1) + (r + 1)) % (2 * r + 1) = (x + r) % (2 * r + 1) - r := by
      rw [Nat.mod_eq_sub_mod (by omega), Nat.mod_eq_of_lt (by omega)]
      omega
    rw [if_pos (by omega)]
    omega
  · have h2 : ((x + r) % (2 * r + 1) + (r + 1)) % (2 * r + 1) = (x + r) % (2 * r + 1) + (r + 1) :=
      Nat.mod_eq_of_lt (by omega)
    rw [if_neg (by omega)]
    omega

theorem stackPointer_mod (r x : Nat) (d : Int) (hd : d = 2 * (r : Int) + 1) :
    (if (((x + r) % (2 * r + 1) : Nat) : Int) + 1 ≥ d then 0
      else (((x + r) % (2 * r + 1) : Nat) : Int) + 1) =
      (((x + 1 + r) % (2 * r + 1) : Nat) : Int) := by
  have hq : (x + r) % (2 * r + 1) < 2 * r + 1 := Nat.mod_lt _ (by omega)
  have h1 : ((x + r) % (2 * r + 1) + 1) % (2 * r + 1) = (x + 1 + r) % (2 * r + 1) := by
    rw [Nat.mod_add_mod]
    have e : x + r + 1 = x + 1 + r := by omega
    rw [e]
  rw [hd]
  by_cases hc : (x + r) % (2 * r + 1) + 1 = 2 * r + 1
  · rw [hc, Nat.mod_self] at h1
    rw [if_pos (by omega)]
    omega
  · rw [Nat.mod_eq_of_lt (by omega)] at h1
    rw [if_neg (by omega)]
    omega

theorem linePixel_getElem? (px : List Nat) (b s m j : Nat) (hfit : b + m * s < px.length)
    (hj : j ≤ m) : px[b + j * s]? = some (linePixel px b s j) := by
  have hjs : j * s ≤ m * s := Nat.mul_le_mul_right s hj
  have hlt : b + j * s < px.length := by omega
  unfold linePixel
  rw [List.getElem?_eq_getElem hlt, List.getD_eq_getElem _ _ hlt]

/-! ## The seeding loop in closed form -/

theorem seedSums_step (sv : SharedValues) (stride nMax : Int) (b s m r : Nat) (px : List Nat)
    (g : LineGeom sv stride nMax b s m r px.length) (lead : Locals → Int)
    (weight : Int → Int) (leadPos : Nat → Nat)
    (hleadPos : ∀ (k : Nat) (v : Locals),
      v.inIndex = ((b + min (k - 1) m * s : Nat) : Int) →
        lead v = ((b + leadPos k * s : Nat) : Int))
    (k : Nat) (v : Locals) (hk : k < r + 1) (hst : v.blurStack.length = 2 * r + 1)
    (h : SeedSums px b s m r (windowPixel px b s m r leadPos) weight k v) :
    SeedSums px b s m r (windowPixel px b s m r leadPos) weight (k + 1)
      (seedNext sv stride nMax lead weight (k : Int) v) := by
  obtain ⟨hpx, hin, hlow, hhigh, hsum⟩ := h
  have hs := g.stride_eq
  have hm := g.nMax_eq
  have hr := g.radius_eq
  have hl := hleadPos k v hin
  have hP : v.imagePixels.getD (lead v).toNat 0 = windowPixel px b s m r leadPos k := by
    rw [hpx, hl, Int.toNat_ofNat]
    unfold windowPixel
    rw [if_pos (by omega)]
    rfl
  refine ⟨by rw [seedNext_imagePixels]; exact hpx, ?_⟩
  cases k with
  | zero =>
    obtain ⟨estack, ein, ech⟩ := seedNext_of_zero sv stride nMax lead weight ((0 : Nat) : Int) v
      (by omega)
    rw [hP] at estack ech
    refine ⟨?_, ?_, ?_, ?_⟩
    · rw [ein, hin]
    · intro t ht
      have e : t = 0 := by omega
      subst e
      rw [estack]
      exact List.getElem?_set_self (by rw [hst]; omega)
    · intro t h1 h2
      omega
    · intro ch hch
      obtain ⟨c1, c2, c3⟩ := ech ch hch
      obtain ⟨s1, s2, s3⟩ := hsum ch hch
      rw [c1, c2, c3, s1, s2, s3]
      simp
      ring
  | succ k =>
    obtain ⟨estack, ein, ech⟩ := seedNext_of_pos sv stride nMax lead weight ((k + 1 : Nat) : Int) v
      (by omega)
    have hI : (if ((k + 1 : Nat) : Int) ≤ nMax then v.inIndex + stride else v.inIndex) =
        ((b + min (k + 1) m * s : Nat) : Int) := by
      rw [hin, hm, hs]
      have e0 : k + 1 - 1 = k := by omega
      rw [e0]
      by_cases hc : k + 1 ≤ m
      · rw [if_pos (by omega), Nat.min_eq_left (by omega), Nat.min_eq_left hc]
        push_cast
        ring
      · rw [if_neg (by omega), Nat.min_eq_right (by omega), Nat.min_eq_right (by omega)]
    have hP2 : v.imagePixels.getD
        (if ((k + 1 : Nat) : Int) ≤ nMax then v.inIndex + stride else v.inIndex).toNat 0 =
        windowPixel px b s m r leadPos (r + (k + 1)) := by
      rw [hI, hpx, Int.toNat_ofNat]
      unfold windowPixel
      rw [if_neg (by omega), Nat.add_sub_cancel_left]
      rfl
    rw [hP, hP2] at estack ech
    have et1 : (((k + 1 : Nat) : Int)).toNat = k + 1 := Int.toNat_ofNat _
    have et2 : (((k + 1 : Nat) : Int) + sv.blurRadius).toNat = r + (k + 1) := by
      rw [hr]; omega
    rw [et1, et2] at estack
    refine ⟨?_, ?_, ?_, ?_⟩
    · rw [ein, hI]
      rfl
    · intro t ht
      rw [estack, List.getElem?_set_ne (by omega)]
      by_cases e : t = k + 1
      · subst e
        exact List.getElem?_set_self (by rw [hst]; omega)
      · rw [List.getElem?_set_ne (by omega)]
        exact hlow t (by omega)
    · intro t h1 h2
      rw [estack]
      by_cases e : t = r + (k + 1)
      · subst e
        exact List.getElem?_set_self (by rw [List.length_set, hst]; omega)
      · rw [List.getElem?_set_ne (by omega), List.getElem?_set_ne (by omega)]
        exact hhigh t h1 (by omega)
    · intro ch hch
      obtain ⟨c1, c2, c3⟩ := ech ch hch
      obtain ⟨s1, s2, s3⟩ := hsum ch hch
      have e0 : k + 1 - 1 = k := by omega
      have e1 : k + 1 + 1 - 1 = k + 1 := by omega
      have e2 : r + 1 + k = r + (k + 1) := by omega
      rw [e0] at s2 s3
      rw [c1, c2, c3, s1, s2, s3, e1]
      refine ⟨?_, ?_, ?_⟩
      · rw [Finset.sum_range_succ (fun i => ch.value (windowPixel px b s m r leadPos i)) (k + 1)]
      · rw [Finset.sum_range_succ
          (fun i => ch.value (windowPixel px b s m r leadPos (r + 1 + i))) k, e2]
      · rw [Finset.sum_range_succ
          (fun i => weight (i : Int) * ch.value (windowPixel px b s m r leadPos i)) (k + 1),
          Finset.sum_range_succ (fun i => ((r : Int) - (i : Int)) *
            ch.value (windowPixel px b s m r leadPos (r + 1 + i))) k, e2, hr]
        push_cast
        ring

theorem seedSums_start (px : List Nat) (b s m r : Nat) (win : Nat → Nat) (weight : Int → Int)
    (v : Locals) (hpx : v.imagePixels = px) :
    SeedSums px b s m r win weight 0 (lineStart (b : Int) v) := by
  refine ⟨hpx, by simp [lineStart], fun t ht => absurd ht (by omega),
    fun t h1 h2 => absurd h2 (by omega), ?_⟩
  intro ch hch
  rcases hch with rfl | rfl | rfl <;> simp [lineStart, redChannel, greenChannel, blueChannel]

/-! ## The scanning loop in closed form -/

theorem scanSums_step (sv : SharedValues) (stride nMax : Int) (b s m r : Nat) (hs0 : 0 < s)
    (A : List Nat) (g : LineGeom sv stride nMax b s m r A.length) (px : List Nat)
    (leadPos : Nat → Nat) (weight : Int → Int) (x : Nat) (v : Locals) (hx : x ≤ m)
    (hinv : ScanInv b s m r A x v)
    (h : ScanSums px b s m r (windowPixel px b s m r leadPos) weight
      (lineOutput sv px b s m r leadPos weight) x v) :
    ScanSums px b s m r (windowPixel px b s m r leadPos) weight
      (lineOutput sv px b s m r leadPos weight) (x + 1) (scanNext sv stride nMax v) := by
  obtain ⟨hA, hst, -, -, hout, j, hj, hoff, hinI⟩ := hinv
  obtain ⟨hdone, hrest, hwin⟩ := h
  obtain ⟨hoffx, hspx, hcells, hsum⟩ := hwin hx
  have hs := g.stride_eq
  have hm := g.nMax_eq
  have hr := g.radius_eq
  have hd := g.divisor_eq
  have hfit := g.fits
  have hlenv : v.imagePixels.length = A.length := by rw [← hA, List.length_map]
  have hxs : x * s ≤ m * s := Nat.mul_le_mul_right s hx
  have hne : ∀ j1 : Nat, j1 ≠ x → b + x * s ≠ b + j1 * s := by
    intro j1 h1 h2
    exact h1 (Nat.eq_of_mul_eq_mul_right hs0 (by omega)).symm
  -- the pixel written at position `x`
  have hold : v.imagePixels.getD v.outIndex.toNat 0 = linePixel px b s x := by
    rw [hout, Int.toNat_ofNat]
    exact getD_eq_of_getElem?_eq _ _ _ _ (hrest x (le_refl x) hx)
  have hwritten : (scanNext sv stride nMax v).imagePixels =
      v.imagePixels.set (b + x * s) (lineOutput sv px b s m r leadPos weight x) := by
    rw [scanNext_imagePixels, hold, hout, Int.toNat_ofNat]
    have h1 : v.sumRed = lineTotal red (windowPixel px b s m r leadPos) weight r x :=
      (hsum redChannel (Or.inl rfl)).2.2
    have h2 : v.sumGreen = lineTotal green (windowPixel px b s m r leadPos) weight r x :=
      (hsum greenChannel (Or.inr (Or.inl rfl))).2.2
    have h3 : v.sumBlue = lineTotal blue (windowPixel px b s m r leadPos) weight r x :=
      (hsum blueChannel (Or.inr (Or.inr rfl))).2.2
    rw [h1, h2, h3]
    rfl
  have hrest1 : ∀ j1 : Nat, x + 1 ≤ j1 → j1 ≤ m →
      (scanNext sv stride nMax v).imagePixels[b + j1 * s]? = px[b + j1 * s]? := by
    intro j1 h1 h2
    rw [hwritten, List.getElem?_set_ne (hne j1 (by omega))]
    exact hrest j1 (by omega) h2
  refine ⟨?_, hrest1, ?_⟩
  · intro j1 h1 h2
    rw [hwritten]
    by_cases e : j1 = x
    · subst e
      exact List.getElem?_set_self (by omega)
    · rw [List.getElem?_set_ne (hne j1 e)]
      exact hdone j1 (by omega) h2
  · intro hx1
    have hjx : j = min (x + r) m := by
      have := hoff.symm.trans hoffx
      exact_mod_cast this
    -- the cursor
    have hoff1 : (scanNext sv stride nMax v).offset = ((min (x + 1 + r) m : Nat) : Int) := by
      rw [scanNext_offset, hoffx, hm]
      by_cases hc : x + r < m
      · rw [if_pos (by omega)]; omega
      · rw [if_neg (by omega)]; omega
    have hin1 : (scanNext sv stride nMax v).inIndex =
        ((b + min (x + 1 + r) m * s : Nat) : Int) := by
      rw [scanNext_inIndex, hoffx, hm, hinI, hs, hjx]
      by_cases hc : x + r < m
      · rw [if_pos (by omega), Nat.min_eq_left (by omega), Nat.min_eq_left (by omega)]
        push_cast
        ring
      · rw [if_neg (by omega), Nat.min_eq_right (by omega), Nat.min_eq_right (by omega)]
    -- the pixel read
    have hpix : scanPixel sv stride nMax v =
        windowPixel px b s m r leadPos (x + (2 * r + 1)) := by
      unfold scanPixel
      rw [hin1, Int.toNat_ofNat]
      have h1 := hrest1 (min (x + 1 + r) m) (by omega) (by omega)
      rw [getD_eq_of_getElem?_eq _ _ _ _ h1]
      unfold windowPixel
      rw [if_neg (by omega)]
      have e : x + (2 * r + 1) - r = x + 1 + r := by omega
      rw [e]
      rfl
    -- the stack
    have hstart : (stackStartOf sv v.stackPointer).toNat = x % (2 * r + 1) := by
      rw [hspx, stackStartOf_mod sv r x hr hd, Int.toNat_ofNat]
    have hmodlt : x % (2 * r + 1) < v.blurStack.length := by
      rw [hst]; exact Nat.mod_lt _ (by omega)
    have hcells1 : ∀ t : Nat, x + 1 ≤ t → t ≤ x + 1 + 2 * r →
        (scanNext sv stride nMax v).blurStack[t % (2 * r + 1)]? =
          some (windowPixel px b s m r leadPos t) := by
      intro t h1 h2
      rw [scanNext_blurStack, hstart, hpix]
      by_cases e : t = x + (2 * r + 1)
      · subst e
        rw [Nat.add_mod_right]
        exact List.getElem?_set_self hmodlt
      · rw [List.getElem?_set_ne (fun hc => mod_ne_of_within (2 * r + 1) x t (by omega)
          (by omega) hc.symm)]
        exact hcells t (by omega) (by omega)
    have hsp1 : (scanNext sv stride nMax v).stackPointer =
        (((x + 1 + r) % (2 * r + 1) : Nat) : Int) := by
      rw [scanNext_stackPointer, hspx]
      exact stackPointer_mod r x sv.divisor hd
    have hleave : scanLeaving sv v = windowPixel px b s m r leadPos x := by
      unfold scanLeaving
      rw [hstart, List.getD_eq_getElem?_getD, hcells x (le_refl x) (by omega)]
      rfl
    have hstackpix : scanStackPixel sv stride nMax v =
        windowPixel px b s m r leadPos (x + (r + 1)) := by
      unfold scanStackPixel
      rw [hsp1, Int.toNat_ofNat, List.getD_eq_getElem?_getD,
        hcells1 (x + 1 + r) (by omega) (by omega)]
      have e : x + 1 + r = x + (r + 1) := by omega
      rw [e]
      rfl
    refine ⟨hoff1, hsp1, hcells1, ?_⟩
    intro ch hch
    obtain ⟨c1, c2, c3⟩ := scanNext_channel sv stride nMax v ch hch
    obtain ⟨s1, s2, s3⟩ := hsum ch hch
    have hg : (fun i => ch.value (windowPixel px b s m r leadPos (x + 1 + i))) =
        fun i => (fun i => ch.value (windowPixel px b s m r leadPos (x + i))) (i + 1) := by
      funext i
      have e : x + 1 + i = x + (i + 1) := by omega
      rw [e]
    have e1 : leavingSum (fun i => ch.value (windowPixel px b s m r leadPos (x + 1 + i))) r =
        leavingSum (fun i => ch.value (windowPixel px b s m r leadPos (x + i))) r -
          ch.value (windowPixel px b s m r leadPos x) +
          ch.value (windowPixel px b s m r leadPos (x + (r + 1))) := by
      rw [hg]
      exact leavingSum_shift (fun i => ch.value (windowPixel px b s m r leadPos (x + i))) r
    have e2 : enteringSum (fun i => ch.value (windowPixel px b s m r leadPos (x + 1 + i))) r =
        enteringSum (fun i => ch.value (windowPixel px b s m r leadPos (x + i))) r +
          ch.value (windowPixel px b s m r leadPos (x + (2 * r + 1))) -
          ch.value (windowPixel px b s m r leadPos (x + (r + 1))) := by
      rw [hg]
      exact enteringSum_shift (fun i => ch.value (windowPixel px b s m r leadPos (x + i))) r
    have e3 : triangleSum (fun i => ch.value (windowPixel px b s m r leadPos (x + 1 + i))) r =
        triangleSum (fun i => ch.value (windowPixel px b s m r leadPos (x + i))) r -
          leavingSum (fun i => ch.value (windowPixel px b s m r leadPos (x + i))) r +
          (enteringSum (fun i => ch.value (windowPixel px b s m r leadPos (x + i))) r +
            ch.value (windowPixel px b s m r leadPos (x + (2 * r + 1)))) := by
      rw [hg]
      exact triangleSum_shift (fun i => ch.value (windowPixel px b s m r leadPos (x + i))) r
    rw [c1, c2, c3, s1, s2, s3, hleave, hstackpix, hpix]
    unfold lineTotal
    rw [e1, e2, e3]
    refine ⟨rfl, rfl, ?_⟩
    ring

/-- Rule for one scanline, or for the seeding loop and the first `n` iterations of the
scanning loop, with a property of the locals for every iteration of the seeding loop and
one for every iteration of the scanning loop. -/
theorem lineRun_steps (sv : SharedValues) (stride nMax : Int) (b s m r : Nat) (A : List Nat)
    (g : LineGeom sv stride nMax b s m r A.length) (lead : Locals → Int) (weight : Int → Int)
    (hlead : ∀ v : Locals, (∃ j : Nat, j ≤ m ∧ v.inIndex = ((b + j * s : Nat) : Int)) →
      ∃ j : Nat, j ≤ m ∧ lead v = ((b + j * s : Nat) : Int))
    (Qseed Qscan : Nat → Locals → Prop)
    (hseed : ∀ (k : Nat) (v : Locals), k < r + 1 → v.blurStack.length = 2 * r + 1 →
      Qseed k v → Qseed (k + 1) (seedNext sv stride nMax lead weight (k : Int) v))
    (hmid : ∀ v : Locals, v.blurStack.length = 2 * r + 1 → Qseed (r + 1) v →
      Qscan 0 (scanStart sv stride nMax (b : Int) v))
    (hscan : ∀ (x : Nat) (v : Locals), x ≤ m → ScanInv b s m r A x v → Qscan x v →
      Qscan (x + 1) (scanNext sv stride nMax v))
    (n : Nat) (hn : n ≤ m + 1)
    (v : Locals) (hinv : JobInv r A v) (hQ : Qseed 0 (lineStart (b : Int) v)) :
    ∃ v1, lineRun sv stride nMax lead weight (b : Int) n v = .ok v1 ∧
      JobInv r A v1 ∧ Qscan n v1 := by
  obtain ⟨hmap, hst⟩ := hinv
  have hs := g.stride_eq
  have hm := g.nMax_eq
  have hr := g.radius_eq
  have hlenpx : v.imagePixels.length = A.length := by rw [← hmap, List.length_map]
  have g1 : LineGeom sv stride nMax b s m r v.imagePixels.length := by
    rw [hlenpx]; exact g
  have hcount : (sv.blurRadius + 1).toNat = r + 1 := by rw [hr]; omega
  unfold lineRun
  rw [hcount]
  obtain ⟨v1, hv1, ⟨hpx1, hst1, -⟩, hQ1⟩ := forRange_inv
    (lineSeed sv stride nMax lead weight)
    (fun k u => SeedInv b s m r v.imagePixels k u ∧ Qseed k u) 0 (r + 1)
    (fun k u hk hu => by
      obtain ⟨u1, hu1, hinv1⟩ := lineSeed_step sv stride nMax b s m r v.imagePixels g1
        lead weight hlead k u hk hu.1
      refine ⟨u1, hu1, hinv1, ?_⟩
      have e := lineSeed_eq_seedNext _ _ _ _ _ _ _ _ hu1
      rw [e]
      have hk0 : (0 : Int) + (k : Int) = (k : Int) := by omega
      rw [hk0]
      exact hseed k u hk hu.1.2.1 hu.2)
    (r + 1) 0 (lineStart (b : Int) v) (by omega)
    ⟨⟨rfl, hst, 0, by omega, by omega, by simp [lineStart]⟩, hQ⟩
  simp only [Nat.cast_zero, add_zero] at hv1
  refine bind_ok_of hv1 ?_
  have hmin : min sv.blurRadius nMax = ((min r m : Nat) : Int) := by
    rw [hr, hm]; omega
  obtain ⟨v3, hv3, ⟨hA3, hst3, -⟩, hQ3⟩ := forRange_inv (lineScan sv stride nMax)
    (fun x u => ScanInv b s m r A x u ∧ Qscan x u) 0 n
    (fun x u hx hu => by
      obtain ⟨u1, hu1, hinv1⟩ := lineScan_step sv stride nMax b s m r A g _ x u (by omega) hu.1
      refine ⟨u1, hu1, hinv1, ?_⟩
      rw [lineScan_eq_scanNext _ _ _ _ _ _ hu1]
      exact hscan x u (by omega) hu.1 hu.2)
    n 0 (scanStart sv stride nMax (b : Int) v1) (by omega)
    ⟨⟨by simp only [scanStart]; rw [hpx1]; exact hmap, hst1,
      by simp only [scanStart]; omega, by simp only [scanStart]; omega,
      by simp only [scanStart]; omega,
      min r m, by omega, by simp only [scanStart]; exact hmin,
      by simp only [scanStart]; rw [hmin, hs]; push_cast; ring⟩, hmid v1 hst1 hQ1⟩
  simp only [Nat.cast_zero, add_zero] at hv3
  exact ⟨v3, hv3, ⟨hA3, hst3⟩, hQ3⟩

theorem scanSums_start (sv : SharedValues) (stride nMax : Int) (b s m r len : Nat)
    (g : LineGeom sv stride nMax b s m r len) (px : List Nat) (win : Nat → Nat)
    (weight : Int → Int) (out : Nat → Nat) (v : Locals)
    (h : SeedSums px b s m r win weight (r + 1) v) :
    ScanSums px b s m r win weight out 0 (scanStart sv stride nMax (b : Int) v) := by
  obtain ⟨hpx, -, hlow, hhigh, hsum⟩ := h
  have hm := g.nMax_eq
  have hr := g.radius_eq
  refine ⟨fun j hj => absurd hj (by omega), fun j _ _ => by simp only [scanStart]; rw [hpx], ?_⟩
  intro _
  refine ⟨?_, ?_, ?_, ?_⟩
  · simp only [scanStart]
    rw [hr, hm]
    omega
  · simp only [scanStart]
    rw [hr, Nat.zero_add, Nat.mod_eq_of_lt (by omega)]
  · intro t _ ht
    simp only [scanStart]
    rw [Nat.mod_eq_of_lt (by omega)]
    by_cases hc : t < r + 1
    · exact hlow t hc
    · exact hhigh t (by omega) (by omega)
  · intro ch hch
    obtain ⟨s1, s2, s3⟩ := hsum ch hch
    have e1 : ch.leaving (scanStart sv stride nMax (b : Int) v) = ch.leaving v := by
      rcases hch with rfl | rfl | rfl <;> rfl
    have e2 : ch.entering (scanStart sv stride nMax (b : Int) v) = ch.entering v := by
      rcases hch with rfl | rfl | rfl <;> rfl
    have e3 : ch.total (scanStart sv stride nMax (b : Int) v) = ch.total v := by
      rcases hch with rfl | rfl | rfl <;> rfl
    have e0 : r + 1 - 1 = r := by omega
    rw [e0] at s2 s3
    rw [e1, e2, e3, s1, s2, s3]
    unfold leavingSum enteringSum lineTotal seedBias triangleSum
    simp only [Nat.zero_add]
    refine ⟨trivial, trivial, ?_⟩
    have e4 : ∑ i in Finset.range (r + 1), (weight (i : Int) - ((i : Int) + 1)) * ch.value (win i) +
        ∑ i in Finset.range (r + 1), ((i : Int) + 1) * ch.value (win i) =
        ∑ i in Finset.range (r + 1), weight (i : Int) * ch.value (win i) := by
      rw [← Finset.sum_add_distrib]
      exact Finset.sum_congr rfl (fun i _ => by ring)
    linarith

/-- One scanline ends without a fault and stores `lineOutput`, computed from the buffer
before the scanline, at every position of the scanline. -/
theorem lineRun_outputs (sv : SharedValues) (stride nMax : Int) (b s m r : Nat) (hs0 : 0 < s)
    (A : List Nat) (g : LineGeom sv stride nMax b s m r A.length) (lead : Locals → Int)
    (weight : Int → Int)
    (hlead : ∀ v : Locals, (∃ j : Nat, j ≤ m ∧ v.inIndex = ((b + j * s : Nat) : Int)) →
      ∃ j : Nat, j ≤ m ∧ lead v = ((b + j * s : Nat) : Int))
    (leadPos : Nat → Nat)
    (hleadPos : ∀ (k : Nat) (v : Locals),
      v.inIndex = ((b + min (k - 1) m * s : Nat) : Int) →
        lead v = ((b + leadPos k * s : Nat) : Int))
    (v : Locals) (hinv : JobInv r A v) :
    ∃ v1, lineRun sv stride nMax lead weight (b : Int) (m + 1) v = .ok v1 ∧
      JobInv r A v1 ∧
      ∀ j : Nat, j ≤ m →
        v1.imagePixels[b + j * s]? =
          some (lineOutput sv v.imagePixels b s m r leadPos weight j) := by
  have hlenpx : v.imagePixels.length = A.length := by rw [← hinv.1, List.length_map]
  have g1 : LineGeom sv stride nMax b s m r v.imagePixels.length := by
    rw [hlenpx]; exact g
  obtain ⟨v1, hv1, hJ, hQ⟩ := lineRun_steps sv stride nMax b s m r A g lead weight hlead
    (SeedSums v.imagePixels b s m r (windowPixel v.imagePixels b s m r leadPos) weight)
    (ScanSums v.imagePixels b s m r (windowPixel v.imagePixels b s m r leadPos) weight
      (lineOutput sv v.imagePixels b s m r leadPos weight))
    (fun k u hk hst hu => seedSums_step sv stride nMax b s m r v.imagePixels g1 lead weight
      leadPos hleadPos k u hk hst hu)
    (fun u _ hu => scanSums_start sv stride nMax b s m r _ g v.imagePixels _ weight _ u hu)
    (fun x u hx hsc hu => scanSums_step sv stride nMax b s m r hs0 A g v.imagePixels leadPos
      weight x u hx hsc hu)
    (m + 1) (le_refl _) v hinv (seedSums_start v.imagePixels b s m r _ weight v rfl)
  exact ⟨v1, hv1, hJ, fun j hj => hQ.1 j (by omega) hj⟩

/-- The seeding loop and the iterations of the scanning loop before position `x`: they
end without a fault with the write cursor at position `x` and, in every channel, with
the total sum `lineTotal` of the buffer before the scanline. -/
theorem lineRun_totals (sv : SharedValues) (stride nMax : Int) (b s m r : Nat) (hs0 : 0 < s)
    (A : List Nat) (g : LineGeom sv stride nMax b s m r A.length) (lead : Locals → Int)
    (weight : Int → Int)
    (hlead : ∀ v : Locals, (∃ j : Nat, j ≤ m ∧ v.inIndex = ((b + j * s : Nat) : Int)) →
      ∃ j : Nat, j ≤ m ∧ lead v = ((b + j * s : Nat) : Int))
    (leadPos : Nat → Nat)
    (hleadPos : ∀ (k : Nat) (v : Locals),
      v.inIndex = ((b + min (k - 1) m * s : Nat) : Int) →
        lead v = ((b + leadPos k * s : Nat) : Int))
    (v : Locals) (hinv : JobInv r A v) (x : Nat) (hx : x ≤ m) :
    ∃ v1, lineRun sv stride nMax lead weight (b : Int) x v = .ok v1 ∧
      v1.outIndex = ((b + x * s : Nat) : Int) ∧
      ∀ ch : Channel, IsChannel ch →
        ch.total v1 = lineTotal ch.value (windowPixel v.imagePixels b s m r leadPos) weight r x := by
  have hlenpx : v.imagePixels.length = A.length := by rw [← hinv.1, List.length_map]
  have g1 : LineGeom sv stride nMax b s m r v.imagePixels.length := by
    rw [hlenpx]; exact g
  obtain ⟨v1, hv1, -, hsc, hQ⟩ := lineRun_steps sv stride nMax b s m r A g lead weight hlead
    (SeedSums v.imagePixels b s m r (windowPixel v.imagePixels b s m r leadPos) weight)
    (fun x u => ScanInv b s m r A x u ∧
      ScanSums v.imagePixels b s m r (windowPixel v.imagePixels b s m r leadPos) weight
        (lineOutput sv v.imagePixels b s m r leadPos weight) x u)
    (fun k u hk hst hu => seedSums_step sv stride nMax b s m r v.imagePixels g1 lead weight
      leadPos hleadPos k u hk hst hu)
    (fun u hst hu => ⟨by
        have hm := g.nMax_eq
        have hr := g.radius_eq
        have hs := g.stride_eq
        have hmin : min sv.blurRadius nMax = ((min r m : Nat) : Int) := by
          rw [hr, hm]; omega
        refine ⟨by simp only [scanStart]; rw [hu.1]; exact hinv.1, hst,
          by simp only [scanStart]; omega, by simp only [scanStart]; omega,
          by simp only [scanStart]; omega,
          min r m, by omega, by simp only [scanStart]; exact hmin,
          by simp only [scanStart]; rw [hmin, hs]; push_cast; ring⟩,
      scanSums_start sv stride nMax b s m r _ g v.imagePixels _ weight _ u hu⟩)
    (fun x u hx hsc hu => ⟨(lineScan_step sv stride nMax b s m r A g 0 x u hx hsc).elim
        (fun u1 hu1 => by
          rw [← lineScan_eq_scanNext _ _ _ _ _ _ hu1.1]
          exact hu1.2),
      scanSums_step sv stride nMax b s m r hs0 A g v.imagePixels leadPos weight x u hx hsc hu.2⟩)
    x (by omega) v hinv (seedSums_start v.imagePixels b s m r _ weight v rfl)
  exact ⟨v1, hv1, hsc.2.2.2.2.1, fun ch hch => ((hQ.2.2 hx).2.2.2 ch hch).2.2⟩

/-! ## The output of a job in closed form -/

theorem windowPixel_congr (px1 px2 : List Nat) (b s m r : Nat) (leadPos : Nat → Nat)
    (hle : ∀ t : Nat, leadPos t ≤ m) (hag : LinesAgree b b s m px1 px2) :
    windowPixel px1 b s m r leadPos = windowPixel px2 b s m r leadPos := by
  have hline : ∀ j : Nat, j ≤ m → linePixel px1 b s j = linePixel px2 b s j :=
    fun j hj => getD_eq_of_getElem?_eq _ _ _ _ (hag j hj)
  funext t
  unfold windowPixel
  by_cases ht : t ≤ r
  · rw [if_pos ht, if_pos ht]
    exact hline _ (hle t)
  · rw [if_neg ht, if_neg ht]
    exact hline _ (Nat.min_le_right _ _)

theorem lineOutput_congr (sv : SharedValues) (px1 px2 : List Nat) (b s m r : Nat)
    (leadPos : Nat → Nat) (weight : Int → Int) (hle : ∀ t : Nat, leadPos t ≤ m)
    (hag : LinesAgree b b s m px1 px2) (x : Nat) (hx : x ≤ m) :
    lineOutput sv px1 b s m r leadPos weight x = lineOutput sv px2 b s m r leadPos weight x := by
  have hline : linePixel px1 b s x = linePixel px2 b s x :=
    getD_eq_of_getElem?_eq _ _ _ _ (hag x hx)
  unfold lineOutput
  rw [windowPixel_congr px1 px2 b s m r leadPos hle hag, hline]

/-- A row job ends without a fault and stores in every row `y` of its band the pixels
`lineOutput` of that row of the buffer before the job, with the first read of every
seeding iteration at position 0 and the multiplier `rad - 1`. -/
theorem processingRow_outputs (sv : SharedValues) (r w h : Nat) (hv : Valid sv r w h)
    (imagePixels : List Nat) (hlen : imagePixels.length = w * h) (startRow endRow : Int)
    (h0 : 0 ≤ startRow) (h1 : endRow ≤ (h : Int) - 1)
    (y : Nat) (hy0 : startRow ≤ (y : Int)) (hy1 : (y : Int) ≤ endRow) :
    ∃ out, processingRow sv imagePixels startRow endRow = .ok out ∧
      ∀ j : Nat, j < w →
        out[y * w + j]? = some (lineOutput sv imagePixels (y * w) 1 (w - 1) r (fun _ => 0)
          (fun rad => rad - 1) j) := by
  have hd := hv.divisor_eq
  have hw := hv.width_pos
  obtain ⟨v, hv1, ⟨-, -, hdone⟩⟩ := forRange_inv (processingRowLine sv)
    (fun k v => JobInv r (imagePixels.map alpha) v ∧
      (∀ i : Nat, startRow + (k : Int) ≤ ((i / w : Nat) : Int) →
        v.imagePixels[i]? = imagePixels[i]?) ∧
      ((y : Int) < startRow + (k : Int) → ∀ j : Nat, j < w →
        v.imagePixels[y * w + j]? = some (lineOutput sv imagePixels (y * w) 1 (w - 1) r
          (fun _ => 0) (fun rad => rad - 1) j)))
    startRow (endRow + 1 - startRow).toNat
    (fun k u hk hu => by
      obtain ⟨hJ, hkeep, hdone⟩ := hu
      have hrow0 : 0 ≤ startRow + (k : Int) := by omega
      have hrow1 : startRow + (k : Int) ≤ (h : Int) - 1 := by omega
      obtain ⟨ρ, hρ⟩ := Int.eq_ofNat_of_zero_le hrow0
      have hfit : ρ * w + (w - 1) * 1 < (imagePixels.map alpha).length := by
        rw [List.length_map, hlen]
        have h2 : (ρ + 1) * w ≤ h * w := Nat.mul_le_mul_right w (by omega)
        have h3 : (ρ + 1) * w = ρ * w + w := by ring
        have h4 : h * w = w * h := Nat.mul_comm h w
        omega
      have g : LineGeom sv 1 sv.widthMax (ρ * w) 1 (w - 1) r (imagePixels.map alpha).length :=
        ⟨by simp, by rw [hv.widthMax_eq]; omega, hv.blurRadius_eq, by rw [hd]; ring, hfit⟩
      have hb : (startRow + (k : Int)) * sv.targetWidth = ((ρ * w : Nat) : Int) := by
        rw [hv.targetWidth_eq, hρ]; push_cast; ring
      have hcount : sv.targetWidth.toNat = w - 1 + 1 := by rw [hv.targetWidth_eq]; omega
      obtain ⟨u1, hu1, hJ1, hout⟩ := lineRun_outputs sv 1 sv.widthMax (ρ * w) 1 (w - 1) r
        (by omega) _ g (fun _ => ((ρ * w : Nat) : Int)) (fun rad => rad - 1)
        (fun _ _ => ⟨0, by omega, by simp⟩) (fun _ => 0) (fun _ _ _ => by simp) u hJ
      obtain ⟨u2, hu2, -, hfr⟩ := lineRun_frame sv 1 sv.widthMax (ρ * w) 1 (w - 1) r _ g
        (fun _ => ((ρ * w : Nat) : Int)) (fun rad => rad - 1)
        (fun _ _ => ⟨0, by omega, by simp⟩) u hJ
      rw [hu1] at hu2
      cases hu2
      have hoff : ∀ i : Nat, i / w ≠ ρ → ∀ j : Nat, j ≤ w - 1 → i ≠ ρ * w + j * 1 := by
        intro i hi j hj hij
        apply hi
        rw [hij, Nat.mul_one, Nat.mul_comm ρ w, Nat.mul_add_div hw, Nat.div_eq_of_lt (by omega)]
        omega
      have hdivy : ∀ j : Nat, j < w → (y * w + j) / w = y := by
        intro j hj
        rw [Nat.mul_comm y w, Nat.mul_add_div hw, Nat.div_eq_of_lt hj]
        omega
      refine ⟨u1, ?_, hJ1, ?_, ?_⟩
      · rw [processingRowLine_eq_lineRun, hb, hcount]
        exact hu1
      · intro i hi
        rw [hfr i (hoff i (by omega))]
        exact hkeep i (by omega)
      · intro hy j hj
        by_cases hyρ : y = ρ
        · subst hyρ
          have h2 := hout j (by omega)
          rw [Nat.mul_one] at h2
          rw [h2]
          congr 1
          apply lineOutput_congr sv _ _ _ _ _ _ _ _ (fun _ => Nat.zero_le _) ?_ j (by omega)
          intro j1 hj1
          rw [Nat.mul_one]
          exact hkeep _ (by rw [hdivy j1 (by omega)]; omega)
        · rw [hfr _ (hoff _ (by rw [hdivy j hj]; exact hyρ))]
          exact hdone (by push_cast at hy ⊢; omega) j hj)
    (endRow + 1 - startRow).toNat 0
    (initLocals imagePixels (List.replicate sv.divisor.toNat 0))
    (by omega)
    ⟨⟨rfl, by simp only [initLocals, List.length_replicate]; omega⟩, fun _ _ => rfl,
      fun hy => absurd hy (by push_cast; omega)⟩
  simp only [Nat.cast_zero, add_zero] at hv1
  refine ⟨v.imagePixels, processingRow_of_loop sv imagePixels startRow endRow v (by omega) hv1, ?_⟩
  exact hdone (by omega)

/-- A column job ends without a fault and stores in every column `c` of its band the
pixels `lineOutput` of that column of the buffer before the job, with the first read of
the seeding iteration `rad` at position `min (rad - 1) heightMax` and the multiplier
`rad + 1`. -/
theorem processingColumn_outputs (sv : SharedValues) (r w h : Nat) (hv : Valid sv r w h)
    (imagePixels : List Nat) (hlen : imagePixels.length = w * h) (startColumn endColumn : Int)
    (h0 : 0 ≤ startColumn) (h1 : endColumn ≤ (w : Int) - 1)
    (c : Nat) (hc0 : startColumn ≤ (c : Int)) (hc1 : (c : Int) ≤ endColumn) :
    ∃ out, processingColumn sv imagePixels startColumn endColumn = .ok out ∧
      ∀ j : Nat, j < h →
        out[c + j * w]? = some (lineOutput sv imagePixels c w (h - 1) r
          (fun t => min (t - 1) (h - 1)) (fun rad => rad + 1) j) := by
  have hd := hv.divisor_eq
  have hw := hv.width_pos
  have hh := hv.height_pos
  have hcw : c < w := by omega
  obtain ⟨v, hv1, ⟨-, -, hdone⟩⟩ := forRange_inv (processingColumnLine sv)
    (fun k v => JobInv r (imagePixels.map alpha) v ∧
      (∀ i : Nat, startColumn + (k : Int) ≤ ((i % w : Nat) : Int) →
        v.imagePixels[i]? = imagePixels[i]?) ∧
      ((c : Int) < startColumn + (k : Int) → ∀ j : Nat, j < h →
        v.imagePixels[c + j * w]? = some (lineOutput sv imagePixels c w (h - 1) r
          (fun t => min (t - 1) (h - 1)) (fun rad => rad + 1) j)))
    startColumn (endColumn + 1 - startColumn).toNat
    (fun k u hk hu => by
      obtain ⟨hJ, hkeep, hdone⟩ := hu
      have hcol0 : 0 ≤ startColumn + (k : Int) := by omega
      have hcol1 : startColumn + (k : Int) ≤ (w : Int) - 1 := by omega
      obtain ⟨γ, hγ⟩ := Int.eq_ofNat_of_zero_le hcol0
      have hfit : γ + (h - 1) * w < (imagePixels.map alpha).length := by
        rw [List.length_map, hlen]
        have h2 : (h - 1 + 1) * w = (h - 1) * w + w := by ring
        have h3 : h - 1 + 1 = h := by omega
        rw [h3] at h2
        have h4 : h * w = w * h := Nat.mul_comm h w
        omega
      have g : LineGeom sv sv.targetWidth sv.heightMax γ w (h - 1) r
          (imagePixels.map alpha).length :=
        ⟨hv.targetWidth_eq, by rw [hv.heightMax_eq]; omega, hv.blurRadius_eq,
          by rw [hd]; ring, hfit⟩
      have hcount : sv.targetHeight.toNat = h - 1 + 1 := by rw [hv.targetHeight_eq]; omega
      obtain ⟨u1, hu1, hJ1, hout⟩ := lineRun_outputs sv sv.targetWidth sv.heightMax γ w (h - 1) r
        hw _ g (fun v => v.inIndex) (fun rad => rad + 1) (fun _ hj => hj)
        (fun t => min (t - 1) (h - 1)) (fun _ _ hin => hin) u hJ
      obtain ⟨u2, hu2, -, hfr⟩ := lineRun_frame sv sv.targetWidth sv.heightMax γ w (h - 1) r _ g
        (fun v => v.inIndex) (fun rad => rad + 1) (fun _ hj => hj) u hJ
      rw [hu1] at hu2
      cases hu2
      have hoff : ∀ i : Nat, i % w ≠ γ → ∀ j : Nat, j ≤ h - 1 → i ≠ γ + j * w := by
        intro i hi j hj hij
        apply hi
        rw [hij, Nat.add_mul_mod_self_right, Nat.mod_eq_of_lt (by omega)]
      have hmody : ∀ j : Nat, (c + j * w) % w = c := by
        intro j
        rw [Nat.add_mul_mod_self_right, Nat.mod_eq_of_lt hcw]
      refine ⟨u1, ?_, hJ1, ?_, ?_⟩
      · rw [processingColumnLine_eq_lineRun, hγ, hcount]
        exact hu1
      · intro i hi
        rw [hfr i (hoff i (by omega))]
        exact hkeep i (by omega)
      · intro hy j hj
        by_cases hcγ : c = γ
        · subst hcγ
          rw [hout j (by omega)]
          congr 1
          apply lineOutput_congr sv _ _ _ _ _ _ _ _ (fun _ => Nat.min_le_right _ _) ?_ j
            (by omega)
          intro j1 hj1
          exact hkeep _ (by rw [hmody j1]; omega)
        · rw [hfr _ (hoff _ (by rw [hmody j]; exact hcγ))]
          exact hdone (by push_cast at hy ⊢; omega) j hj)
    (endColumn + 1 - startColumn).toNat 0
    (initLocals imagePixels (List.replicate sv.divisor.toNat 0))
    (by omega)
    ⟨⟨rfl, by simp only [initLocals, List.length_replicate]; omega⟩, fun _ _ => rfl,
      fun hy => absurd hy (by push_cast; omega)⟩
  simp only [Nat.cast_zero, add_zero] at hv1
  refine ⟨v.imagePixels,
    processingColumn_of_loop sv imagePixels startColumn endColumn v (by omega) hv1, ?_⟩
  exact hdone (by omega)

/-! ## The window of a row and the convolution of the specification -/

theorem specClamp_toNat (t r m : Nat) :
    (specClamp ((t : Int) - (r : Int)) (m : Int)).toNat = min (t - r) m := by
  unfold specClamp
  split_ifs <;> omega

theorem triangleSum_row (f : Nat → Int) (px : List Nat) (b m r x : Nat) :
    triangleSum (fun i => f (windowPixel px b 1 m r (fun _ => 0) (x + i))) r =
      specWeightedSum r (fun j => f (px.getD (b + j.toNat) 0)) (x : Int) (m : Int) := by
  have hwin : ∀ t : Nat, windowPixel px b 1 m r (fun _ => 0) t =
      px.getD (b + (specClamp ((t : Int) - (r : Int)) (m : Int)).toNat) 0 := by
    intro t
    rw [specClamp_toNat]
    unfold windowPixel linePixel
    by_cases ht : t ≤ r
    · rw [if_pos ht]
      have e : t - r = 0 := by omega
      rw [e, Nat.zero_min]
      show px.getD (b + 0 * 1) 0 = _
      rw [Nat.zero_mul]
    · rw [if_neg ht, Nat.mul_one]
  unfold triangleSum specWeightedSum
  have e : 2 * r + 1 = (r + 1) + r := by omega
  rw [e, Finset.sum_range_add _ (r + 1) r]
  congr 1
  · apply Finset.sum_congr rfl
    intro i hi
    have hi1 : i < r + 1 := Finset.mem_range.mp hi
    beta_reduce
    rw [hwin]
    have e1 : |(i : Int) - (r : Int)| = (r : Int) - (i : Int) := by
      rw [abs_of_nonpos (by omega)]
      ring
    have e2 : ((x + i : Nat) : Int) - (r : Int) = (x : Int) + (i : Int) - (r : Int) := by
      push_cast; ring
    rw [e1, e2]
    ring
  · apply Finset.sum_congr rfl
    intro i _
    beta_reduce
    rw [hwin]
    have e1 : |((r + 1 + i : Nat) : Int) - (r : Int)| = (i : Int) + 1 := by
      rw [abs_of_nonneg (by push_cast; omega)]
      push_cast
      ring
    have e2 : ((x + (r + 1 + i) : Nat) : Int) - (r : Int) =
        (x : Int) + ((r + 1 + i : Nat) : Int) - (r : Int) := by
      push_cast; ring
    rw [e1, e2]
    ring

theorem seedBias_row (f : Nat → Int) (px : List Nat) (b m r : Nat) :
    seedBias (fun i => f (windowPixel px b 1 m r (fun _ => 0) i)) (fun rad => rad - 1) r =
      -(2 * ((r : Int) + 1) * f (px.getD b 0)) := by
  unfold seedBias
  have h : ∀ i ∈ Finset.range (r + 1),
      ((i : Int) - 1 - ((i : Int) + 1)) * f (windowPixel px b 1 m r (fun _ => 0) i) =
        -2 * f (px.getD b 0) := by
    intro i hi
    have hi1 : i < r + 1 := Finset.mem_range.mp hi
    unfold windowPixel linePixel
    rw [if_pos (by omega)]
    simp only [Nat.zero_mul, Nat.add_zero]
    ring
  rw [Finset.sum_congr rfl h, Finset.sum_const, Finset.card_range]
  simp only [nsmul_eq_mul]
  push_cast
  ring

/-- The total sum of a channel in a row: the convolution of the specification less
`2 * (r + 1)` times the channel of the first pixel of the row. -/
theorem lineTotal_row (f : Nat → Int) (px : List Nat) (b m r x : Nat) :
    lineTotal f (windowPixel px b 1 m r (fun _ => 0)) (fun rad => rad - 1) r x =
      specWeightedSum r (fun j => f (px.getD (b + j.toNat) 0)) (x : Int) (m : Int) -
        2 * ((r : Int) + 1) * f (px.getD b 0) := by
  unfold lineTotal
  rw [seedBias_row, triangleSum_row]
  ring

theorem red_blurredPixel (old : Nat) (sumRed sumGreen sumBlue multiplySum shiftSum : Int) :
    red (blurredPixel old sumRed sumGreen sumBlue multiplySum shiftSum) =
      ((sumRed * multiplySum) >>> shiftSum.toNat) % 256 := by
  unfold red blurredPixel
  rw [pack_red old _ _ _ (outChannel_lt _ _ _) (outChannel_lt _ _ _) (outChannel_lt _ _ _)]
  unfold outChannel lowByte
  omega

theorem green_blurredPixel (old : Nat) (sumRed sumGreen sumBlue multiplySum shiftSum : Int) :
    green (blurredPixel old sumRed sumGreen sumBlue multiplySum shiftSum) =
      ((sumGreen * multiplySum) >>> shiftSum.toNat) % 256 := by
  unfold green blurredPixel
  rw [pack_green old _ _ _ (outChannel_lt _ _ _) (outChannel_lt _ _ _)]
  unfold outChannel lowByte
  omega

theorem blue_blurredPixel (old : Nat) (sumRed sumGreen sumBlue multiplySum shiftSum : Int) :
    blue (blurredPixel old sumRed sumGreen sumBlue multiplySum shiftSum) =
      ((sumBlue * multiplySum) >>> shiftSum.toNat) % 256 := by
  unfold blue blurredPixel
  rw [pack_blue old _ _ _ (outChannel_lt _ _ _)]
  unfold outChannel lowByte
  omega

/-! ## Uniform scanlines -/

/-- With the tables of the source the fixed-point division of `c * (r + 1) ^ 2` gives
`c` back, for every radius up to 254 and every channel value `c`. -/
theorem outChannel_exact (r : Nat) (hr : r ≤ 254) (c : Int) (h0 : 0 ≤ c) (h1 : c ≤ 255) :
    outChannel (c * ((r : Int) + 1) ^ 2) (MUL_TABLE.getD r 0) (SHR_TABLE.getD r 0) =
      c.toNat := by
  have hok := tableEntryOk_all r (by omega)
  unfold tableEntryOk at hok
  obtain ⟨hm0, hs0, hle, hlt⟩ := of_decide_eq_true hok
  obtain ⟨n, rfl⟩ := Int.eq_ofNat_of_zero_le h0
  obtain ⟨m, hm⟩ := Int.eq_ofNat_of_zero_le hm0
  rw [hm] at hle hlt ⊢
  rw [Int.toNat_ofNat] at hle hlt ⊢
  have hn : n ≤ 255 := by exact_mod_cast h1
  obtain ⟨e, he⟩ : ∃ e, m * (r + 1) ^ 2 = 2 ^ (SHR_TABLE.getD r 0).toNat + e :=
    ⟨m * (r + 1) ^ 2 - 2 ^ (SHR_TABLE.getD r 0).toNat, by omega⟩
  have he2 : 255 * e < 2 ^ (SHR_TABLE.getD r 0).toNat := by
    have : m * (r + 1) ^ 2 - 2 ^ (SHR_TABLE.getD r 0).toNat = e := by omega
    rw [this] at hlt
    exact hlt
  have hne : n * e < 2 ^ (SHR_TABLE.getD r 0).toNat :=
    lt_of_le_of_lt (Nat.mul_le_mul_right e hn) he2
  have hdiv : n * (r + 1) ^ 2 * m / 2 ^ (SHR_TABLE.getD r 0).toNat = n := by
    have e1 : n * (r + 1) ^ 2 * m = n * e + 2 ^ (SHR_TABLE.getD r 0).toNat * n := by
      have : n * (r + 1) ^ 2 * m = n * (m * (r + 1) ^ 2) := by ring
      rw [this, he]
      ring
    rw [e1, Nat.add_mul_div_left _ _ (by positivity), Nat.div_eq_of_lt hne]
    omega
  have e1 : ((n : Int) * ((r : Int) + 1) ^ 2 * (m : Int)) >>> (SHR_TABLE.getD r 0).toNat =
      ((n * (r + 1) ^ 2 * m / 2 ^ (SHR_TABLE.getD r 0).toNat : Nat) : Int) := by
    rw [Int.shiftRight_eq_div_pow]
    push_cast
    rfl
  unfold outChannel lowByte
  rw [e1, hdiv]
  omega

theorem testBit_of_lt_two_pow_32 (p : Nat) (hp : p < 2 ^ 32) (i : Nat) (hi : 32 ≤ i) :
    p.testBit i = false :=
  Nat.testBit_eq_false_of_lt (lt_of_lt_of_le hp (Nat.pow_le_pow_right (by omega) hi))

/-- A 32-bit pixel is its alpha byte and its three channels. -/
theorem pack_self (p : Nat) (hp : p < 2 ^ 32) :
    (p &&& 0xff000000) ||| (((p >>> 16) &&& 0xff) <<< 16) ||| (((p >>> 8) &&& 0xff) <<< 8) |||
      (p &&& 0xff) = p := by
  apply Nat.eq_of_testBit_eq
  intro i
  simp only [Nat.testBit_and, Nat.testBit_shiftRight, Nat.testBit_or, Nat.testBit_shiftLeft,
    testBit_alphaMask, testBit_byteMask]
  by_cases h1 : i < 8
  · have n8 : ¬ 8 ≤ i := by omega
    have n16 : ¬ 16 ≤ i := by omega
    have n24 : ¬ 24 ≤ i := by omega
    simp [h1, n8, n16, n24]
  · by_cases h2 : i < 16
    · have e : 8 + (i - 8) = i := by omega
      have h3 : i - 8 < 8 := by omega
      have n16 : ¬ 16 ≤ i := by omega
      have n24 : ¬ 24 ≤ i := by omega
      have h5 : 8 ≤ i := by omega
      simp [h1, h3, n16, n24, h5, e]
    · by_cases h3 : i < 24
      · have e : 16 + (i - 16) = i := by omega
        have h4 : i - 16 < 8 := by omega
        have h5 : ¬ i - 8 < 8 := by omega
        have h6 : 16 ≤ i := by omega
        have h7 : 8 ≤ i := by omega
        have n24 : ¬ 24 ≤ i := by omega
        simp [h1, h4, h5, h6, h7, n24, e]
      · by_cases h4 : i < 32
        · have h5 : ¬ i - 16 < 8 := by omega
          have h6 : ¬ i - 8 < 8 := by omega
          have h7 : 24 ≤ i := by omega
          simp [h1, h4, h5, h6, h7]
        · have h5 := testBit_of_lt_two_pow_32 p hp i (by omega)
          have h6 : ¬ i - 16 < 8 := by omega
          have h7 : ¬ i - 8 < 8 := by omega
          simp [h1, h4, h5, h6, h7]

theorem blurredPixel_self (p : Nat) (hp : p < 2 ^ 32)
    (sumRed sumGreen sumBlue multiplySum shiftSum : Int)
    (hR : outChannel sumRed multiplySum shiftSum = (red p).toNat)
    (hG : outChannel sumGreen multiplySum shiftSum = (green p).toNat)
    (hB : outChannel sumBlue multiplySum shiftSum = (blue p).toNat) :
    blurredPixel p sumRed sumGreen sumBlue multiplySum shiftSum = p := by
  unfold blurredPixel
  rw [hR, hG, hB]
  unfold red green blue
  simp only [Int.toNat_ofNat]
  exact pack_self p hp

theorem channel_bounds (p : Nat) :
    (0 ≤ red p ∧ red p ≤ 255) ∧ (0 ≤ green p ∧ green p ≤ 255) ∧ (0 ≤ blue p ∧ blue p ≤ 255) := by
  have h : ∀ q : Nat, q &&& 0xff ≤ 255 := fun q => Nat.and_le_right
  unfold red green blue
  have h1 := h (p >>> 16)
  have h2 := h (p >>> 8)
  have h3 := h p
  omega

/-- The total sum of a channel whose value is `c` at every coordinate of the window,
with the multiplier `rad + 1`. -/
theorem lineTotal_uniform (f : Nat → Int) (win : Nat → Nat) (c : Int) (r x : Nat)
    (h : ∀ t : Nat, f (win t) = c) :
    lineTotal f win (fun rad => rad + 1) r x = c * ((r : Int) + 1) ^ 2 := by
  unfold lineTotal seedBias
  have e1 : (fun i => f (win (x + i))) = fun _ => c := funext fun i => h (x + i)
  rw [e1, triangleSum_const]
  have e2 : ∀ i ∈ Finset.range (r + 1), ((i : Int) + 1 - ((i : Int) + 1)) * f (win i) = 0 :=
    fun i _ => by ring
  rw [Finset.sum_congr rfl e2]
  simp

/-! ## The window after the seeding loop -/

/-- The seeding loop of a scanline ends without a fault in the state `SeedSums` of its
last iteration. -/
theorem seedLoop_sums (sv : SharedValues) (stride nMax : Int) (b s m r : Nat) (px : List Nat)
    (g : LineGeom sv stride nMax b s m r px.length) (lead : Locals → Int)
    (weight : Int → Int)
    (hlead : ∀ v : Locals, (∃ j : Nat, j ≤ m ∧ v.inIndex = ((b + j * s : Nat) : Int)) →
      ∃ j : Nat, j ≤ m ∧ lead v = ((b + j * s : Nat) : Int))
    (leadPos : Nat → Nat)
    (hleadPos : ∀ (k : Nat) (v : Locals),
      v.inIndex = ((b + min (k - 1) m * s : Nat) : Int) →
        lead v = ((b + leadPos k * s : Nat) : Int))
    (v : Locals) (hpx : v.imagePixels = px) (hst : v.blurStack.length = 2 * r + 1) :
    ∃ v1, forRange (lineSeed sv stride nMax lead weight) (r + 1) 0 (lineStart (b : Int) v) =
        .ok v1 ∧
      SeedSums px b s m r (windowPixel px b s m r leadPos) weight (r + 1) v1 := by
  obtain ⟨v1, hv1, -, hQ1⟩ := forRange_inv
    (lineSeed sv stride nMax lead weight)
    (fun k u => SeedInv b s m r px k u ∧
      SeedSums px b s m r (windowPixel px b s m r leadPos) weight k u) 0 (r + 1)
    (fun k u hk hu => by
      obtain ⟨u1, hu1, hinv1⟩ := lineSeed_step sv stride nMax b s m r px g
        lead weight hlead k u hk hu.1
      refine ⟨u1, hu1, hinv1, ?_⟩
      have e := lineSeed_eq_seedNext _ _ _ _ _ _ _ _ hu1
      rw [e]
      have hk0 : (0 : Int) + (k : Int) = (k : Int) := by omega
      rw [hk0]
      exact seedSums_step sv stride nMax b s m r px g lead weight leadPos hleadPos k u hk
        hu.1.2.1 hu.2)
    (r + 1) 0 (lineStart (b : Int) v) (by omega)
    ⟨⟨hpx, hst, 0, by omega, by omega, by simp [lineStart]⟩,
      seedSums_start px b s m r _ weight v hpx⟩
  simp only [Nat.cast_zero, add_zero] at hv1
  exact ⟨v1, hv1, hQ1⟩

/-! ## The claims, concluded -/

/-- C21: in every run of lines 400-418, at any moment at which a job of the column
phase is queued, running or ended, every job of the row phase has ended; and once the
calling thread has left the last loop, every job of the column phase has ended. -/
theorem phase_barrier (availableThreads : Nat) (events : List Event) (s : BlurRun)
    (hrun : blurSchedule availableThreads events (BlurRun.start availableThreads) = some s) :
    (∀ job : BlurJob, job ∈ s.pool.jobs_ ∨ job ∈ s.running ∨ job ∈ s.finished →
      job.phase = .column →
      ∀ i : Nat, i < availableThreads →
        ({ phase := .row, index := i } : BlurJob) ∈ s.finished) ∧
    (s.pc = .returned →
      ∀ i : Nat, i < availableThreads →
        ({ phase := .column, index := i } : BlurJob) ∈ s.finished) := by
  have hinv := barrierInv_schedule availableThreads events _ s
    (barrierInv_start availableThreads) hrun
  refine ⟨fun job hjob hcol => barrierInv_column availableThreads s hinv job hjob hcol, ?_⟩
  intro hpc
  unfold BarrierInv at hinv
  rw [hpc] at hinv
  exact hinv.2

/-- C21, witness: a run with two workers in which the two row jobs overlap, then the two
column jobs overlap, up to the return of the calling thread. -/
theorem phase_barrier_witness :
    (blurSchedule 2
      [.main, .take, .main, .take, .main, .finish { phase := .row, index := 1 },
        .finish { phase := .row, index := 0 }, .main, .main, .main,
        .main, .take, .main, .take, .main, .finish { phase := .column, index := 1 },
        .finish { phase := .column, index := 0 }, .main, .main, .main, .main, .main]
      (BlurRun.start 2)).map (fun s => s.finished) =
      some [{ phase := .column, index := 0 }, { phase := .column, index := 1 },
        { phase := .row, index := 0 }, { phase := .row, index := 1 }] ∧
    ({ phase := .column, index := 1 } : BlurJob) ∈
      [({ phase := .column, index := 0 } : BlurJob), { phase := .column, index := 1 },
        { phase := .row, index := 0 }, { phase := .row, index := 1 }] :=
  ⟨rfl, (phase_barrier 2
    [.main, .take, .main, .take, .main, .finish { phase := .row, index := 1 },
      .finish { phase := .row, index := 0 }, .main, .main, .main,
      .main, .take, .main, .take, .main, .finish { phase := .column, index := 1 },
      .finish { phase := .column, index := 0 }, .main, .main, .main, .main, .main]
    { pc := .returned, pool := ThreadPool.create 2,
      futures := [{ job := { phase := .row, index := 0 } }, { job := { phase := .row, index := 1 } },
        { job := { phase := .column, index := 0 } }, { job := { phase := .column, index := 1 } }],
      running := [],
      finished := [{ phase := .column, index := 0 }, { phase := .column, index := 1 },
        { phase := .row, index := 0 }, { phase := .row, index := 1 }] }
    rfl).2 rfl 1 (by decide)⟩

/-- C22, the claim as it stands fails: at radius 1 on the row with blue 1, 2 the seeding
loop of `processingRow` leaves the window 1, 1, 2, so that slot 1 holds the pixel of
column 0 and not that of column `min 1 widthMax = 1`; the leaving sum is 2 and not 3,
and the total is 1 and not 7. -/
theorem processingRowSeed_slot_one_holds_first_pixel :
    (forRange (processingRowSeed (newSharedValues 1 2 1 512 11) 0) 2 0
      (lineStart 0 (initLocals [0xFF000001, 0xFF000002] [0, 0, 0]))).map
      (fun v => (v.blurStack, v.sumBlue, v.sumOutputBlue, v.sumInputBlue)) =
      .ok ([0xFF000001, 0xFF000001, 0xFF000002], 1, 2, 2) := by
  decide

/-- C22, amended: after the seeding loop of `processingRow` for the row `y`, started
from the locals of lines 135-138, every slot `k` in `0 .. r` of the window holds the
first pixel of the row, which was added to the leaving sum once per slot; the slot
`r + k` for `k` in `1 .. r` holds the pixel at column `min k widthMax`, which was added
to the entering sum with weight 1 and to the total with weight `r + 1 - k`; the rest of
the total is a multiple of the channel of the first pixel. -/
theorem processingRowSeed_window (r w h : Nat) (multiplySum shiftSum : Int) (v : Locals)
    (y : Nat) (hw : 0 < w) (hy : y < h) (hlen : v.imagePixels.length = w * h)
    (hst : v.blurStack.length = 2 * r + 1) :
    ∃ (bias : Int) (v1 : Locals),
      forRange (processingRowSeed (newSharedValues r w h multiplySum shiftSum)
        (((y * w : Nat) : Int)))
        ((newSharedValues r w h multiplySum shiftSum).blurRadius + 1).toNat 0
        (lineStart ((y * w : Nat) : Int) v) = .ok v1 ∧
      v1.imagePixels = v.imagePixels ∧
      (∀ k : Nat, k ≤ r → v1.blurStack[k]? = some (v.imagePixels.getD (y * w) 0)) ∧
      (∀ k : Nat, 1 ≤ k → k ≤ r →
        v1.blurStack[r + k]? = some (v.imagePixels.getD (y * w + min k (w - 1)) 0)) ∧
      v1.sumOutputRed = ((r : Int) + 1) * red (v.imagePixels.getD (y * w) 0) ∧
      v1.sumOutputGreen = ((r : Int) + 1) * green (v.imagePixels.getD (y * w) 0) ∧
      v1.sumOutputBlue = ((r : Int) + 1) * blue (v.imagePixels.getD (y * w) 0) ∧
      v1.sumInputRed = ∑ k in Finset.range r,
        red (v.imagePixels.getD (y * w + min (k + 1) (w - 1)) 0) ∧
      v1.sumInputGreen = ∑ k in Finset.range r,
        green (v.imagePixels.getD (y * w + min (k + 1) (w - 1)) 0) ∧
      v1.sumInputBlue = ∑ k in Finset.range r,
        blue (v.imagePixels.getD (y * w + min (k + 1) (w - 1)) 0) ∧
      v1.sumRed = bias * red (v.imagePixels.getD (y * w) 0) +
        ∑ k in Finset.range r, ((r : Int) + 1 - ((k : Int) + 1)) *
          red (v.imagePixels.getD (y * w + min (k + 1) (w - 1)) 0) ∧
      v1.sumGreen = bias * green (v.imagePixels.getD (y * w) 0) +
        ∑ k in Finset.range r, ((r : Int) + 1 - ((k : Int) + 1)) *
          green (v.imagePixels.getD (y * w + min (k + 1) (w - 1)) 0) ∧
      v1.sumBlue = bias * blue (v.imagePixels.getD (y * w) 0) +
        ∑ k in Finset.range r, ((r : Int) + 1 - ((k : Int) + 1)) *
          blue (v.imagePixels.getD (y * w + min (k + 1) (w - 1)) 0) := by
  have hfit : y * w + (w - 1) * 1 < v.imagePixels.length := by
    rw [hlen]
    have h2 : (y + 1) * w ≤ h * w := Nat.mul_le_mul_right w (by omega)
    have h3 : (y + 1) * w = y * w + w := by ring
    have h4 : h * w = w * h := Nat.mul_comm h w
    omega
  have g : LineGeom (newSharedValues r w h multiplySum shiftSum) 1
      (newSharedValues r w h multiplySum shiftSum).widthMax (y * w) 1 (w - 1) r
      v.imagePixels.length :=
    ⟨by simp, by show (w : Int) - 1 = _; omega, rfl, by show (r : Int) * 2 + 1 = _; ring, hfit⟩
  obtain ⟨v1, hv1, hpx1, -, hlow, hhigh, hsum⟩ := seedLoop_sums _ 1 _ (y * w) 1 (w - 1) r
    v.imagePixels g (fun _ => ((y * w : Nat) : Int)) (fun rad => rad - 1)
    (fun _ _ => ⟨0, by omega, by simp⟩) (fun _ => 0) (fun _ _ _ => by simp) v rfl hst
  have hcount : ((newSharedValues r w h multiplySum shiftSum).blurRadius + 1).toNat = r + 1 := by
    show ((r : Int) + 1).toNat = r + 1
    omega
  have hwlow : ∀ t : Nat, t ≤ r →
      windowPixel v.imagePixels (y * w) 1 (w - 1) r (fun _ => 0) t =
        v.imagePixels.getD (y * w) 0 := by
    intro t ht
    unfold windowPixel linePixel
    rw [if_pos ht]
    show v.imagePixels.getD (y * w + 0 * 1) 0 = _
    rw [Nat.zero_mul, Nat.add_zero]
  have hwhigh : ∀ k : Nat, 1 ≤ k →
      windowPixel v.imagePixels (y * w) 1 (w - 1) r (fun _ => 0) (r + k) =
        v.imagePixels.getD (y * w + min k (w - 1)) 0 := by
    intro k hk
    unfold windowPixel linePixel
    rw [if_neg (by omega), Nat.add_sub_cancel_left, Nat.mul_one]
  have hlead : ∀ (f : Nat → Int), ∑ i in Finset.range (r + 1),
      f (windowPixel v.imagePixels (y * w) 1 (w - 1) r (fun _ => 0) i) =
        ((r : Int) + 1) * f (v.imagePixels.getD (y * w) 0) := by
    intro f
    rw [Finset.sum_congr rfl (fun i hi => by
      rw [hwlow i (by have := Finset.mem_range.mp hi; omega)]), Finset.sum_const,
      Finset.card_range]
    simp only [nsmul_eq_mul]
    push_cast
    ring
  have henter : ∀ (f : Nat → Int), ∑ i in Finset.range r,
      f (windowPixel v.imagePixels (y * w) 1 (w - 1) r (fun _ => 0) (r + 1 + i)) =
        ∑ k in Finset.range r, f (v.imagePixels.getD (y * w + min (k + 1) (w - 1)) 0) := by
    intro f
    apply Finset.sum_congr rfl
    intro i _
    have e : r + 1 + i = r + (i + 1) := by omega
    rw [e, hwhigh (i + 1) (by omega)]
  have htotal : ∀ (f : Nat → Int),
      ∑ i in Finset.range (r + 1), ((i : Int) - 1) *
          f (windowPixel v.imagePixels (y * w) 1 (w - 1) r (fun _ => 0) i) +
        ∑ i in Finset.range r, ((r : Int) - (i : Int)) *
          f (windowPixel v.imagePixels (y * w) 1 (w - 1) r (fun _ => 0) (r + 1 + i)) =
      (∑ i in Finset.range (r + 1), ((i : Int) - 1)) * f (v.imagePixels.getD (y * w) 0) +
        ∑ k in Finset.range r, ((r : Int) + 1 - ((k : Int) + 1)) *
          f (v.imagePixels.getD (y * w + min (k + 1) (w - 1)) 0) := by
    intro f
    congr 1
    · rw [Finset.sum_mul]
      apply Finset.sum_congr rfl
      intro i hi
      rw [hwlow i (by have := Finset.mem_range.mp hi; omega)]
    · apply Finset.sum_congr rfl
      intro i _
      have e : r + 1 + i = r + (i + 1) := by omega
      rw [e, hwhigh (i + 1) (by omega)]
      ring
  obtain ⟨r1, r2, r3⟩ := hsum redChannel (Or.inl rfl)
  obtain ⟨g1, g2, g3⟩ := hsum greenChannel (Or.inr (Or.inl rfl))
  obtain ⟨b1, b2, b3⟩ := hsum blueChannel (Or.inr (Or.inr rfl))
  have e0 : r + 1 - 1 = r := by omega
  rw [e0] at r2 r3 g2 g3 b2 b3
  refine ⟨∑ i in Finset.range (r + 1), ((i : Int) - 1), v1, ?_, hpx1, ?_, ?_,
    r1.trans (hlead red), g1.trans (hlead green), b1.trans (hlead blue),
    r2.trans (henter red), g2.trans (henter green), b2.trans (henter blue),
    r3.trans (htotal red), g3.trans (htotal green), b3.trans (htotal blue)⟩
  · rw [hcount, processingRowSeed_eq_lineSeed]
    exact hv1
  · intro k hk
    rw [hlow k (by omega), hwlow k hk]
  · intro k hk1 hk2
    rw [hhigh (r + k) (by omega) (by omega), hwhigh k hk1]

/-- C22, witness: radius 1 on the row with blue 1, 2, from the locals of a job that
starts. -/
theorem processingRowSeed_window_witness :
    ∃ (bias : Int) (v1 : Locals),
      forRange (processingRowSeed (newSharedValues (1 : Nat) (2 : Nat) (1 : Nat) 512 11)
        (((0 * 2 : Nat) : Int)))
        ((newSharedValues (1 : Nat) (2 : Nat) (1 : Nat) 512 11).blurRadius + 1).toNat 0
        (lineStart ((0 * 2 : Nat) : Int)
          (initLocals [0xFF000001, 0xFF000002] [0, 0, 0])) = .ok v1 ∧
      v1.imagePixels = [0xFF000001, 0xFF000002] ∧
      (∀ k : Nat, k ≤ 1 →
        v1.blurStack[k]? = some ([0xFF000001, 0xFF000002].getD (0 * 2) 0)) ∧
      (∀ k : Nat, 1 ≤ k → k ≤ 1 →
        v1.blurStack[1 + k]? = some ([0xFF000001, 0xFF000002].getD (0 * 2 + min k (2 - 1)) 0)) ∧
      v1.sumOutputRed = (((1 : Nat) : Int) + 1) * red ([0xFF000001, 0xFF000002].getD (0 * 2) 0) ∧
      v1.sumOutputGreen =
        (((1 : Nat) : Int) + 1) * green ([0xFF000001, 0xFF000002].getD (0 * 2) 0) ∧
      v1.sumOutputBlue =
        (((1 : Nat) : Int) + 1) * blue ([0xFF000001, 0xFF000002].getD (0 * 2) 0) ∧
      v1.sumInputRed = ∑ k in Finset.range 1,
        red ([0xFF000001, 0xFF000002].getD (0 * 2 + min (k + 1) (2 - 1)) 0) ∧
      v1.sumInputGreen = ∑ k in Finset.range 1,
        green ([0xFF000001, 0xFF000002].getD (0 * 2 + min (k + 1) (2 - 1)) 0) ∧
      v1.sumInputBlue = ∑ k in Finset.range 1,
        blue ([0xFF000001, 0xFF000002].getD (0 * 2 + min (k + 1) (2 - 1)) 0) ∧
      v1.sumRed = bias * red ([0xFF000001, 0xFF000002].getD (0 * 2) 0) +
        ∑ k in Finset.range 1, (((1 : Nat) : Int) + 1 - ((k : Int) + 1)) *
          red ([0xFF000001, 0xFF000002].getD (0 * 2 + min (k + 1) (2 - 1)) 0) ∧
      v1.sumGreen = bias * green ([0xFF000001, 0xFF000002].getD (0 * 2) 0) +
        ∑ k in Finset.range 1, (((1 : Nat) : Int) + 1 - ((k : Int) + 1)) *
          green ([0xFF000001, 0xFF000002].getD (0 * 2 + min (k + 1) (2 - 1)) 0) ∧
      v1.sumBlue = bias * blue ([0xFF000001, 0xFF000002].getD (0 * 2) 0) +
        ∑ k in Finset.range 1, (((1 : Nat) : Int) + 1 - ((k : Int) + 1)) *
          blue ([0xFF000001, 0xFF000002].getD (0 * 2 + min (k + 1) (2 - 1)) 0) :=
  processingRowSeed_window 1 2 1 512 11 (initLocals [0xFF000001, 0xFF000002] [0, 0, 0]) 0
    (by decide) (by decide) (by decide) (by decide)

/-- C23: for every width, height and thread count `T`, each phase has `T` bands, band
`i + 1` starts one after the end of band `i`, the bands of a phase are pairwise disjoint,
the row bands lie in `0 .. height - 1` and the column bands in `0 .. width - 1`. -/
theorem bands_valid_and_disjoint (w h T : Nat) :
    (bands (Int.tdiv (h : Int) (T : Int)) T).length = T ∧
    (bands (Int.tdiv (w : Int) (T : Int)) T).length = T ∧
    (∀ i : Nat, i + 1 < T → ∃ a b : Int × Int,
      (bands (Int.tdiv (h : Int) (T : Int)) T)[i]? = some a ∧
      (bands (Int.tdiv (h : Int) (T : Int)) T)[i + 1]? = some b ∧ b.1 = a.2 + 1) ∧
    (∀ i : Nat, i + 1 < T → ∃ a b : Int × Int,
      (bands (Int.tdiv (w : Int) (T : Int)) T)[i]? = some a ∧
      (bands (Int.tdiv (w : Int) (T : Int)) T)[i + 1]? = some b ∧ b.1 = a.2 + 1) ∧
    (bands (Int.tdiv (h : Int) (T : Int)) T).Pairwise BandsDisjoint ∧
    (bands (Int.tdiv (w : Int) (T : Int)) T).Pairwise BandsDisjoint ∧
    (∀ b ∈ bands (Int.tdiv (h : Int) (T : Int)) T, 0 ≤ b.1 ∧ b.2 ≤ (h : Int) - 1) ∧
    (∀ b ∈ bands (Int.tdiv (w : Int) (T : Int)) T, 0 ≤ b.1 ∧ b.2 ≤ (w : Int) - 1) := by
  have hper : ∀ n : Nat, 0 ≤ Int.tdiv (n : Int) (T : Int) := fun n =>
    Int.tdiv_nonneg (by omega) (by omega)
  refine ⟨by simp [bands], by simp [bands], ?_, ?_, bands_pairwise _ _ (hper h),
    bands_pairwise _ _ (hper w), fun b hb => bands_inside h T b hb,
    fun b hb => bands_inside w T b hb⟩
  · intro i hi
    refine ⟨_, _, bands_getElem? _ _ i (by omega), bands_getElem? _ _ (i + 1) hi, ?_⟩
    push_cast
    ring
  · intro i hi
    refine ⟨_, _, bands_getElem? _ _ i (by omega), bands_getElem? _ _ (i + 1) hi, ?_⟩
    push_cast
    ring

/-- C24: for any radius `r ≥ 0`, a buffer of `width * height` pixels, a row `y` of the
band and a column `x`: from any locals in which row `y` still holds its original pixels,
the seeding loop and the first `x` iterations of the scanning loop of row `y` end with
the write cursor on `(y, x)` and with the three total sums
`W(y, x) - 2 * (r + 1) * c(y, 0)`, where `W` is the clamp-to-edge triangular sum of the
original channel values `c` of the row; and `processingRow` ends without a fault and
stores at `(y, x)` the value of the source expression of lines 188-191 for the old pixel
and these sums: each stored channel is `((sum * multiplySum) >> shiftSum) & 0xff`, the
shift rounding down also for a negative sum, and the alpha byte is the old one. -/
theorem processingRow_actual_output (r w h : Nat) (multiplySum shiftSum : Int)
    (imagePixels : List Nat) (startRow endRow : Int) (y x : Nat)
    (hw : 0 < w) (hh : 0 < h) (hlen : imagePixels.length = w * h)
    (hrows : 0 ≤ startRow ∧ endRow ≤ (h : Int) - 1)
    (hy : startRow ≤ (y : Int) ∧ (y : Int) ≤ endRow) (hx : x < w) :
    (∀ u : Locals, u.blurStack.length = 2 * r + 1 → u.imagePixels.length = w * h →
      (∀ j : Nat, j < w → u.imagePixels[y * w + j]? = imagePixels[y * w + j]?) →
      ∃ v, lineRun (newSharedValues r w h multiplySum shiftSum) 1
          (newSharedValues r w h multiplySum shiftSum).widthMax
          (fun _ => ((y * w : Nat) : Int)) (fun rad => rad - 1) ((y * w : Nat) : Int) x u =
            .ok v ∧
        v.outIndex = ((y * w + x : Nat) : Int) ∧
        v.sumRed = specWeightedSum r (fun j => red (imagePixels.getD (y * w + j.toNat) 0)) x
          ((w : Int) - 1) - 2 * ((r : Int) + 1) * red (imagePixels.getD (y * w) 0) ∧
        v.sumGreen = specWeightedSum r (fun j => green (imagePixels.getD (y * w + j.toNat) 0)) x
          ((w : Int) - 1) - 2 * ((r : Int) + 1) * green (imagePixels.getD (y * w) 0) ∧
        v.sumBlue = specWeightedSum r (fun j => blue (imagePixels.getD (y * w + j.toNat) 0)) x
          ((w : Int) - 1) - 2 * ((r : Int) + 1) * blue (imagePixels.getD (y * w) 0)) ∧
    ∃ out p, processingRow (newSharedValues r w h multiplySum shiftSum) imagePixels
        startRow endRow = .ok out ∧
      out[y * w + x]? = some p ∧
      p = blurredPixel (imagePixels.getD (y * w + x) 0)
        (specWeightedSum r (fun j => red (imagePixels.getD (y * w + j.toNat) 0)) x
          ((w : Int) - 1) - 2 * ((r : Int) + 1) * red (imagePixels.getD (y * w) 0))
        (specWeightedSum r (fun j => green (imagePixels.getD (y * w + j.toNat) 0)) x
          ((w : Int) - 1) - 2 * ((r : Int) + 1) * green (imagePixels.getD (y * w) 0))
        (specWeightedSum r (fun j => blue (imagePixels.getD (y * w + j.toNat) 0)) x
          ((w : Int) - 1) - 2 * ((r : Int) + 1) * blue (imagePixels.getD (y * w) 0))
        multiplySum shiftSum ∧
      red p = (((specWeightedSum r (fun j => red (imagePixels.getD (y * w + j.toNat) 0)) x
          ((w : Int) - 1) - 2 * ((r : Int) + 1) * red (imagePixels.getD (y * w) 0)) *
            multiplySum) >>> shiftSum.toNat) % 256 ∧
      green p = (((specWeightedSum r (fun j => green (imagePixels.getD (y * w + j.toNat) 0)) x
          ((w : Int) - 1) - 2 * ((r : Int) + 1) * green (imagePixels.getD (y * w) 0)) *
            multiplySum) >>> shiftSum.toNat) % 256 ∧
      blue p = (((specWeightedSum r (fun j => blue (imagePixels.getD (y * w + j.toNat) 0)) x
          ((w : Int) - 1) - 2 * ((r : Int) + 1) * blue (imagePixels.getD (y * w) 0)) *
            multiplySum) >>> shiftSum.toNat) % 256 ∧
      alpha p = alpha (imagePixels.getD (y * w + x) 0) := by
  have hv : Valid (newSharedValues r w h multiplySum shiftSum) r w h :=
    ⟨rfl, rfl, rfl, rfl, rfl, rfl, hw, hh⟩
  obtain ⟨out, ho, hout⟩ := processingRow_outputs _ r w h hv imagePixels hlen startRow endRow
    hrows.1 hrows.2 y hy.1 hy.2
  have hm : ((w - 1 : Nat) : Int) = (w : Int) - 1 := by omega
  have hyh : y < h := by omega
  refine ⟨?_, out, _, ho, hout x hx, ?_, ?_⟩
  · intro u hst hlenu hrow
    have hfit : y * w + (w - 1) * 1 < (u.imagePixels.map alpha).length := by
      rw [List.length_map, hlenu]
      have h2 : (y + 1) * w ≤ h * w := Nat.mul_le_mul_right w (by omega)
      have h3 : (y + 1) * w = y * w + w := by ring
      have h4 : h * w = w * h := Nat.mul_comm h w
      omega
    have g : LineGeom (newSharedValues r w h multiplySum shiftSum) 1
        (newSharedValues r w h multiplySum shiftSum).widthMax (y * w) 1 (w - 1) r
        (u.imagePixels.map alpha).length :=
      ⟨by simp, by show (w : Int) - 1 = _; omega, rfl, by show (r : Int) * 2 + 1 = _; ring, hfit⟩
    obtain ⟨v, hv1, hout1, htot⟩ := lineRun_totals _ 1 _ (y * w) 1 (w - 1) r (by omega) _ g
      (fun _ => ((y * w : Nat) : Int)) (fun rad => rad - 1)
      (fun _ _ => ⟨0, by omega, by simp⟩) (fun _ => 0) (fun _ _ _ => by simp) u ⟨rfl, hst⟩
      x (by omega)
    have hag : LinesAgree (y * w) (y * w) 1 (w - 1) u.imagePixels imagePixels := by
      intro j hj
      rw [Nat.mul_one]
      exact hrow j (by omega)
    rw [windowPixel_congr _ _ _ _ _ _ _ (fun _ => Nat.zero_le _) hag] at htot
    rw [Nat.mul_one] at hout1
    have t1 := htot redChannel (Or.inl rfl)
    have t2 := htot greenChannel (Or.inr (Or.inl rfl))
    have t3 := htot blueChannel (Or.inr (Or.inr rfl))
    rw [lineTotal_row, hm] at t1 t2 t3
    exact ⟨v, hv1, hout1, t1, t2, t3⟩
  · unfold lineOutput
    rw [lineTotal_row, lineTotal_row, lineTotal_row, hm]
    unfold linePixel
    rw [Nat.mul_one]
    rfl
  · unfold lineOutput
    rw [lineTotal_row, lineTotal_row, lineTotal_row, hm]
    unfold linePixel
    rw [Nat.mul_one]
    exact ⟨red_blurredPixel _ _ _ _ _ _, green_blurredPixel _ _ _ _ _ _,
      blue_blurredPixel _ _ _ _ _ _, alpha_blurredPixel _ _ _ _ _ _⟩

/-- C24, witness: radius 0 on the 1x1 buffer with blue 1, where the sum of the blue
channel is `1 - 2 = -1` and the stored blue is 255. -/
theorem processingRow_actual_output_witness :
    ∃ out p, processingRow (newSharedValues (0 : Nat) (1 : Nat) (1 : Nat) 512 9) [0xFF000001]
        0 0 = .ok out ∧
      out[0 * 1 + 0]? = some p ∧
      p = blurredPixel ([0xFF000001].getD (0 * 1 + 0) 0)
        (specWeightedSum 0 (fun j => red ([0xFF000001].getD (0 * 1 + j.toNat) 0)) (0 : Nat)
          (((1 : Nat) : Int) - 1) - 2 * (((0 : Nat) : Int) + 1) * red ([0xFF000001].getD (0 * 1) 0))
        (specWeightedSum 0 (fun j => green ([0xFF000001].getD (0 * 1 + j.toNat) 0)) (0 : Nat)
          (((1 : Nat) : Int) - 1) - 2 * (((0 : Nat) : Int) + 1) * green ([0xFF000001].getD (0 * 1) 0))
        (specWeightedSum 0 (fun j => blue ([0xFF000001].getD (0 * 1 + j.toNat) 0)) (0 : Nat)
          (((1 : Nat) : Int) - 1) - 2 * (((0 : Nat) : Int) + 1) * blue ([0xFF000001].getD (0 * 1) 0))
        512 9 ∧
      red p = (((specWeightedSum 0 (fun j => red ([0xFF000001].getD (0 * 1 + j.toNat) 0))
          (0 : Nat) (((1 : Nat) : Int) - 1) -
            2 * (((0 : Nat) : Int) + 1) * red ([0xFF000001].getD (0 * 1) 0)) *
            512) >>> (9 : Int).toNat) % 256 ∧
      green p = (((specWeightedSum 0 (fun j => green ([0xFF000001].getD (0 * 1 + j.toNat) 0))
          (0 : Nat) (((1 : Nat) : Int) - 1) -
            2 * (((0 : Nat) : Int) + 1) * green ([0xFF000001].getD (0 * 1) 0)) *
            512) >>> (9 : Int).toNat) % 256 ∧
      blue p = (((specWeightedSum 0 (fun j => blue ([0xFF000001].getD (0 * 1 + j.toNat) 0))
          (0 : Nat) (((1 : Nat) : Int) - 1) -
            2 * (((0 : Nat) : Int) + 1) * blue ([0xFF000001].getD (0 * 1) 0)) *
            512) >>> (9 : Int).toNat) % 256 ∧
      alpha p = alpha ([0xFF000001].getD (0 * 1 + 0) 0) :=
  (processingRow_actual_output 0 1 1 512 9 [0xFF000001] 0 0 0 0 (by decide) (by decide)
    (by decide) (by decide) (by decide) (by decide)).2

/-- C25: with the multiplier and the shift that the two 255-entry tables hold for a
radius `r ≤ 254`, the column job leaves every pixel of a column `x` of its band as it
was when the 32-bit pixels of that column all have the red, green and blue values of
its first pixel, whatever their alpha bytes and the other columns are. -/
theorem processingColumn_keeps_uniform_column (r w h : Nat) (imagePixels : List Nat)
    (startColumn endColumn : Int) (x : Nat)
    (hr : r ≤ 254) (hw : 0 < w) (hh : 0 < h) (hlen : imagePixels.length = w * h)
    (hcols : 0 ≤ startColumn ∧ endColumn ≤ (w : Int) - 1)
    (hx : startColumn ≤ (x : Int) ∧ (x : Int) ≤ endColumn)
    (h32 : ∀ y : Nat, y < h → imagePixels.getD (y * w + x) 0 < 2 ^ 32)
    (huni : ∀ y : Nat, y < h →
      red (imagePixels.getD (y * w + x) 0) = red (imagePixels.getD x 0) ∧
      green (imagePixels.getD (y * w + x) 0) = green (imagePixels.getD x 0) ∧
      blue (imagePixels.getD (y * w + x) 0) = blue (imagePixels.getD x 0)) :
    ∃ out, processingColumn
        (newSharedValues r w h (MUL_TABLE.getD r 0) (SHR_TABLE.getD r 0)) imagePixels
        startColumn endColumn = .ok out ∧
      ∀ y : Nat, y < h → out[y * w + x]? = imagePixels[y * w + x]? := by
  have hv : Valid (newSharedValues r w h (MUL_TABLE.getD r 0) (SHR_TABLE.getD r 0)) r w h :=
    ⟨rfl, rfl, rfl, rfl, rfl, rfl, hw, hh⟩
  obtain ⟨out, ho, hout⟩ := processingColumn_outputs _ r w h hv imagePixels hlen startColumn
    endColumn hcols.1 hcols.2 x hx.1 hx.2
  have hxw : x < w := by omega
  have hfit : x + (h - 1) * w < imagePixels.length := by
    rw [hlen]
    have h2 : (h - 1 + 1) * w = (h - 1) * w + w := by ring
    have h3 : h - 1 + 1 = h := by omega
    rw [h3] at h2
    have h4 : h * w = w * h := Nat.mul_comm h w
    omega
  have hline : ∀ j : Nat, linePixel imagePixels x w j = imagePixels.getD (j * w + x) 0 := by
    intro j
    unfold linePixel
    rw [Nat.add_comm]
  have hwin : ∀ t : Nat, ∃ j : Nat, j < h ∧
      windowPixel imagePixels x w (h - 1) r (fun t => min (t - 1) (h - 1)) t =
        imagePixels.getD (j * w + x) 0 := by
    intro t
    unfold windowPixel
    by_cases ht : t ≤ r
    · rw [if_pos ht]
      exact ⟨min (t - 1) (h - 1), by omega, hline _⟩
    · rw [if_neg ht]
      exact ⟨min (t - r) (h - 1), by omega, hline _⟩
  have htot : ∀ (f : Nat → Int),
      (∀ y : Nat, y < h → f (imagePixels.getD (y * w + x) 0) = f (imagePixels.getD x 0)) →
      ∀ y : Nat, lineTotal f
        (windowPixel imagePixels x w (h - 1) r (fun t => min (t - 1) (h - 1)))
        (fun rad => rad + 1) r y = f (imagePixels.getD x 0) * ((r : Int) + 1) ^ 2 := by
    intro f hf y
    apply lineTotal_uniform
    intro t
    obtain ⟨j, hj, e⟩ := hwin t
    rw [e]
    exact hf j hj
  refine ⟨out, ho, ?_⟩
  intro y hy
  have hidx : y * w + x = x + y * w := Nat.add_comm _ _
  rw [hidx, hout y hy, linePixel_getElem? imagePixels x w (h - 1) y hfit (by omega)]
  congr 1
  unfold lineOutput
  rw [htot red (fun j hj => (huni j hj).1), htot green (fun j hj => (huni j hj).2.1),
    htot blue (fun j hj => (huni j hj).2.2)]
  obtain ⟨⟨r0, r1⟩, ⟨g0, g1⟩, ⟨b0, b1⟩⟩ := channel_bounds (imagePixels.getD x 0)
  have hp := h32 y hy
  obtain ⟨u1, u2, u3⟩ := huni y hy
  rw [← hline y] at hp u1 u2 u3
  apply blurredPixel_self _ hp
  · rw [u1]
    exact outChannel_exact r hr _ r0 r1
  · rw [u2]
    exact outChannel_exact r hr _ g0 g1
  · rw [u3]
    exact outChannel_exact r hr _ b0 b1

/-- C25, witness: radius 1 on a 2x2 buffer whose first column has the colour 112233
with two different alpha bytes and whose second column is not uniform. -/
theorem processingColumn_keeps_uniform_column_witness :
    ∃ out, processingColumn
        (newSharedValues (1 : Nat) (2 : Nat) (2 : Nat) (MUL_TABLE.getD 1 0) (SHR_TABLE.getD 1 0))
        [0xFF112233, 0xFF000000, 0x80112233, 0xFFFFFFFF] 0 1 = .ok out ∧
      ∀ y : Nat, y < 2 →
        out[y * 2 + 0]? = [0xFF112233, 0xFF000000, 0x80112233, 0xFFFFFFFF][y * 2 + 0]? :=
  processingColumn_keeps_uniform_column 1 2 2 [0xFF112233, 0xFF000000, 0x80112233, 0xFFFFFFFF]
    0 1 0 (by decide) (by decide) (by decide) (by decide) (by decide) (by decide) (by decide)
    (by decide)

/-- C26: for a radius in `0 .. 254` and a thread count above the width and the height,
every row band and every column band is `(0, -1)` and `blur` returns the buffer as it
was, whatever the buffer. -/
theorem blur_more_threads_than_lines (imagePixels : List Nat) (radius w h : Int) (T : Nat)
    (hr0 : 0 ≤ radius) (hr1 : radius ≤ 254) (hw0 : 0 ≤ w) (hh0 : 0 ≤ h)
    (hw : w < (T : Int)) (hh : h < (T : Int)) :
    (∀ b ∈ bands (Int.tdiv h (T : Int)) T, b = (0, -1)) ∧
    (∀ b ∈ bands (Int.tdiv w (T : Int)) T, b = (0, -1)) ∧
    blur imagePixels radius w h T = .ok imagePixels := by
  have eh : Int.tdiv h (T : Int) = 0 := Int.tdiv_eq_zero_of_lt hh0 hh
  have ew : Int.tdiv w (T : Int) = 0 := Int.tdiv_eq_zero_of_lt hw0 hw
  have hz : ∀ b ∈ bands 0 T, b = (0, -1) := by
    intro b hb
    obtain ⟨i, -, rfl⟩ := mem_bands _ _ _ hb
    simp
  rw [eh, ew]
  refine ⟨hz, hz, ?_⟩
  unfold blur
  rw [tableAt_ok _ _ hr0 (by rw [MUL_TABLE_length]; omega),
    tableAt_ok _ _ hr0 (by rw [SHR_TABLE_length]; omega)]
  simp only [eh, ew]
  have hd : 0 ≤ (newSharedValues radius w h (MUL_TABLE.getD radius.toNat 0)
      (SHR_TABLE.getD radius.toNat 0)).divisor := by
    show 0 ≤ radius * 2 + 1
    omega
  have hrows := runJobs_empty (processingRow (newSharedValues radius w h
      (MUL_TABLE.getD radius.toNat 0) (SHR_TABLE.getD radius.toNat 0)))
    (fun px first last hl => processingRow_empty _ hd px first last hl)
    (bands 0 T) (fun b hb => by rw [hz b hb]; decide) imagePixels
  have hcols := runJobs_empty (processingColumn (newSharedValues radius w h
      (MUL_TABLE.getD radius.toNat 0) (SHR_TABLE.getD radius.toNat 0)))
    (fun px first last hl => processingColumn_empty _ hd px first last hl)
    (bands 0 T) (fun b hb => by rw [hz b hb]; decide) imagePixels
  show (runJobs _ (bands 0 T) imagePixels >>= fun afterRows => runJobs _ (bands 0 T) afterRows) = _
  rw [hrows]
  exact hcols

/-- C26, witness: four threads on a 3x2 buffer at radius 2. -/
theorem blur_more_threads_than_lines_witness :
    (∀ b ∈ bands (Int.tdiv 2 ((4 : Nat) : Int)) 4, b = (0, -1)) ∧
    (∀ b ∈ bands (Int.tdiv 3 ((4 : Nat) : Int)) 4, b = (0, -1)) ∧
    blur [0xFF102030, 0xFF405060, 0xFF708090, 0xFFA0B0C0, 0xFFD0E0F0, 0xFF112233] 2 3 2 4 =
      .ok [0xFF102030, 0xFF405060, 0xFF708090, 0xFFA0B0C0, 0xFFD0E0F0, 0xFF112233] :=
  blur_more_threads_than_lines _ 2 3 2 4 (by decide) (by decide) (by decide) (by decide)
    (by decide) (by decide)

/-- C27: on a buffer of `width * height` pixels, for any radius `r ≥ 0` and rows
`0 ≤ s ≤ m < e ≤ height - 1`, the row job over `s .. m` followed by the row job over
`m + 1 .. e` ends without a fault with the buffer that the one row job over `s .. e`
returns; and for columns `0 ≤ cs ≤ cm < ce ≤ width - 1` so do the column jobs over
`cs .. cm`, `cm + 1 .. ce` and `cs .. ce`.  Each half holds on its own, also for an image
of one column or of one row.  The second job of a pair starts with a fresh window, the
single job with the window that the scanline before has left: the result is the same
because a scanline never reads a cell of the window that its own seeding loop has not
written. -/
theorem band_splitting (r w h : Nat) (multiplySum shiftSum : Int)
    (imagePixels : List Nat) (s m e cs cm ce : Int)
    (hw : 0 < w) (hh : 0 < h) (hlen : imagePixels.length = w * h) :
    (0 ≤ s ∧ s ≤ m ∧ m < e ∧ e ≤ (h : Int) - 1 →
      ∃ mid out,
        processingRow (newSharedValues r w h multiplySum shiftSum) imagePixels s m = .ok mid ∧
        processingRow (newSharedValues r w h multiplySum shiftSum) mid (m + 1) e = .ok out ∧
        processingRow (newSharedValues r w h multiplySum shiftSum) imagePixels s e = .ok out) ∧
    (0 ≤ cs ∧ cs ≤ cm ∧ cm < ce ∧ ce ≤ (w : Int) - 1 →
      ∃ mid out,
        processingColumn (newSharedValues r w h multiplySum shiftSum) imagePixels cs cm =
          .ok mid ∧
        processingColumn (newSharedValues r w h multiplySum shiftSum) mid (cm + 1) ce =
          .ok out ∧
        processingColumn (newSharedValues r w h multiplySum shiftSum) imagePixels cs ce =
          .ok out) := by
  have hv : Valid (newSharedValues r w h multiplySum shiftSum) r w h :=
    ⟨rfl, rfl, rfl, rfl, rfl, rfl, hw, hh⟩
  have hd := hv.divisor_eq
  have hA : (imagePixels.map alpha).length = w * h := by rw [List.length_map, hlen]
  have hinit : ∀ px : List Nat, px.map alpha = imagePixels.map alpha →
      JobInv r (imagePixels.map alpha) (initLocals px
        (List.replicate (newSharedValues r w h multiplySum shiftSum).divisor.toNat 0)) :=
    fun px hpx => ⟨hpx, by simp only [initLocals, List.length_replicate]; omega⟩
  constructor
  · rintro ⟨h0, hsm, hme, h1⟩
    obtain ⟨v1, -, hv1, -, hK1, -, -⟩ := processingRow_loop_forgets _ r w h hv _ hA s
      (m + 1 - s).toNat h0 (by omega) _ _ (hinit _ rfl) (hinit _ rfl) rfl
    obtain ⟨t1, t2, ht1, ht2, -, -, hE⟩ := processingRow_loop_forgets _ r w h hv _ hA (m + 1)
      (e + 1 - (m + 1)).toNat (by omega) (by omega) v1
      (initLocals v1.imagePixels
        (List.replicate (newSharedValues r w h multiplySum shiftSum).divisor.toNat 0))
      hK1 (hinit _ hK1.1) rfl
    refine ⟨v1.imagePixels, t2.imagePixels,
      processingRow_of_loop _ imagePixels s m v1 (by omega) hv1,
      processingRow_of_loop _ v1.imagePixels (m + 1) e t2 (by omega) ht2, ?_⟩
    rw [← hE]
    apply processingRow_of_loop _ imagePixels s e t1 (by omega)
    have hn : (e + 1 - s).toNat = (m + 1 - s).toNat + (e + 1 - (m + 1)).toNat := by omega
    rw [hn, forRange_append, hv1]
    have hs : s + (((m + 1 - s).toNat : Nat) : Int) = m + 1 := by omega
    show forRange _ _ (s + (((m + 1 - s).toNat : Nat) : Int)) v1 = _
    rw [hs]
    exact ht1
  · rintro ⟨c0, hcsm, hcme, c1⟩
    obtain ⟨v1, -, hv1, -, hK1, -, -⟩ := processingColumn_loop_forgets _ r w h hv _ hA cs
      (cm + 1 - cs).toNat c0 (by omega) _ _ (hinit _ rfl) (hinit _ rfl) rfl
    obtain ⟨t1, t2, ht1, ht2, -, -, hE⟩ := processingColumn_loop_forgets _ r w h hv _ hA
      (cm + 1) (ce + 1 - (cm + 1)).toNat (by omega) (by omega) v1
      (initLocals v1.imagePixels
        (List.replicate (newSharedValues r w h multiplySum shiftSum).divisor.toNat 0))
      hK1 (hinit _ hK1.1) rfl
    refine ⟨v1.imagePixels, t2.imagePixels,
      processingColumn_of_loop _ imagePixels cs cm v1 (by omega) hv1,
      processingColumn_of_loop _ v1.imagePixels (cm + 1) ce t2 (by omega) ht2, ?_⟩
    rw [← hE]
    apply processingColumn_of_loop _ imagePixels cs ce t1 (by omega)
    have hn : (ce + 1 - cs).toNat = (cm + 1 - cs).toNat + (ce + 1 - (cm + 1)).toNat := by omega
    rw [hn, forRange_append, hv1]
    have hs : cs + (((cm + 1 - cs).toNat : Nat) : Int) = cm + 1 := by omega
    show forRange _ _ (cs + (((cm + 1 - cs).toNat : Nat) : Int)) v1 = _
    rw [hs]
    exact ht1

/-- C27, witness: radius 1; the rows 0 and 1 .. 2 of an image of one column and three
rows, and the columns 0 and 1 .. 2 of an image of three columns and one row. -/
theorem band_splitting_witness :
    (∃ mid out,
      processingRow (newSharedValues (1 : Nat) (1 : Nat) (3 : Nat) 512 11)
        [0xFF000010, 0xFF000020, 0xFF000030] 0 0 = .ok mid ∧
      processingRow (newSharedValues (1 : Nat) (1 : Nat) (3 : Nat) 512 11) mid (0 + 1) 2 =
        .ok out ∧
      processingRow (newSharedValues (1 : Nat) (1 : Nat) (3 : Nat) 512 11)
        [0xFF000010, 0xFF000020, 0xFF000030] 0 2 = .ok out) ∧
    (∃ mid out,
      processingColumn (newSharedValues (1 : Nat) (3 : Nat) (1 : Nat) 512 11)
        [0xFF000010, 0xFF000020, 0xFF000030] 0 0 = .ok mid ∧
      processingColumn (newSharedValues (1 : Nat) (3 : Nat) (1 : Nat) 512 11) mid (0 + 1) 2 =
        .ok out ∧
      processingColumn (newSharedValues (1 : Nat) (3 : Nat) (1 : Nat) 512 11)
        [0xFF000010, 0xFF000020, 0xFF000030] 0 2 = .ok out) :=
  ⟨(band_splitting 1 1 3 512 11 [0xFF000010, 0xFF000020, 0xFF000030] 0 0 2 0 0 0
      (by decide) (by decide) (by decide)).1 (by decide),
    (band_splitting 1 3 1 512 11 [0xFF000010, 0xFF000020, 0xFF000030] 0 0 0 0 0 2
      (by decide) (by decide) (by decide)).2 (by decide)⟩

end StackBlur
